import Mathlib

/-!
# A verification development for the CBake incremental build engine

This file gives a shallow embedding, in Lean 4, of the core of `cbake.py`:
the logical-to-physical path resolver (`pjoin`, `get_effective_path_`,
`get_effective_path_s`), the conditional flag evaluator
(`conditional_element`, `collect_args`), the persisted dependency store
(`read_dep_file`, `write_dep_file`), the include-graph discovery algorithm
(`discover` with its forward and backward passes), the diagnostic stream
parser of `exec_compiler`, and the orchestration of `process_files`.

Modelling conventions:
* Python strings are modelled as `List Char` (`Name` below); the host is
  modelled as POSIX, so `os.sep = "/"` and the `replace("/", os.sep)` calls
  in the source are no-ops.
* Python dicts are modelled as association lists (`PyDict`) with Python's
  insertion-order update semantics; Python dict equality (`==`/`!=`) is
  lookup equality, modelled by `PyDict.eqv`/decidable `PyDict.eqb`.
* Python sets of strings are modelled as `Finset Name`; where the source
  iterates over a set (an unspecified order in Python), the model iterates
  in the canonical sorted order.
* Python functions that can raise exceptions are modelled with `Option`
  (`none` = an uncaught exception propagates).
* Modification times are floats in the source, used only via `>`, `=` and a
  round-tripping decimal serialization (`str`/`float`); they are modelled as
  `ℕ` with a round-tripping decimal serialization.
* The filesystem (existence, mtimes and file contents) is the `FS`
  structure; file contents are abstracted to the data the engine actually
  reads from them: the list of quoted `#include` targets with their
  1-based line numbers (the output of `get_includes`' textual scan, whose
  `.`-relative resolution step is modelled explicitly), and the raw text
  lines used when formatting diagnostics.
-/

set_option maxRecDepth 10000

/-- Python strings, modelled as lists of characters. -/
abbrev Name := List Char

/-- Python's notion of whitespace for `str.strip`/`str.split`. -/
def isPySpace (c : Char) : Bool :=
  c = ' ' || c = '\t' || c = '\n' || c = '\x0d' || c = '\x0b' || c = '\x0c'

/-- `str.strip()`: remove leading and trailing whitespace. -/
def pyStrip (s : Name) : Name :=
  ((s.dropWhile isPySpace).reverse.dropWhile isPySpace).reverse

/-- `str.split()` with no arguments: split on whitespace runs, dropping
empty pieces. -/
def pySplitWs (s : Name) : List Name :=
  (s.splitOnP isPySpace).filter (· ≠ [])

/-- Python `list.index`-style find: first index of `c`, or `-1` if absent
(`str.find`). -/
def pyFind (s : Name) (c : Char) : Int :=
  match s.findIdx? (· = c) with
  | some i => (i : Int)
  | none => -1

/-- `str.rfind`: last index of `c`, or `-1` if absent. -/
def pyRFindAux (c : Char) : Name → Nat → Option Nat
  | [], _ => none
  | a :: l, i =>
    match pyRFindAux c l (i + 1) with
    | some j => some j
    | none => if a = c then some i else none

/-- `str.rfind c`: index of the last occurrence of `c`, or `-1`. -/
def pyRFind (s : Name) (c : Char) : Int :=
  match pyRFindAux c s 0 with
  | some i => (i : Int)
  | none => -1

/-- Normalize one endpoint of a Python slice `s[i:j]` of a string of length
`len`: negative indices count from the end, and both ends are clamped. -/
def pySliceIdx (len : Nat) (i : Int) : Nat :=
  if i < 0 then ((len : Int) + i).toNat else min i.toNat len

/-- Python slice `l[s:e]` with integer endpoints. -/
def pySlice (l : List α) (s e : Int) : List α :=
  (l.take (pySliceIdx l.length e)).drop (pySliceIdx l.length s)

/-- Python indexing `l[i]` with negative-index support; `none` models
`IndexError`. -/
def pyGet (l : List α) (i : Int) : Option α :=
  let j : Int := if i < 0 then (l.length : Int) + i else i
  if j < 0 then none else l.get? j.toNat

/-! ## Python dicts -/

/-- A Python dict with `Name` keys: an association list in insertion order.
All dicts built by the engine have pairwise distinct keys. -/
abbrev PyDict (α : Type) := List (Name × α)

namespace PyDict

/-- `d[k]` / `d.get(k)`: the value stored at `k`. -/
def lookup : PyDict α → Name → Option α
  | [], _ => none
  | (k', v) :: rest, k => if k' = k then some v else lookup rest k

/-- `list(d.keys())` in insertion order. -/
def keys (d : PyDict α) : List Name := d.map Prod.fst

/-- `d[k] = v`: replace in place if the key is present, else append
(Python dicts preserve insertion order). -/
def assign : PyDict α → Name → α → PyDict α
  | [], k, v => [(k, v)]
  | (k', v') :: rest, k, v =>
    if k' = k then (k, v) :: rest else (k', v') :: assign rest k v

/-- `del d[k]` (a no-op when the key is absent; the engine only deletes
keys it knows to be present). -/
def erase : PyDict α → Name → PyDict α
  | [], _ => []
  | (k', v') :: rest, k => if k' = k then rest else (k', v') :: erase rest k

/-- Python dict equality `d1 == d2`: same keys, same values. -/
def eqv (a b : PyDict α) : Prop := ∀ k, a.lookup k = b.lookup k

/-- Decidable test for Python dict equality. -/
def eqb [DecidableEq α] (a b : PyDict α) : Bool :=
  (a.keys.all fun k => a.lookup k = b.lookup k) &&
    (b.keys.all fun k => a.lookup k = b.lookup k)

theorem lookup_eq_none_of_not_mem_keys {d : PyDict α} {k : Name}
    (h : k ∉ d.keys) : d.lookup k = none := by
  induction d with
  | nil => rfl
  | cons p rest ih =>
    obtain ⟨pk, pv⟩ := p
    simp only [keys, List.map_cons, List.mem_cons, not_or] at h
    have h1 : ¬ pk = k := fun he => h.1 he.symm
    simp only [lookup, if_neg h1]
    exact ih h.2

theorem mem_keys_of_lookup_isSome {d : PyDict α} {k : Name}
    (h : (d.lookup k).isSome) : k ∈ d.keys := by
  by_contra hk
  rw [lookup_eq_none_of_not_mem_keys hk] at h
  simp at h

theorem eqb_iff_eqv [DecidableEq α] (a b : PyDict α) :
    a.eqb b = true ↔ a.eqv b := by
  constructor
  · intro h k
    simp only [eqb, Bool.and_eq_true, List.all_eq_true, decide_eq_true_eq] at h
    by_cases ha : k ∈ a.keys
    · exact h.1 k ha
    · by_cases hb : k ∈ b.keys
      · exact h.2 k hb
      · rw [lookup_eq_none_of_not_mem_keys ha, lookup_eq_none_of_not_mem_keys hb]
  · intro h
    simp only [eqb, Bool.and_eq_true, List.all_eq_true, decide_eq_true_eq]
    exact ⟨fun k _ => h k, fun k _ => h k⟩

theorem lookup_assign (d : PyDict α) (k : Name) (v : α) (k' : Name) :
    (d.assign k v).lookup k' = if k = k' then some v else d.lookup k' := by
  induction d with
  | nil => simp [assign, lookup]
  | cons p rest ih =>
    obtain ⟨pk, pv⟩ := p
    simp only [assign]
    by_cases hpk : pk = k
    · subst hpk
      simp only [if_pos rfl, lookup]
      by_cases hk : pk = k' <;> simp [hk]
    · simp only [if_neg hpk, lookup, ih]
      by_cases hpk' : pk = k'
      · subst hpk'
        have hkpk : ¬ k = pk := fun h => hpk h.symm
        simp [hkpk]
      · simp [hpk']

theorem lookup_erase_of_nodup (d : PyDict α) (hd : d.keys.Nodup) (k k' : Name) :
    (d.erase k).lookup k' = if k = k' then none else d.lookup k' := by
  induction d with
  | nil => simp [erase, lookup]
  | cons p rest ih =>
    obtain ⟨pk, pv⟩ := p
    simp only [keys, List.map_cons, List.nodup_cons] at hd
    have hrest := ih hd.2
    simp only [erase]
    by_cases hpk : pk = k
    · subst hpk
      rw [if_pos rfl]
      by_cases hk : pk = k'
      · subst hk
        rw [if_pos rfl]
        exact lookup_eq_none_of_not_mem_keys hd.1
      · rw [if_neg hk]
        simp only [lookup, if_neg hk]
    · rw [if_neg hpk]
      simp only [lookup, hrest]
      by_cases hpk' : pk = k'
      · subst hpk'
        have hkpk : ¬ k = pk := fun h => hpk h.symm
        simp [hkpk]
      · simp [hpk']

end PyDict

/-! ## The conditional flag evaluator (`conditional_element`, `collect_args`)

The flag table `ctx.flags` is a finite string-to-bool dict; only membership
tests and lookups are applied to it, so it is modelled as a lookup function
`Name → Option Bool`. -/

/-- `flag in ctx.flags and ctx.flags[flag]`. -/
def flagTrue (flags : Name → Option Bool) (flag : Name) : Bool :=
  match flags flag with
  | some b => b
  | none => false

/-- One conjunct of the `&`-separated condition list: strip, handle `!`
negation, look the flag up. -/
def condHolds (flags : Name → Option Bool) (flag0 : Name) : Bool :=
  let flag1 := pyStrip flag0
  let negated : Bool := flag1.head? = some '!'
  let flag := if negated then pyStrip (flag1.drop 1) else flag1
  let result := flagTrue flags flag
  if negated then !result else result

/-- `conditional_element(ctx, s)` from `cbake.py`.  For an `@`-element the
condition part runs to the first `:` (Python `find` returns `-1` if there is
no colon, making the condition `s[:-1]` and the payload the whole of `s`).
The element contributes its post-colon text only if every conjunct holds. -/
def conditional_element (flags : Name → Option Bool) (s0 : Name) : Name :=
  if s0.head? = some '@' then
    let s := s0.drop 1
    let flagEnd : Option Nat := s.findIdx? (· = ':')
    let flagPart : Name :=
      match flagEnd with
      | some i => s.take i
      | none => s.dropLast
    let flagList := flagPart.splitOn '&'
    if flagList.all (condHolds flags) then
      match flagEnd with
      | some i => s.drop (i + 1)
      | none => s
    else []
  else s0

/-- `collect_args(ctx, str_or_list)`: a plain string is returned as is; a
list is mapped through `conditional_element` and space-joined. -/
def collect_args (flags : Name → Option Bool) : Name ⊕ List Name → Name
  | .inl s => s
  | .inr l => List.intercalate [' '] (l.map (conditional_element flags))


/-! ## The path resolver (`pjoin`, `get_effective_path_`, `get_effective_path_s`)

`pjoin` normalizes and joins path fragments: empty and `.` components are
dropped, `..` pops the previous component (raising `FileNotFoundError`,
i.e. `none`, when there is nothing to pop), and the result is the
`/`-joined component stack. -/

/-- Process a single path component onto the component stack. -/
def pjoinComp (stack : List Name) (d : Name) : Option (List Name) :=
  if d = [] then some stack
  else if d = ['.'] then some stack
  else if d = ['.', '.'] then
    match stack with
    | [] => none
    | _ => some stack.dropLast
  else some (stack ++ [d])

/-- Fold all components of all fragments onto the stack. -/
def pjoinFold (stack : List Name) : List Name → Option (List Name)
  | [] => some stack
  | d :: ds =>
    match pjoinComp stack d with
    | none => none
    | some st => pjoinFold st ds

/-- `pjoin(*paths)` from `cbake.py` (POSIX: `os.sep = "/"`). -/
def pjoin (paths : List Name) : Option Name :=
  match pjoinFold [] ((paths.map (fun p => p.splitOn '/')).flatten) with
  | none => none
  | some st => some (List.intercalate ['/'] st)

/-- The result of resolving a logical filename: the source uses the two
sentinel objects `FILE_NOT_FOUND` and `FILE_AMBIGUOUS` alongside plain
effective-path strings. -/
inductive EffPath where
  | resolved : Name → EffPath
  | notFound : EffPath
  | ambiguous : EffPath
deriving DecidableEq

/-- `get_err_msg(efn)`: `None` (modelled `none`) for an actual path. -/
def get_err_msg : EffPath → Option Name
  | .notFound => some "No such file or directory".data
  | .ambiguous => some "Ambiguous file include".data
  | .resolved _ => none

/-- `get_effective_path_(path)`: checks existence of `src/<path>` and
`include/<path>`; ambiguous when both exist at different physical paths.
`ex` is `os.path.exists` on physical paths; the outer `none` models the
`FileNotFoundError` escaping from `pjoin`. -/
def get_effective_path_ (ex : Name → Bool) (path : Name) : Option EffPath :=
  match pjoin ["src".data, path], pjoin ["include".data, path] with
  | some src_path, some inc_path =>
    let in_src := ex src_path
    let in_include := ex inc_path
    if in_src ∧ in_include ∧ src_path ≠ inc_path then some .ambiguous
    else if in_src then some (.resolved src_path)
    else if in_include then some (.resolved inc_path)
    else some .notFound
  | _, _ => none

/-- `get_effective_path_s(ctx, path)`: the memoizing wrapper around
`get_effective_path_`, threading `ctx.path_cache`. -/
def get_effective_path_s (ex : Name → Bool) (cache : PyDict EffPath)
    (path : Name) : Option (EffPath × PyDict EffPath) :=
  match cache.lookup path with
  | some e => some (e, cache)
  | none =>
    match get_effective_path_ ex path with
    | none => none
    | some e => some (e, cache.assign path e)

/-! ## The filesystem model and include scanning -/

/-- The filesystem as the engine observes it during one `discover` run:
* `files` — the finite set of physical paths for which `os.path.exists`
  holds;
* `mtime` — `os.path.getmtime` (only ever applied to existing paths);
* `rawIncs` — the quoted `#include "..."` targets of an existing file
  together with their 1-based line numbers, exactly as the textual scan in
  `get_includes` extracts them (before its `.`-relative rewriting);
* `lineAt` — the raw text line of a file at a 1-based line number, as
  `check_includes` re-reads it to format a diagnostic (`none` models an
  `IndexError` for an out-of-range stored line number). -/
structure FS where
  files : Finset Name
  mtime : Name → Nat
  rawIncs : Name → List (Name × Nat)
  lineAt : Name → Int → Option Name

/-- Resolve a logical name against this filesystem. -/
def FS.resolve (fs : FS) (path : Name) : Option EffPath :=
  get_effective_path_ (fun p => p ∈ fs.files) path

/-- `os.path.split(p)[0]` (POSIX `posixpath.split`): head is everything up
to and including the last `/`, with trailing slashes stripped unless the
head is all slashes. -/
def pyDirname (s : Name) : Name :=
  match pyRFindAux '/' s 0 with
  | none => []
  | some i =>
    let head := s.take (i + 1)
    if head.any (fun c => ¬ c = '/') then
      (head.reverse.dropWhile (· = '/')).reverse
    else head

/-- `get_includes(filename, efilename)`: the quoted include targets of the
file at physical path `efilename`, with `.`-prefixed targets resolved
against the directory of the *logical* name `filename`. -/
def getIncludes (fs : FS) (filename efilename : Name) : List (Name × Nat) :=
  (fs.rawIncs efilename).map fun p =>
    (if p.1.head? = some '.' then pyDirname filename ++ '/' :: p.1 else p.1, p.2)

/-- One synthetic compiler-style diagnostic emitted by `check_includes`:
the physical path of the including file, the 1-based line, the 0-based
column of the opening quote, the re-extracted quoted name, and the
`get_err_msg` text. -/
structure Diag where
  file : Name
  line : Nat
  col : Int
  rfname : Name
  msg : Name
deriving DecidableEq

/-- The body of `check_includes`' error branch: re-read the offending line
and extract the quoted name between the first two `"` characters (Python
`find` returning `-1` when absent, with Python slice semantics). -/
def mkDiag (fs : FS) (efilename : Name) (ln : Nat) (msg : Name) :
    Option Diag :=
  match fs.lineAt efilename ((ln : Int) - 1) with
  | none => none
  | some l =>
    let a := pyFind l '"'
    let b :=
      match (l.drop (a + 1).toNat).findIdx? (· = '"') with
      | some j => a + 1 + (j : Int)
      | none => -1
    some ⟨efilename, ln, a + 1 - 1, pySlice l (a + 1) b, msg⟩

/-- One step of the `check_includes` loop over the include list.  The state
is (`success`, diagnostics so far); `none` models an exception escaping
(`pjoin` raising inside the resolver, or the `contents[ln-1]` index). -/
def checkStep (fs : FS) (efilename : Name) (st : Bool × List Diag)
    (inc : Name × Nat) : Option (Bool × List Diag) :=
  match fs.resolve inc.1 with
  | none => none
  | some efn =>
    match get_err_msg efn with
    | none => some st
    | some msg =>
      match mkDiag fs efilename inc.2 msg with
      | none => none
      | some d => some (false, st.2 ++ [d])

/-- `check_includes(ctx, filename, efilename, includes)`: `true` iff every
include target resolves to an actual file; each failing target produces one
diagnostic.  (The cache-threading of `get_effective_path_s` is semantically
transparent, see `get_effective_path_s_pure` below, so the pure resolver is
used here.) -/
def checkIncludes (fs : FS) (efilename : Name) (includes : List (Name × Nat)) :
    Option (Bool × List Diag) :=
  includes.foldlM (checkStep fs efilename) (true, [])

/-! ## The include-graph discoverer (`discover`) -/

/-- An include list: `(target logical file, 1-based line)` pairs. -/
abbrev IncList := List (Name × Nat)

/-- `get_included_files(includes)`: the set of target names. -/
def includeNames (incs : IncList) : Finset Name :=
  (incs.map Prod.fst).toFinset

/-! Python iterates sets and sorts schedules in an order the model fixes as
the sorted order of the names; an insertion sort keeps the function fully
evaluable. -/

/-- Insert a name into a sorted list of names. -/
def insName (a : Name) : List Name → List Name
  | [] => [a]
  | b :: l => if a ≤ b then a :: b :: l else b :: insName a l

/-- Insertion sort on lists of names. -/
def insSort : List Name → List Name
  | [] => []
  | a :: l => insName a (insSort l)

theorem insName_perm (a : Name) (l : List Name) :
    List.Perm (insName a l) (a :: l) := by
  induction l with
  | nil => simp [insName]
  | cons b t ih =>
    by_cases h : a ≤ b
    · simp [insName, h]
    · rw [insName, if_neg h]
      exact (ih.cons b).trans (List.Perm.swap a b t)

theorem insSort_perm (l : List Name) : List.Perm (insSort l) l := by
  induction l with
  | nil => exact List.Perm.refl _
  | cons a t ih =>
    exact (insName_perm a (insSort t)).trans (ih.cons a)

theorem insName_sorted (a : Name) {l : List Name}
    (h : l.Sorted (· ≤ ·)) : (insName a l).Sorted (· ≤ ·) := by
  induction l with
  | nil => simp [insName]
  | cons b t ih =>
    rw [List.sorted_cons] at h
    by_cases hab : a ≤ b
    · rw [insName, if_pos hab, List.sorted_cons]
      refine ⟨?_, List.sorted_cons.mpr h⟩
      intro x hx
      rcases List.mem_cons.mp hx with rfl | hx
      · exact hab
      · exact le_trans hab (h.1 x hx)
    · rw [insName, if_neg hab, List.sorted_cons]
      refine ⟨?_, ih h.2⟩
      intro x hx
      rcases List.mem_cons.mp ((insName_perm a t).mem_iff.mp hx) with rfl | hx
      · exact le_of_not_le hab
      · exact h.1 x hx

theorem insSort_sorted (l : List Name) : (insSort l).Sorted (· ≤ ·) := by
  induction l with
  | nil => simp [insSort]
  | cons a t ih => exact insName_sorted a ih

/-- The sorted list of a finite set of names (the model's determinization
of Python's set iteration). -/
def sortFinset (s : Finset Name) : List Name :=
  Quot.liftOn s.val insSort fun l₁ l₂ h =>
    List.eq_of_perm_of_sorted
      ((insSort_perm l₁).trans ((id h : List.Perm l₁ l₂).trans
        (insSort_perm l₂).symm))
      (insSort_sorted l₁) (insSort_sorted l₂)

theorem mem_sortFinset (a : Name) (s : Finset Name) :
    a ∈ sortFinset s ↔ a ∈ s := by
  obtain ⟨m, hnd⟩ := s
  revert hnd
  refine Quotient.inductionOn m ?_
  intro l hnd
  show a ∈ insSort l ↔ _
  rw [(insSort_perm l).mem_iff]
  simp [Finset.mem_mk]

theorem sortFinset_nodup (s : Finset Name) : (sortFinset s).Nodup := by
  obtain ⟨m, hnd⟩ := s
  revert hnd
  refine Quotient.inductionOn m ?_
  intro l hnd
  exact ((insSort_perm l).nodup_iff).mpr hnd

theorem sortFinset_toFinset (s : Finset Name) :
    (sortFinset s).toFinset = s := by
  ext a
  rw [List.mem_toFinset, mem_sortFinset]

/-- The mutable state of `discover`'s forward pass. -/
structure FwdSt where
  checked : Finset Name
  newft : PyDict Nat
  newfi : PyDict IncList
  known : Finset Name
  modified : Finset Name
  success : Bool
  diags : List Diag
deriving DecidableEq

/-- The body of the forward pass's `for fn in cur_files` loop.  `checked'`
is `checked_files` as updated at the start of the level; the accumulator
carries the forward state and `next_files`.  `none` arises when the
`assert get_err_msg(efn) == None` fails (the file is `NotFound`/`Ambiguous`)
or an exception escapes `pjoin`/`check_includes`.

The lookups `file_times[fn]` and `file_includes[fn]` are reached only when
`fn ∈ known_files`; `known_files` starts as the loaded store's key set and
frontier files are never re-processed, so at that point `fn` is a key of
the loaded dicts whenever the two loaded maps have equal key sets (as every
store produced by `read_dep_file` does); the `.getD` defaults are never
taken there. -/
def fwdFile (fs : FS) (ft : PyDict Nat) (fi : PyDict IncList)
    (checked' : Finset Name) (acc : FwdSt × Finset Name) (fn : Name) :
    Option (FwdSt × Finset Name) :=
  let st := acc.1
  match fs.resolve fn with
  | some (.resolved p) =>
    let f_time := fs.mtime p
    let isMod : Bool := decide (fn ∉ st.known) || decide (f_time > (ft.lookup fn).getD 0)
    let includes := if isMod then getIncludes fs fn p else (fi.lookup fn).getD []
    let modified' := if isMod then st.modified ∪ {fn} else st.modified
    match checkIncludes fs p includes with
    | none => none
    | some (ok, ds) =>
      if ok then
        some ({ st with
                  newfi := st.newfi.assign fn includes
                  newft := st.newft.assign fn f_time
                  known := st.known ∪ {fn}
                  modified := modified'
                  diags := st.diags ++ ds },
              acc.2 ∪ (includeNames includes \ checked'))
      else
        some ({ st with success := false, modified := modified',
                        diags := st.diags ++ ds },
              acc.2)
  | _ => none

/-- One level of the forward pass: mark the whole frontier checked, then
process each frontier file (the Python set iteration order is unspecified;
the model iterates in sorted order). -/
def fwdLevel (fs : FS) (ft : PyDict Nat) (fi : PyDict IncList)
    (st : FwdSt) (cur : Finset Name) : Option (FwdSt × Finset Name) :=
  let checked' := st.checked ∪ cur
  (sortFinset cur).foldlM (fwdFile fs ft fi checked')
    ({ st with checked := checked' }, (∅ : Finset Name))

/-- The forward pass's `while cur_files:` loop.  `fuel` bounds the number
of levels; `none` also covers a run that does not finish within `fuel`
levels (the Python loop can genuinely diverge on adversarial
`.`-relative self-includes, so no internal bound exists). -/
def fwdLoop (fs : FS) (ft : PyDict Nat) (fi : PyDict IncList) :
    Nat → FwdSt → Finset Name → Option FwdSt
  | 0, _, _ => none
  | fuel + 1, st, cur =>
    if cur = ∅ then some st
    else
      match fwdLevel fs ft fi st cur with
      | none => none
      | some (st', next) => fwdLoop fs ft fi fuel st' next

/-- The middle pass: the inverted include graph.  The source builds the
dict `included_from` mapping each included file to the set of its
includers; the model gives that mapping pointwise (a name outside the dict
maps to the empty set, matching the `if ff in included_from` guard). -/
def includedFrom (nfi : PyDict IncList) (ff : Name) : Finset Name :=
  nfi.keys.toFinset.filter (fun fn => ff ∈ includeNames ((nfi.lookup fn).getD []))

/-- The backward pass: breadth-first propagation of modifications along the
inverted include graph, collecting the top-level sources reached. -/
def bwdLoop (incFrom : Name → Finset Name) (src : Finset Name) :
    Nat → Finset Name → Finset Name → Finset Name → Option (Finset Name)
  | 0, _, _, _ => none
  | fuel + 1, cur, propagated, recompile =>
    if cur = ∅ then some recompile
    else
      let propagated' := propagated ∪ cur
      let recompile' := recompile ∪ (cur ∩ src)
      let next := cur.biUnion incFrom \ propagated'
      bwdLoop incFrom src fuel next propagated' recompile'

/-- The tuple returned by `discover`, plus the diagnostics it printed. -/
structure DiscoverResult where
  newft : PyDict Nat
  newfi : PyDict IncList
  recompile : Finset Name
  success : Bool
  diags : List Diag
deriving DecidableEq

/-- `discover(ctx, file_times, file_includes, sources)`.  The backward
pass's frontier only ever contains modified files and keys of
`new_file_includes`, so the internal bound suffices for it
(`bwdLoop_total` below); the forward pass takes the explicit `fuel`. -/
def discover (fuel : Nat) (fs : FS) (ft : PyDict Nat) (fi : PyDict IncList)
    (sources : List Name) : Option DiscoverResult :=
  let src_files : Finset Name := sources.toFinset
  let st0 : FwdSt := ⟨∅, [], [], ft.keys.toFinset, ∅, true, []⟩
  match fwdLoop fs ft fi fuel st0 src_files with
  | none => none
  | some st =>
    let incFrom := includedFrom st.newfi
    let bfuel := (st.modified ∪ st.newfi.keys.toFinset).card + 1
    match bwdLoop incFrom src_files bfuel st.modified ∅ ∅ with
    | none => none
    | some recompile => some ⟨st.newft, st.newfi, recompile, st.success, st.diags⟩

/-! ## The dependency store (`read_dep_file`, `write_dep_file`)

Modification times are serialized with `str` and parsed with `float` in the
source, a round-tripping, whitespace-free decimal rendering; the model's
`ℕ` mtimes use the corresponding decimal digit rendering. -/

/-- The decimal digit character for `d < 10`. -/
def dChar (d : Nat) : Char := Char.ofNat (48 + d)

/-- Base-10 digit list, little-endian, with a structural fuel bound. -/
def digitsAux : Nat → Nat → List Nat
  | 0, _ => []
  | _ + 1, 0 => []
  | fuel + 1, n + 1 => (n + 1) % 10 :: digitsAux fuel ((n + 1) / 10)

theorem digitsAux_eq : ∀ fuel n, n ≤ fuel → digitsAux fuel n = Nat.digits 10 n := by
  intro fuel
  induction fuel with
  | zero =>
    intro n hn
    interval_cases n
    rw [Nat.digits_zero]
    rfl
  | succ f ih =>
    intro n hn
    cases n with
    | zero => rw [Nat.digits_zero]; rfl
    | succ m =>
      show (m + 1) % 10 :: digitsAux f ((m + 1) / 10) = _
      rw [ih ((m + 1) / 10) (by omega)]
      rw [show (10 : Nat) = 8 + 2 from rfl, Nat.digits_add_two_add_one]

/-- Decimal rendering of a natural number. -/
def natChars (n : Nat) : Name :=
  if n = 0 then ['0'] else (digitsAux n n).reverse.map dChar

theorem natChars_eq (n : Nat) :
    natChars n = if n = 0 then ['0'] else (Nat.digits 10 n).reverse.map dChar := by
  unfold natChars
  rw [digitsAux_eq n n le_rfl]

/-- Decimal digit test. -/
def isDigitCh (c : Char) : Bool := 48 ≤ c.toNat && c.toNat ≤ 57

/-- Value of a decimal digit character. -/
def charDigit (c : Char) : Nat := c.toNat - 48

/-- Parse a decimal numeral; `none` models `int()`/`float()` raising
`ValueError` on a malformed token. -/
def parseNat? (s : Name) : Option Nat :=
  if s ≠ [] ∧ s.all isDigitCh then
    some (Nat.ofDigits 10 ((s.map charDigit).reverse))
  else none

/-- `parse_include(inc)` from `read_dep_file`: split at the *last* `@`
(`rfind`, `-1` when absent, with Python slice semantics), parse the line
number after it. -/
def parse_include (inc : Name) : Option (Name × Nat) :=
  let at_pos := pyRFind inc '@'
  match parseNat? (pySlice inc (at_pos + 1) inc.length) with
  | none => none
  | some ln => some (pySlice inc 0 at_pos, ln)

/-- Process one line of the store: strip, skip if blank, split into
whitespace-separated tokens `fn time inc...` (the per-token `str.strip` in
the source is a no-op on whitespace-split tokens).  `none` models the
unpacking `fn, time, *includes` or a numeric parse raising. -/
def readDepLine (acc : PyDict Nat × PyDict IncList) (l0 : Name) :
    Option (PyDict Nat × PyDict IncList) :=
  let l := pyStrip l0
  if l = [] then some acc
  else
    match pySplitWs l with
    | fn :: timeTok :: incToks =>
      match parseNat? timeTok, incToks.mapM parse_include with
      | some t, some incs => some (acc.1.assign fn t, acc.2.assign fn incs)
      | _, _ => none
    | _ => none

/-- `read_dep_file(ctx)`: `none` input models the store file being absent
(`FileNotFoundError` is caught and yields the empty state). -/
def read_dep_file : Option Name → Option (PyDict Nat × PyDict IncList)
  | none => some ([], [])
  | some content => (content.splitOn '\n').foldlM readDepLine ([], [])

/-- `sorted(file_times.keys())`. -/
def sortedKeys (ft : PyDict Nat) : List Name :=
  insSort ft.keys

/-- One `fname@line` token. -/
def incTok (p : Name × Nat) : Name := p.1 ++ '@' :: natChars p.2

/-- One store line `f"{fn} {s_time} {s_includes}"` (without the trailing
newline).  `file_includes[fn]` is looked up with a default that is never
taken when the two dicts have equal key sets, as everywhere in the engine. -/
def depLine (ft : PyDict Nat) (fi : PyDict IncList) (fn : Name) : Name :=
  fn ++ ' ' :: natChars ((ft.lookup fn).getD 0) ++ ' ' ::
    List.intercalate [' '] (((fi.lookup fn).getD []).map incTok)

/-- `write_dep_file(ctx, file_times, file_includes)`: one line per file,
sorted by filename, each terminated by a newline. -/
def write_dep_file (ft : PyDict Nat) (fi : PyDict IncList) : Name :=
  ((sortedKeys ft).map (fun fn => depLine ft fi fn ++ ['\n'])).flatten

/-! ## The compiler invoker's diagnostic stream parser (`exec_compiler`)

The stderr stream is modelled as the list of its lines (without trailing
newlines, which the regexes never match anyway), plus the process's exit
code.  Output is modelled as a list of structured events: each `tprint`
call becomes one event. -/

/-- `str.replace(pat, rep)`: leftmost, non-overlapping, scanning the
original string (an empty pattern, which Python treats specially, never
occurs in `colorize`). -/
def replaceAll (pat rep : Name) : Name → Name
  | [] => []
  | c :: rest =>
    if h : pat ≠ [] ∧ pat.isPrefixOf (c :: rest) then
      rep ++ replaceAll pat rep ((c :: rest).drop pat.length)
    else
      c :: replaceAll pat rep rest
termination_by l => l.length
decreasing_by
  · simp only [List.length_drop, List.length_cons]
    have h1 : 1 ≤ pat.length := by
      cases hp : pat with
      | nil => exact absurd hp h.1
      | cons a l => simp
    omega
  · simp

/-- The ANSI escape prefix `esc(cmds)`. -/
def esc (cmds : Name) : Name := '\x1b' :: '[' :: cmds

/-- `colorize(l)`: tint the `error:`, `warning:` and `note:` tokens. -/
def colorize (l : Name) : Name :=
  replaceAll "note:".data (esc "96m".data ++ "note:".data ++ esc "0m".data)
    (replaceAll "warning:".data (esc "95m".data ++ "warning:".data ++ esc "0m".data)
      (replaceAll "error:".data (esc "91m".data ++ "error:".data ++ esc "0m".data) l))

/-- Python's `sub in s` substring test. -/
def hasSubstr (pat l : Name) : Bool :=
  (List.range (l.length + 1)).any fun i => pat.isPrefixOf (l.drop i)

/-- `(l.takeWhile isDigitCh, l.dropWhile isDigitCh)`: a maximal `\d+` run. -/
def takeDigits (l : Name) : Name × Name := (l.takeWhile isDigitCh, l.dropWhile isDigitCh)

/-- A maximal `\s+` run. -/
def takeWs (l : Name) : Name × Name := (l.takeWhile isPySpace, l.dropWhile isPySpace)

/-- Parse the regex remainder `(\d+):(\d+):\s+(sev):\s+(.*)$` after the
colon that ends the greedy first group, for the severity alternatives in
`sevs` (tried in order).  Each component here is deterministic (maximal
digit/whitespace runs followed by a mandatory literal), so no backtracking
beyond the choice of the first group's colon is needed. -/
def parseMsgSuffix (sevs : List Name) (rest : Name) :
    Option (Name × Name × Name × Name) :=
  let (d1, r1) := takeDigits rest
  if d1 = [] then none else
  match r1 with
  | ':' :: r2 =>
    let (d2, r3) := takeDigits r2
    if d2 = [] then none else
    match r3 with
    | ':' :: r4 =>
      let (w, r5) := takeWs r4
      if w = [] then none else
      match sevs.find? (fun s => s.isPrefixOf r5) with
      | some sev =>
        match r5.drop sev.length with
        | ':' :: r6 =>
          let (w2, r7) := takeWs r6
          if w2 = [] then none else some (d1, d2, sev, r7)
        | _ => none
      | none => none
    | _ => none
  | _ => none

/-- The regex groups of `^(.*):(\d+):(\d+):\s+(error|warning):\s+(.*)$`
(or the `note` variant); the source keeps them as strings. -/
structure MsgGroups where
  file : Name
  line : Name
  colm : Name
  sevr : Name
  what : Name
deriving DecidableEq

/-- `re.match` for the diagnostic regexes: the greedy first group takes the
longest prefix ending at a colon whose remainder parses, so candidate
colons are tried right to left. -/
def matchDiag (sevs : List Name) (l : Name) : Option MsgGroups :=
  (((List.range l.length).filter (fun i => l.get? i = some ':')).reverse).findSome?
    (fun i =>
      (parseMsgSuffix sevs (l.drop (i + 1))).map
        (fun g => ⟨l.take i, g.1, g.2.1, g.2.2.1, g.2.2.2⟩))

/-- An output event of `exec_compiler`: one `tprint` call.  A `sum` event
carries the pending-diagnostic fields at flush time (they are `None` in
Python until first set); `blank` is an empty `tprint()`. -/
inductive OutEvent where
  | sum : Option Name → Option Name → Option Name → Option Name → Option Name → OutEvent
  | blank : OutEvent
  | raw : Name → OutEvent
deriving DecidableEq

/-- The parser state of `exec_compiler`: the pending diagnostic's fields
(`cur_file` … `cur_what`), the running counters, and the emitted events. -/
structure ExecSt where
  curFile : Option Name
  curLine : Option Name
  curColm : Option Name
  curSevr : Option Name
  curWhat : Option Name
  errors : Nat
  warnings : Nat
  out : List OutEvent
deriving DecidableEq

/-- `print_prev()`: flush the pending diagnostic as a `SUM:` recap followed
by two blank lines, unless `cur_file is None`. -/
def flushPrev (st : ExecSt) : List OutEvent :=
  match st.curFile with
  | none => []
  | some f => [.sum (some f) st.curLine st.curColm st.curSevr st.curWhat, .blank, .blank]

/-- Processing of one stderr line in `exec_compiler`'s loop: the
error/warning regex starts a new record (flushing the previous one and
counting), the `note` regex with an `in expansion` message relocates the
pending record, and the colorized raw line is printed. -/
def execLine (st : ExecSt) (l : Name) : ExecSt :=
  let st1 :=
    match matchDiag ["error".data, "warning".data] l with
    | some g =>
      { st with
          out := st.out ++ flushPrev st
          curFile := some g.file
          curLine := some g.line
          curColm := some g.colm
          curSevr := some g.sevr
          curWhat := some g.what
          errors := if g.sevr = "error".data then st.errors + 1 else st.errors
          warnings := if g.sevr = "warning".data then st.warnings + 1 else st.warnings }
    | none => st
  let st2 :=
    match matchDiag ["note".data] l with
    | some g =>
      if hasSubstr "in expansion".data g.what then
        { st1 with curFile := some g.file, curLine := some g.line, curColm := some g.colm }
      else st1
    | none => st1
  { st2 with out := st2.out ++ [.raw (colorize l)] }

/-- The initial parser state (`cur_* = None`, zero counters). -/
def execInit : ExecSt := ⟨none, none, none, none, none, 0, 0, []⟩

/-- `exec_compiler(tprint, cmd)`: fold the stream, then flush the pending
diagnostic once the process has exited, returning
`(returncode, errors, warnings)` and the emitted events. -/
def exec_compiler (lines : List Name) (returncode : Int) :
    (Int × Nat × Nat) × List OutEvent :=
  let st := lines.foldl execLine execInit
  ((returncode, st.errors, st.warnings), st.out ++ flushPrev st)

/-! ## The build orchestrator (`process_files`)

Compilation and linking spawn external processes; their outcomes are
abstracted as oracles: `compileOk fn` is whether `compile_object_file` for
source `fn` exits with code 0, and `linkOk` likewise for
`link_executable`.  The `threads == 1` single-thread branch of
`process_files` is modelled; the `for fn in recompile` set iteration runs
in sorted order. -/

/-- `os.path.splitext(p)[1]` (POSIX): the extension starting at the last
dot of the basename, empty if the basename has no dot or only leading
dots. -/
def pySplitExtExt (p : Name) : Name :=
  let base :=
    match pyRFindAux '/' p 0 with
    | none => p
    | some i => p.drop (i + 1)
  match pyRFindAux '.' base 0 with
  | none => []
  | some i => if (base.take i).all (· = '.') then [] else base.drop i

/-- `collect_sources()`: the `.c`/`.cpp` files under `src/`, relative to
`src/` (the `os.listdir` traversal order is unspecified; the model yields
them in sorted order). -/
def collect_sources (fs : FS) : List Name :=
  (sortFinset (fs.files.filter fun p =>
      "src/".data.isPrefixOf p ∧
        (pySplitExtExt p = ".c".data ∨ pySplitExtExt p = ".cpp".data))).map
    (·.drop 4)

/-- The single-thread compile loop over the recompile schedule: compile in
order, stop at the first failure (remaining files are not attempted).
Returns the files attempted in order, the successfully recompiled set, and
the success flag. -/
def compileLoop (compileOk : Name → Bool) : List Name → List Name × Finset Name × Bool
  | [] => ([], ∅, true)
  | fn :: rest =>
    if compileOk fn then
      let r := compileLoop compileOk rest
      (fn :: r.1, insert fn r.2.1, r.2.2)
    else ([fn], ∅, false)

/-- What one invocation of `process_files` did. -/
structure RunResult where
  success : Bool
  recompile : Finset Name
  attempted : List Name
  linked : Bool
  written : Option Name
deriving DecidableEq

/-- `process_files(ctx)` (the `threads == 1` branch): discovery, the
compile loop, invalidation of not-compiled entries, optional linking, and
conditional write-back.  On discovery failure the function returns `False`
immediately — before the write-back step.  `content` is the current bytes
of the dependency-store file (`none` if absent). -/
def process_files (fuel : Nat) (fs : FS) (content : Option Name)
    (compileOk : Name → Bool) (linkOk : Bool) : Option RunResult :=
  let sources := collect_sources fs
  match read_dep_file content with
  | none => none
  | some (ft, fi) =>
    match discover fuel fs ft fi sources with
    | none => none
    | some r =>
      if r.success then
        let order := sortFinset r.recompile
        let c := compileLoop compileOk order
        let not_compiled := r.recompile \ c.2.1
        let nft := (sortFinset not_compiled).foldl PyDict.erase r.newft
        let nfi := (sortFinset not_compiled).foldl PyDict.erase r.newfi
        let linkNow : Bool := c.2.2 && decide (r.recompile ≠ ∅)
        let suc2 : Bool := if linkNow then linkOk else c.2.2
        let written : Option Name :=
          if PyDict.eqb nft ft && PyDict.eqb nfi fi then none
          else some (write_dep_file nft nfi)
        some ⟨suc2, r.recompile, c.1, linkNow, written⟩
      else
        some ⟨false, r.recompile, [], false, none⟩

/-! ## Helper lemmas for string processing -/

theorem dropWhile_eq_self_of_all {p : Char → Bool} {l : Name}
    (h : ∀ c ∈ l, p c = false) : l.dropWhile p = l := by
  cases l with
  | nil => rfl
  | cons a t => simp [List.dropWhile_cons, h a (List.mem_cons_self a t)]

theorem pyStrip_eq_self {s : Name} (h : ∀ c ∈ s, isPySpace c = false) :
    pyStrip s = s := by
  unfold pyStrip
  rw [dropWhile_eq_self_of_all h, dropWhile_eq_self_of_all, List.reverse_reverse]
  intro c hc
  exact h c (List.mem_reverse.mp hc)

theorem findIdx?_colon_append {nm t : Name} (h : ∀ c ∈ nm, ¬ c = ':') :
    (nm ++ ':' :: t).findIdx? (· = ':') = some nm.length := by
  induction nm with
  | nil => simp
  | cons a l ih =>
    have ha := h a (List.mem_cons_self a l)
    have ihh := ih (fun c hc => h c (List.mem_cons_of_mem a hc))
    simp [List.findIdx?_cons, ha, List.findIdx?_succ, ihh]

theorem splitOn_eq_single_of_all {c : Char} {l : Name} (h : ∀ x ∈ l, ¬ x = c) :
    l.splitOn c = [l] := by
  apply List.splitOnP_eq_single
  intro x hx
  simp [h x hx]

/-- With the named flag absent from the table, a positive conjunct fails. -/
theorem condHolds_absent_pos (flags : Name → Option Bool) (nm : Name)
    (hnone : flags nm = none)
    (hsp : ∀ c ∈ nm, isPySpace c = false)
    (hbang : nm.head? ≠ some '!') :
    condHolds flags nm = false := by
  unfold condHolds
  rw [pyStrip_eq_self hsp]
  have hng : (nm.head? = some '!' : Bool) = false := by
    simp only [decide_eq_false_iff_not]
    exact hbang
  simp only [hng, Bool.false_eq_true, if_neg (by simp : ¬ (false : Bool) = true)]
  simp [flagTrue, hnone]

/-- With the named flag absent from the table, a negated conjunct holds. -/
theorem condHolds_absent_neg (flags : Name → Option Bool) (nm : Name)
    (hnone : flags nm = none)
    (hsp : ∀ c ∈ nm, isPySpace c = false) :
    condHolds flags ('!' :: nm) = true := by
  unfold condHolds
  have hsp' : ∀ c ∈ ('!' :: nm), isPySpace c = false := by
    intro c hc
    rcases List.mem_cons.mp hc with h | h
    · subst h; rfl
    · exact hsp c h
  rw [pyStrip_eq_self hsp']
  simp only [List.head?_cons, Option.some.injEq, decide_eq_true_eq, if_true, eq_self_iff_true]
  simp only [List.drop_one, List.tail_cons, pyStrip_eq_self hsp]
  simp [flagTrue, hnone]

/-! ## Claims C5 and C10: the conditional flag evaluator -/

/-- The flag table `{WIN: false, "64": true}` of claim C5. -/
def c5flags : Name → Option Bool := fun n =>
  if n = "WIN".data then some false
  else if n = "64".data then some true
  else none

/-- The flag list of claim C5. -/
def c5elems : List Name := ["-base".data, "@WIN&64: -w64".data, "@!WIN: -posix".data]

/-- Claim C5, counterexample: evaluating the claimed flag list under the
claimed table does *not* yield the string `"-base -posix"` — the excluded
element contributes an empty string between two join separators and the
included conditional flag text keeps its leading space, so the result is
`"-base   -posix"` (three spaces). -/
theorem claim_C5_counterexample :
    collect_args c5flags (.inr c5elems) ≠ "-base -posix".data := by decide

/-- Claim C5 (amended): evaluating the flag list
`["-base", "@WIN&64: -w64", "@!WIN: -posix"]` under the flag table
`{WIN: false, "64": true}` yields the space-joined, order-preserving
string `"-base   -posix"` — the conjunction-failing element contributes the
empty string — whose whitespace-split token list (as later applied by
`comp_flags.split()`) is `["-base", "-posix"]`. -/
theorem claim_C5_amended :
    collect_args c5flags (.inr c5elems) = "-base   -posix".data ∧
    pySplitWs (collect_args c5flags (.inr c5elems)) =
      ["-base".data, "-posix".data] := by decide

/-- Claim C10: a conjunct naming a flag absent from the flag table behaves
exactly as a flag present with value `false`: `@NAME: <text>` contributes
the empty string, `@!NAME: <text>` contributes the text after the colon,
and the whole evaluator is unchanged by adjoining `NAME ↦ false` to the
table.  (`nm` must be a well-formed flag name: no whitespace, `:`, `&`, and
no leading `!`.) -/
theorem claim_C10_absent_flag (flags : Name → Option Bool) (nm t : Name)
    (hnone : flags nm = none)
    (hchars : ∀ c ∈ nm, isPySpace c = false ∧ ¬ c = ':' ∧ ¬ c = '&')
    (hbang : nm.head? ≠ some '!') :
    conditional_element flags ('@' :: (nm ++ ':' :: t)) = [] ∧
    conditional_element flags ('@' :: '!' :: (nm ++ ':' :: t)) = t ∧
    ∀ s, conditional_element (fun k => if k = nm then some false else flags k) s =
      conditional_element flags s := by
  have hsp : ∀ c ∈ nm, isPySpace c = false := fun c hc => (hchars c hc).1
  have hcol : ∀ c ∈ nm, ¬ c = ':' := fun c hc => (hchars c hc).2.1
  have hamp : ∀ c ∈ nm, ¬ c = '&' := fun c hc => (hchars c hc).2.2
  refine ⟨?_, ?_, ?_⟩
  · unfold conditional_element
    simp only [List.head?_cons, if_true, eq_self_iff_true, List.drop_one, List.tail_cons]
    rw [findIdx?_colon_append hcol]
    simp only [List.take_left]
    rw [splitOn_eq_single_of_all hamp]
    simp [condHolds_absent_pos flags nm hnone hsp hbang]
  · unfold conditional_element
    simp only [List.head?_cons, if_true, eq_self_iff_true, List.drop_one, List.tail_cons]
    have hcol' : ∀ c ∈ ('!' :: nm), ¬ c = ':' := by
      intro c hc
      rcases List.mem_cons.mp hc with h | h
      · subst h; decide
      · exact hcol c h
    have hamp' : ∀ c ∈ ('!' :: nm), ¬ c = '&' := by
      intro c hc
      rcases List.mem_cons.mp hc with h | h
      · subst h; decide
      · exact hamp c h
    have h2 : ('!' :: (nm ++ ':' :: t)) = ('!' :: nm) ++ ':' :: t := by simp
    rw [h2, findIdx?_colon_append hcol']
    simp only [List.take_left]
    rw [splitOn_eq_single_of_all hamp']
    simp only [List.all_cons, List.all_nil, Bool.and_true,
      condHolds_absent_neg flags nm hnone hsp, if_true]
    have h3 : ('!' :: nm) ++ ':' :: t = (('!' :: nm) ++ [':']) ++ t := by simp
    rw [h3]
    rw [show ('!' :: nm).length + 1 = (('!' :: nm) ++ [':']).length by simp]
    exact List.drop_left _ _
  · have hft : flagTrue (fun k => if k = nm then some false else flags k) = flagTrue flags := by
      funext k
      unfold flagTrue
      by_cases hk : k = nm
      · subst hk; simp [hnone]
      · simp [hk]
    have hch : condHolds (fun k => if k = nm then some false else flags k) = condHolds flags := by
      funext f0
      unfold condHolds
      rw [hft]
    intro s
    unfold conditional_element
    rw [hch]

/-- Witness for claim C10 at a concrete table and name. -/
theorem claim_C10_absent_flag_witness :
    conditional_element (fun k => if k = "OS".data then some true else none)
      ('@' :: ("NAME".data ++ ':' :: " text".data)) = [] ∧
    conditional_element (fun k => if k = "OS".data then some true else none)
      ('@' :: '!' :: ("NAME".data ++ ':' :: " text".data)) = " text".data := by
  have h := claim_C10_absent_flag (fun k => if k = "OS".data then some true else none)
    "NAME".data " text".data (by decide) (by decide) (by decide)
  exact ⟨h.1, h.2.1⟩

/-! ## Claim C4: the path resolver -/

theorem checkIncludes_false_mono (fs : FS) (efn : Name) :
    ∀ (incs : IncList) (st r : Bool × List Diag),
      incs.foldlM (checkStep fs efn) st = some r → st.1 = false → r.1 = false := by
  intro incs
  induction incs with
  | nil =>
    intro st r h hst
    simp only [List.foldlM_nil] at h
    have he : st = r := Option.some.inj h
    subst he; exact hst
  | cons a l ih =>
    intro st r h hst
    simp only [List.foldlM_cons] at h
    cases hstep : checkStep fs efn st a with
    | none => rw [hstep] at h; simp at h
    | some st1 =>
      rw [hstep] at h
      apply ih st1 r h
      unfold checkStep at hstep
      cases hres : fs.resolve a.1 with
      | none => simp only [hres] at hstep; exact absurd hstep (by simp)
      | some e =>
        simp only [hres] at hstep
        cases he : get_err_msg e with
        | none =>
          simp only [he, Option.some.injEq] at hstep
          subst hstep; exact hst
        | some msg =>
          simp only [he] at hstep
          cases hd : mkDiag fs efn a.2 msg with
          | none => simp only [hd] at hstep; exact absurd hstep (by simp)
          | some d =>
            simp only [hd, Option.some.injEq] at hstep
            subst hstep; rfl

theorem checkIncludes_false_of_bad (fs : FS) (efn : Name) :
    ∀ (incs : IncList) (st r : Bool × List Diag) (f : Name) (ln : Nat),
      (f, ln) ∈ incs → (∀ q, fs.resolve f ≠ some (.resolved q)) →
      incs.foldlM (checkStep fs efn) st = some r → r.1 = false := by
  intro incs
  induction incs with
  | nil => intro st r f ln hmem; exact absurd hmem (List.not_mem_nil _)
  | cons a l ih =>
    intro st r f ln hmem hbad h
    simp only [List.foldlM_cons] at h
    cases hstep : checkStep fs efn st a with
    | none => rw [hstep] at h; simp at h
    | some st1 =>
      rw [hstep] at h
      rcases List.mem_cons.mp hmem with heq | hmem'
      · subst heq
        unfold checkStep at hstep
        cases hres : fs.resolve f with
        | none => simp only [hres] at hstep; exact absurd hstep (by simp)
        | some e =>
          simp only [hres] at hstep
          cases e with
          | resolved q => exact absurd hres (hbad q)
          | notFound =>
            cases hd : mkDiag fs efn ln "No such file or directory".data with
            | none =>
              simp only [get_err_msg, hd] at hstep
              exact absurd hstep (by simp)
            | some d =>
              simp only [get_err_msg, hd, Option.some.injEq] at hstep
              exact checkIncludes_false_mono fs efn l st1 r h (by rw [← hstep])
          | ambiguous =>
            cases hd : mkDiag fs efn ln "Ambiguous file include".data with
            | none =>
              simp only [get_err_msg, hd] at hstep
              exact absurd hstep (by simp)
            | some d =>
              simp only [get_err_msg, hd, Option.some.injEq] at hstep
              exact checkIncludes_false_mono fs efn l st1 r h (by rw [← hstep])
      · exact ih st1 r f ln hmem' hbad h

/-- The existence oracle of claim C4's counterexample: exactly the file
`include/x.h` exists. -/
def c4ex : Name → Bool := fun p => p = "include/x.h".data

/-- Claim C4, counterexample: for the logical name `../include/x.h` the two
candidate physical paths coincide (both normalize to `include/x.h`), so
*both* `src/<logical>` and `include/<logical>` exist, yet resolution
returns `Resolved` — refuting the claim's "Resolved iff exactly one of the
two exists". -/
theorem claim_C4_counterexample :
    pjoin ["src".data, "../include/x.h".data] = some "include/x.h".data ∧
    pjoin ["include".data, "../include/x.h".data] = some "include/x.h".data ∧
    c4ex "include/x.h".data = true ∧
    get_effective_path_ c4ex "../include/x.h".data =
      some (.resolved "include/x.h".data) ∧
    ¬ ((c4ex "include/x.h".data = true ∧ c4ex "include/x.h".data = false) ∨
       (c4ex "include/x.h".data = false ∧ c4ex "include/x.h".data = true)) := by
  decide

/-- Claim C4 (amended): writing `sp`/`ip` for the normalized candidate
paths `src/<logical>`/`include/<logical>`, resolution returns `Ambiguous`
iff both exist at different physical paths; `NotFound` iff neither exists;
and `Resolved` iff exactly one exists *or both exist at the same physical
path* (possible when `..`-normalization makes the candidates coincide).
The result is memoized per run in `ctx.path_cache` (a valid cache stays
valid, the computed entry is stored, and a hit returns the cached value,
which agrees with the uncached resolver), and an include whose target does
not resolve to an actual file — `Ambiguous` or `NotFound` — forces the
`check_includes` success flag to `false`, i.e. a discovery failure. -/
theorem claim_C4_resolution (ex : Name → Bool) (path sp ip : Name)
    (hs : pjoin ["src".data, path] = some sp)
    (hi : pjoin ["include".data, path] = some ip) :
    (get_effective_path_ ex path = some .ambiguous ↔
      (ex sp = true ∧ ex ip = true ∧ sp ≠ ip)) ∧
    (get_effective_path_ ex path = some .notFound ↔
      (ex sp = false ∧ ex ip = false)) ∧
    ((∃ q, get_effective_path_ ex path = some (.resolved q)) ↔
      ((ex sp = true ∧ ex ip = false) ∨ (ex sp = false ∧ ex ip = true) ∨
        (ex sp = true ∧ ex ip = true ∧ sp = ip))) ∧
    (∀ cache : PyDict EffPath,
      (∀ k e, cache.lookup k = some e → get_effective_path_ ex k = some e) →
      ∀ e, get_effective_path_ ex path = some e →
        ∃ cache', get_effective_path_s ex cache path = some (e, cache') ∧
          cache'.lookup path = some e ∧
          (∀ k e', cache'.lookup k = some e' → get_effective_path_ ex k = some e')) ∧
    (∀ (fs : FS) (efn : Name) (incs : IncList) (f : Name) (ln : Nat)
        (b : Bool) (ds : List Diag),
      (f, ln) ∈ incs → (∀ q, fs.resolve f ≠ some (.resolved q)) →
      checkIncludes fs efn incs = some (b, ds) → b = false) := by
  refine ⟨?_, ?_, ?_, ?_, ?_⟩
  · exact (by
      unfold get_effective_path_
      rw [hs, hi]
      by_cases h1 : ex sp = true
      · by_cases h2 : ex ip = true
        · by_cases h3 : sp = ip
          · simp [h1, h2, h3]
          · simp [h1, h2, h3]
        · simp [h1, h2, Bool.eq_false_iff]
      · by_cases h2 : ex ip = true
        · simp [h1, h2]
        · simp [h1, h2])
  · exact (by
      unfold get_effective_path_
      rw [hs, hi]
      by_cases h1 : ex sp = true
      · by_cases h2 : ex ip = true
        · by_cases h3 : sp = ip
          · simp [h1, h2, h3]
          · simp [h1, h2, h3]
        · simp [h1, h2, Bool.eq_false_iff]
      · by_cases h2 : ex ip = true
        · simp [h1, h2]
        · simp [h1, h2, Bool.eq_false_iff])
  · exact (by
      unfold get_effective_path_
      rw [hs, hi]
      by_cases h1 : ex sp = true
      · by_cases h2 : ex ip = true
        · by_cases h3 : sp = ip
          · simp [h1, h2, h3]
          · simp [h1, h2, h3]
        · simp [h1, h2, Bool.eq_false_iff]
      · by_cases h2 : ex ip = true
        · simp [h1, h2]
        · simp [h1, h2, Bool.eq_false_iff])
  · intro cache hv e he
    cases hc : cache.lookup path with
    | some e0 =>
      have h0 := hv path e0 hc
      rw [he] at h0
      have he0 : e = e0 := Option.some.inj h0
      subst he0
      refine ⟨cache, ?_, hc, hv⟩
      unfold get_effective_path_s
      rw [hc]
    | none =>
      refine ⟨cache.assign path e, ?_, ?_, ?_⟩
      · unfold get_effective_path_s
        rw [hc, he]
      · rw [PyDict.lookup_assign]
        simp
      · intro k e' hk
        rw [PyDict.lookup_assign] at hk
        by_cases hpk : path = k
        · subst hpk
          rw [if_pos rfl] at hk
          have : e = e' := Option.some.inj hk
          subst this
          exact he
        · rw [if_neg hpk] at hk
          exact hv k e' hk
  · intro fs efn incs f ln b ds hmem hbad h
    exact checkIncludes_false_of_bad fs efn incs (true, []) (b, ds) f ln hmem hbad h

/-- Witness for claim C4 at a concrete oracle, logical name and cache. -/
theorem claim_C4_resolution_witness :
    (get_effective_path_ c4ex "x.h".data = some .notFound ↔
      (c4ex "src/x.h".data = false ∧ c4ex "include/x.h".data = false)) ∧
    (∃ cache', get_effective_path_s c4ex [] "x.h".data =
        some (.resolved "include/x.h".data, cache') ∧
      cache'.lookup "x.h".data = some (.resolved "include/x.h".data) ∧
      (∀ k e', cache'.lookup k = some e' → get_effective_path_ c4ex k = some e')) := by
  have h := claim_C4_resolution c4ex "x.h".data "src/x.h".data "include/x.h".data
    (by decide) (by decide)
  refine ⟨h.2.1, ?_⟩
  exact h.2.2.2.1 [] (by intro k e hk; exact absurd hk (by simp [PyDict.lookup]))
    (.resolved "include/x.h".data) (by decide)

/-! ## Claim C6: the dependency store round-trip -/

theorem dChar_spec : ∀ d, d < 10 →
    isDigitCh (dChar d) = true ∧ charDigit (dChar d) = d := by
  intro d hd
  interval_cases d <;> exact ⟨by decide, by decide⟩

theorem isDigitCh_not_space {c : Char} (h : isDigitCh c = true) :
    isPySpace c = false ∧ ¬ c = '@' := by
  unfold isDigitCh at h
  simp only [Bool.and_eq_true, decide_eq_true_eq] at h
  refine ⟨?_, ?_⟩
  · unfold isPySpace
    have e1 : ¬ c = ' ' := fun hc => by subst hc; exact absurd h (by decide)
    have e2 : ¬ c = '\t' := fun hc => by subst hc; exact absurd h (by decide)
    have e3 : ¬ c = '\n' := fun hc => by subst hc; exact absurd h (by decide)
    have e4 : ¬ c = '\x0d' := fun hc => by subst hc; exact absurd h (by decide)
    have e5 : ¬ c = '\x0b' := fun hc => by subst hc; exact absurd h (by decide)
    have e6 : ¬ c = '\x0c' := fun hc => by subst hc; exact absurd h (by decide)
    simp [e1, e2, e3, e4, e5, e6]
  · intro hc; subst hc; exact absurd h (by decide)

theorem natChars_ne_nil (n : Nat) : natChars n ≠ [] := by
  rw [natChars_eq]
  by_cases h : n = 0
  · simp [h]
  · simp only [h, if_false]
    intro hc
    rw [List.map_eq_nil_iff, List.reverse_eq_nil_iff] at hc
    exact h (Nat.digits_eq_nil_iff_eq_zero.mp hc)

theorem natChars_all_digit (n : Nat) : ∀ c ∈ natChars n, isDigitCh c = true := by
  intro c hc
  rw [natChars_eq] at hc
  by_cases h : n = 0
  · simp only [h, if_true] at hc
    simp only [List.mem_singleton] at hc
    subst hc; decide
  · simp only [h, if_false, List.mem_map, List.mem_reverse] at hc
    obtain ⟨d, hd, hdc⟩ := hc
    have hlt : d < 10 := Nat.digits_lt_base (by omega) hd
    rw [← hdc]
    exact (dChar_spec d hlt).1

theorem parseNat?_natChars (n : Nat) : parseNat? (natChars n) = some n := by
  unfold parseNat?
  rw [if_pos ⟨natChars_ne_nil n, List.all_eq_true.mpr
    (fun c hc => natChars_all_digit n c hc)⟩]
  congr 1
  by_cases h : n = 0
  · subst h; decide
  · rw [natChars_eq]
    simp only [h, if_false]
    simp only [List.map_reverse, List.reverse_reverse, List.map_map]
    have hcomp : ∀ d ∈ Nat.digits 10 n, (charDigit ∘ dChar) d = id d := by
      intro d hd
      simp only [Function.comp_apply, id_eq]
      exact (dChar_spec d (Nat.digits_lt_base (by omega) hd)).2
    rw [List.map_congr_left hcomp, List.map_id]
    exact Nat.ofDigits_digits 10 n

theorem pyRFindAux_none (c : Char) :
    ∀ (l : Name) (i : Nat), (∀ x ∈ l, ¬ x = c) → pyRFindAux c l i = none := by
  intro l
  induction l with
  | nil => intro i _; rfl
  | cons a t ih =>
    intro i h
    unfold pyRFindAux
    rw [ih (i + 1) (fun x hx => h x (List.mem_cons_of_mem a hx))]
    simp [h a (List.mem_cons_self a t)]

theorem pyRFindAux_append (c : Char) (ds : Name) (hds : ∀ x ∈ ds, ¬ x = c) :
    ∀ (l : Name) (i : Nat), pyRFindAux c (l ++ c :: ds) i = some (i + l.length) := by
  intro l
  induction l with
  | nil =>
    intro i
    rw [List.nil_append]
    unfold pyRFindAux
    rw [pyRFindAux_none c ds (i + 1) hds]
    simp
  | cons a t ih =>
    intro i
    rw [List.cons_append]
    unfold pyRFindAux
    rw [ih (i + 1)]
    simp only [List.length_cons, Option.some.injEq]
    omega

theorem take_append_length (A B : List α) : (A ++ B).take A.length = A := by
  rw [List.take_append_eq_append_take]
  simp

theorem drop_append_length (A B : List α) : (A ++ B).drop A.length = B := by
  rw [List.drop_append_eq_append_drop]
  simp

theorem pySlice_natCast (l : List α) (s e : Nat) :
    pySlice l (s : Int) (e : Int) = (l.take (min e l.length)).drop (min s l.length) := by
  unfold pySlice
  have h1 : pySliceIdx l.length (e : Int) = min e l.length := by
    unfold pySliceIdx
    rw [if_neg (by omega)]
    omega
  have h2 : pySliceIdx l.length (s : Int) = min s l.length := by
    unfold pySliceIdx
    rw [if_neg (by omega)]
    omega
  rw [h1, h2]

theorem parse_include_incTok (nm : Name) (ln : Nat) :
    parse_include (incTok (nm, ln)) = some (nm, ln) := by
  have hds : ∀ x ∈ natChars ln, ¬ x = '@' :=
    fun x hx => (isDigitCh_not_space (natChars_all_digit ln x hx)).2
  unfold parse_include incTok pyRFind
  simp only
  rw [pyRFindAux_append '@' (natChars ln) hds nm 0]
  simp only [Nat.zero_add]
  have hlen : (nm ++ '@' :: natChars ln).length
      = nm.length + 1 + (natChars ln).length := by
    simp only [List.length_append, List.length_cons]
    omega
  have hc1 : ((nm.length : Int) + 1) = ((nm.length + 1 : Nat) : Int) := by push_cast; ring
  have hsl1 : pySlice (nm ++ '@' :: natChars ln) ((nm.length : Int) + 1)
      ((nm ++ '@' :: natChars ln).length : Int) = natChars ln := by
    rw [hc1, pySlice_natCast, min_self, List.take_length]
    rw [min_eq_left (by rw [hlen]; omega)]
    rw [show nm ++ '@' :: natChars ln = (nm ++ ['@']) ++ natChars ln by simp,
      show nm.length + 1 = (nm ++ ['@']).length by simp]
    exact drop_append_length _ _
  rw [hsl1, parseNat?_natChars]
  have hsl2 : pySlice (nm ++ '@' :: natChars ln) 0 (nm.length : Int) = nm := by
    rw [show (0 : Int) = ((0 : Nat) : Int) by rfl, pySlice_natCast]
    simp only [Nat.zero_min, List.drop_zero]
    rw [min_eq_left (by rw [hlen]; omega)]
    exact take_append_length nm ('@' :: natChars ln)
  rw [hsl2]

theorem intercalate_nil_words : List.intercalate [' '] ([] : List Name) = [] := rfl

theorem intercalate_single (s a : Name) : List.intercalate s [a] = a := by
  simp [List.intercalate, List.intersperse]

theorem intercalate_cons2 (s a b : Name) (t : List Name) :
    List.intercalate s (a :: b :: t) = a ++ s ++ List.intercalate s (b :: t) := by
  simp [List.intercalate, List.intersperse]

theorem mem_intercalate_words {c : Char} :
    ∀ {parts : List Name}, c ∈ List.intercalate [' '] parts →
      c = ' ' ∨ ∃ pp ∈ parts, c ∈ pp := by
  intro parts
  induction parts with
  | nil => intro h; exact absurd h (by simp [intercalate_nil_words])
  | cons a t ih =>
    intro h
    cases t with
    | nil =>
      rw [intercalate_single] at h
      exact Or.inr ⟨a, List.mem_cons_self a [], h⟩
    | cons b t2 =>
      rw [intercalate_cons2] at h
      rcases List.mem_append.mp h with h1 | h2
      · rcases List.mem_append.mp h1 with h3 | h4
        · exact Or.inr ⟨a, List.mem_cons_self a _, h3⟩
        · simp only [List.mem_singleton] at h4
          exact Or.inl h4
      · rcases ih h2 with h5 | ⟨pp, hpp, hc⟩
        · exact Or.inl h5
        · exact Or.inr ⟨pp, List.mem_cons_of_mem a hpp, hc⟩

theorem splitOnP_congr {p q : Char → Bool} :
    ∀ {l : Name}, (∀ c ∈ l, p c = q c) → l.splitOnP p = l.splitOnP q := by
  intro l
  induction l with
  | nil => intro _; rfl
  | cons a t ih =>
    intro h
    rw [List.splitOnP_cons, List.splitOnP_cons,
      h a (List.mem_cons_self a t), ih (fun c hc => h c (List.mem_cons_of_mem a hc))]

theorem modifyHead_append_of_ne_nil (f : Name → Name) (xs ys : List Name)
    (h : xs ≠ []) : (xs ++ ys).modifyHead f = xs.modifyHead f ++ ys := by
  cases xs with
  | nil => exact absurd rfl h
  | cons a t => simp

theorem splitOnP_append_sep {p : Char → Bool} {c : Char} (hc : p c = true) :
    ∀ (l : Name), (l ++ [c]).splitOnP p = l.splitOnP p ++ [[]] := by
  intro l
  induction l with
  | nil => simp [List.splitOnP_cons, hc, List.splitOnP_nil]
  | cons a t ih =>
    rw [List.cons_append, List.splitOnP_cons, List.splitOnP_cons, ih]
    by_cases ha : p a = true
    · simp [ha]
    · simp only [Bool.not_eq_true] at ha
      simp only [ha, Bool.false_eq_true, if_false]
      rw [modifyHead_append_of_ne_nil _ _ _ (List.splitOnP_ne_nil p t)]

theorem pySplitWs_append_sep {c : Char} (hc : isPySpace c = true) (l : Name) :
    pySplitWs (l ++ [c]) = pySplitWs l := by
  unfold pySplitWs
  rw [splitOnP_append_sep hc, List.filter_append]
  simp

theorem pySplitWs_append_spaces :
    ∀ (s : Name), (∀ c ∈ s, isPySpace c = true) → ∀ (m : Name),
      pySplitWs (m ++ s) = pySplitWs m := by
  intro s
  induction s with
  | nil => intro _ m; simp
  | cons a t ih =>
    intro h m
    have : m ++ a :: t = (m ++ [a]) ++ t := by simp
    rw [this, ih (fun c hc => h c (List.mem_cons_of_mem a hc)),
      pySplitWs_append_sep (h a (List.mem_cons_self a t))]

theorem pySplitWs_dropWhile (l : Name) :
    pySplitWs (l.dropWhile isPySpace) = pySplitWs l := by
  induction l with
  | nil => rfl
  | cons a t ih =>
    rw [List.dropWhile_cons]
    by_cases ha : isPySpace a = true
    · rw [if_pos ha, ih]
      unfold pySplitWs
      rw [List.splitOnP_cons, if_pos ha]
      simp
    · simp only [ha, Bool.false_eq_true, if_false]

theorem pySplitWs_pyStrip (l : Name) : pySplitWs (pyStrip l) = pySplitWs l := by
  unfold pyStrip
  set A := l.dropWhile isPySpace with hA
  have hdecomp : A = (A.reverse.dropWhile isPySpace).reverse
      ++ (A.reverse.takeWhile isPySpace).reverse := by
    rw [← List.reverse_append, List.takeWhile_append_dropWhile, List.reverse_reverse]
  have hsp : ∀ c ∈ (A.reverse.takeWhile isPySpace).reverse, isPySpace c = true := by
    intro c hc
    exact List.mem_takeWhile_imp (List.mem_reverse.mp hc)
  calc pySplitWs ((A.reverse.dropWhile isPySpace).reverse)
      = pySplitWs ((A.reverse.dropWhile isPySpace).reverse
          ++ (A.reverse.takeWhile isPySpace).reverse) :=
        (pySplitWs_append_spaces _ hsp _).symm
    _ = pySplitWs A := by rw [← hdecomp]
    _ = pySplitWs l := by rw [hA, pySplitWs_dropWhile]

theorem pySplitWs_intercalate (parts : List Name) (hne : parts ≠ [])
    (hp : ∀ pp ∈ parts, pp ≠ [] ∧ ∀ c ∈ pp, isPySpace c = false) :
    pySplitWs (List.intercalate [' '] parts) = parts := by
  unfold pySplitWs
  have hno : ∀ l ∈ parts, ' ' ∉ l := by
    intro l hl hmem
    exact absurd ((hp l hl).2 ' ' hmem) (by decide)
  have hcong : (List.intercalate [' '] parts).splitOnP isPySpace
      = (List.intercalate [' '] parts).splitOnP (· == ' ') := by
    apply splitOnP_congr
    intro c hc
    rcases mem_intercalate_words hc with h | ⟨pp, hpp, hcp⟩
    · subst h; decide
    · have hf := (hp pp hpp).2 c hcp
      rw [hf]
      symm
      simp only [beq_eq_false_iff_ne, ne_eq]
      intro he
      subst he
      exact absurd hf (by decide)
  rw [hcong]
  rw [show (List.intercalate [' '] parts).splitOnP (· == ' ')
      = (List.intercalate [' '] parts).splitOn ' ' from rfl]
  rw [List.splitOn_intercalate parts ' ' hno hne]
  exact List.filter_eq_self.mpr (fun a ha => by simpa using (hp a ha).1)

theorem mapM_parse_include_map_incTok :
    ∀ (incs : IncList), (incs.map incTok).mapM parse_include = some incs := by
  intro incs
  induction incs with
  | nil => rfl
  | cons a t ih =>
    rw [List.map_cons, List.mapM_cons, parse_include_incTok a.1 a.2, ih]
    rfl

/-- Validity of a store key and its include list for serialization. -/
def ValidEntry (fi : PyDict IncList) (fn : Name) : Prop :=
  fn ≠ [] ∧ (∀ c ∈ fn, isPySpace c = false) ∧
    (∀ p ∈ (fi.lookup fn).getD [], ∀ c ∈ p.1, isPySpace c = false)

theorem incTok_part_valid (p : Name × Nat) (hp : ∀ c ∈ p.1, isPySpace c = false) :
    incTok p ≠ [] ∧ ∀ c ∈ incTok p, isPySpace c = false := by
  constructor
  · unfold incTok
    intro h
    cases hn : p.1 with
    | nil => rw [hn] at h; simp at h
    | cons a t => rw [hn] at h; simp at h
  · intro c hc
    unfold incTok at hc
    rcases List.mem_append.mp hc with h | h
    · exact hp c h
    · rcases List.mem_cons.mp h with h1 | h1
      · subst h1; rfl
      · exact (isDigitCh_not_space (natChars_all_digit p.2 c h1)).1

theorem pySplitWs_depLine (ft : PyDict Nat) (fi : PyDict IncList) (fn : Name)
    (hv : ValidEntry fi fn) :
    pySplitWs (depLine ft fi fn) =
      fn :: natChars ((ft.lookup fn).getD 0) :: ((fi.lookup fn).getD []).map incTok := by
  obtain ⟨hne, hnc, hinc⟩ := hv
  have hfnp : fn ≠ [] ∧ ∀ c ∈ fn, isPySpace c = false := ⟨hne, hnc⟩
  have hntp : natChars ((ft.lookup fn).getD 0) ≠ [] ∧
      ∀ c ∈ natChars ((ft.lookup fn).getD 0), isPySpace c = false :=
    ⟨natChars_ne_nil _, fun c hc => (isDigitCh_not_space (natChars_all_digit _ c hc)).1⟩
  cases hincs : (fi.lookup fn).getD [] with
  | nil =>
    have hline : depLine ft fi fn =
        List.intercalate [' '] [fn, natChars ((ft.lookup fn).getD 0)] ++ [' '] := by
      unfold depLine
      rw [hincs]
      rw [intercalate_cons2, intercalate_single]
      simp [intercalate_nil_words]
    rw [hline, pySplitWs_append_sep (by decide),
      pySplitWs_intercalate _ (by simp) ?parts]
    case parts =>
      intro pp hpp
      rcases List.mem_cons.mp hpp with h | h
      · subst h; exact hfnp
      · simp only [List.mem_singleton] at h
        subst h; exact hntp
    simp
  | cons a t =>
    have hline : depLine ft fi fn =
        List.intercalate [' ']
          (fn :: natChars ((ft.lookup fn).getD 0) :: (a :: t).map incTok) := by
      unfold depLine
      rw [hincs]
      rw [List.map_cons, intercalate_cons2, intercalate_cons2]
      simp
    rw [hline, pySplitWs_intercalate _ (by simp) ?parts2]
    case parts2 =>
      intro pp hpp
      rcases List.mem_cons.mp hpp with h | h
      · subst h; exact hfnp
      rcases List.mem_cons.mp h with h1 | h1
      · subst h1; exact hntp
      · simp only [List.mem_map] at h1
        obtain ⟨q, hq, hqe⟩ := h1
        subst hqe
        refine incTok_part_valid q ?_
        intro c hc
        apply hinc q ?_ c hc
        rw [hincs]
        exact hq

theorem pySplitWs_nil : pySplitWs [] = [] := rfl

theorem readDepLine_depLine (ft : PyDict Nat) (fi : PyDict IncList) (fn : Name)
    (hv : ValidEntry fi fn) (acc : PyDict Nat × PyDict IncList) :
    readDepLine acc (depLine ft fi fn) =
      some (acc.1.assign fn ((ft.lookup fn).getD 0),
            acc.2.assign fn ((fi.lookup fn).getD [])) := by
  unfold readDepLine
  have hsplit := pySplitWs_depLine ft fi fn hv
  have hstrip : pySplitWs (pyStrip (depLine ft fi fn)) =
      fn :: natChars ((ft.lookup fn).getD 0) :: ((fi.lookup fn).getD []).map incTok := by
    rw [pySplitWs_pyStrip, hsplit]
  have hne : ¬ pyStrip (depLine ft fi fn) = [] := by
    intro h
    rw [h, pySplitWs_nil] at hstrip
    exact absurd hstrip.symm (by simp)
  rw [if_neg hne, hstrip]
  simp only [parseNat?_natChars, mapM_parse_include_map_incTok]

theorem foldlM_readDepLine (ft : PyDict Nat) (fi : PyDict IncList) :
    ∀ (ks : List Name), (∀ fn ∈ ks, ValidEntry fi fn) →
      ∀ (acc : PyDict Nat × PyDict IncList),
      (ks.map (depLine ft fi)).foldlM readDepLine acc =
        some (ks.foldl (fun d fn => d.assign fn ((ft.lookup fn).getD 0)) acc.1,
              ks.foldl (fun d fn => d.assign fn ((fi.lookup fn).getD [])) acc.2) := by
  intro ks
  induction ks with
  | nil => intro _ acc; rfl
  | cons a t ih =>
    intro hval acc
    rw [List.map_cons, List.foldlM_cons,
      readDepLine_depLine ft fi a (hval a (List.mem_cons_self a t))]
    rw [List.foldl_cons, List.foldl_cons]
    exact ih (fun fn hfn => hval fn (List.mem_cons_of_mem a hfn)) _

theorem lookup_foldl_assign {α : Type} (f : Name → α) :
    ∀ (ks : List Name), ks.Nodup → ∀ (d0 : PyDict α) (k : Name),
      (ks.foldl (fun d fn => d.assign fn (f fn)) d0).lookup k =
        if k ∈ ks then some (f k) else d0.lookup k := by
  intro ks
  induction ks with
  | nil => intro _ d0 k; simp
  | cons a t ih =>
    intro hnd d0 k
    rw [List.foldl_cons]
    rw [ih (List.nodup_cons.mp hnd).2 (d0.assign a (f a)) k]
    by_cases hkt : k ∈ t
    · rw [if_pos hkt, if_pos (List.mem_cons_of_mem a hkt)]
    · rw [if_neg hkt, PyDict.lookup_assign]
      by_cases hka : a = k
      · subst hka
        rw [if_pos rfl, if_pos (List.mem_cons_self a t)]
      · rw [if_neg hka, if_neg (by
          intro h
          rcases List.mem_cons.mp h with h1 | h1
          · exact hka h1.symm
          · exact hkt h1)]

theorem flatten_map_append_newline :
    ∀ (lines : List Name),
      ((lines.map (fun l => l ++ ['\n'])).flatten) =
        List.intercalate ['\n'] (lines ++ [[]]) := by
  intro lines
  induction lines with
  | nil => rfl
  | cons a t ih =>
    rw [List.map_cons, List.flatten_cons, ih]
    have hsh : ∃ b t2, t ++ [[]] = b :: t2 := by
      cases t with
      | nil => exact ⟨[], [], rfl⟩
      | cons x xs => exact ⟨x, xs ++ [[]], by simp⟩
    obtain ⟨b, t2, hbt⟩ := hsh
    rw [List.cons_append, hbt, intercalate_cons2, ← hbt]

theorem splitOn_write_dep_file (ft : PyDict Nat) (fi : PyDict IncList)
    (hlines : ∀ fn ∈ sortedKeys ft, '\n' ∉ depLine ft fi fn) :
    (write_dep_file ft fi).splitOn '\n' =
      (sortedKeys ft).map (depLine ft fi) ++ [[]] := by
  unfold write_dep_file
  rw [show ((sortedKeys ft).map (fun fn => depLine ft fi fn ++ ['\n'])) =
      (((sortedKeys ft).map (depLine ft fi)).map (fun l => l ++ ['\n'])) by
    rw [List.map_map]; rfl]
  rw [flatten_map_append_newline]
  exact List.splitOn_intercalate _ '\n' (by
    intro l hl
    rcases List.mem_append.mp hl with h | h
    · simp only [List.mem_map] at h
      obtain ⟨fn, hfn, he⟩ := h
      subst he
      exact hlines fn hfn
    · simp only [List.mem_singleton] at h
      subst h
      simp) (by simp)

theorem newline_not_mem_depLine (ft : PyDict Nat) (fi : PyDict IncList) (fn : Name)
    (hv : ValidEntry fi fn) : '\n' ∉ depLine ft fi fn := by
  obtain ⟨hne, hnc, hinc⟩ := hv
  have hparts : ∀ parts : List Name,
      (∀ pp ∈ parts, ∀ c ∈ pp, isPySpace c = false) →
      '\n' ∉ List.intercalate [' '] parts := by
    intro parts hp hmem
    rcases mem_intercalate_words hmem with h | ⟨pp, hpp, hc⟩
    · exact absurd h (by decide)
    · exact absurd (hp pp hpp '\n' hc) (by decide)
  have hnt : ∀ c ∈ natChars ((ft.lookup fn).getD 0), isPySpace c = false :=
    fun c hc => (isDigitCh_not_space (natChars_all_digit _ c hc)).1
  cases hincs : (fi.lookup fn).getD [] with
  | nil =>
    have hline : depLine ft fi fn =
        List.intercalate [' '] [fn, natChars ((ft.lookup fn).getD 0)] ++ [' '] := by
      unfold depLine
      rw [hincs, intercalate_cons2, intercalate_single]
      simp [intercalate_nil_words]
    rw [hline]
    intro hmem
    rcases List.mem_append.mp hmem with h | h
    · refine hparts _ ?_ h
      intro pp hpp c hc
      rcases List.mem_cons.mp hpp with h1 | h1
      · subst h1; exact hnc c hc
      · simp only [List.mem_singleton] at h1
        subst h1; exact hnt c hc
    · simp at h
  | cons a t =>
    have hline : depLine ft fi fn =
        List.intercalate [' ']
          (fn :: natChars ((ft.lookup fn).getD 0) :: (a :: t).map incTok) := by
      unfold depLine
      rw [hincs, List.map_cons, intercalate_cons2, intercalate_cons2]
      simp
    rw [hline]
    refine hparts _ ?_
    intro pp hpp c hc
    rcases List.mem_cons.mp hpp with h1 | h1
    · subst h1; exact hnc c hc
    rcases List.mem_cons.mp h1 with h2 | h2
    · subst h2; exact hnt c hc
    · simp only [List.mem_map] at h2
      obtain ⟨q, hq, hqe⟩ := h2
      subst hqe
      refine (incTok_part_valid q ?_).2 c hc
      intro c2 hc2
      apply hinc q ?_ c2 hc2
      rw [hincs]
      exact hq

theorem lookup_isSome_of_mem_keys {α : Type} {d : PyDict α} {k : Name}
    (h : k ∈ d.keys) : (d.lookup k).isSome := by
  induction d with
  | nil => exact absurd h (by simp [PyDict.keys])
  | cons p rest ih =>
    obtain ⟨pk, pv⟩ := p
    by_cases hpk : pk = k
    · simp [PyDict.lookup, hpk]
    · simp only [PyDict.lookup, if_neg hpk]
      apply ih
      simp only [PyDict.keys, List.map_cons, List.mem_cons] at h
      rcases h with h | h
      · exact absurd h.symm hpk
      · exact h

theorem sortedKeys_perm (ft : PyDict Nat) : List.Perm (sortedKeys ft) ft.keys :=
  insSort_perm ft.keys

theorem sortedKeys_nodup (ft : PyDict Nat) (hnd : ft.keys.Nodup) :
    (sortedKeys ft).Nodup :=
  ((sortedKeys_perm ft).nodup_iff).mpr hnd

theorem sortedKeys_sorted (ft : PyDict Nat) :
    List.Sorted (· ≤ ·) (sortedKeys ft) :=
  insSort_sorted ft.keys

/-- Saving then loading the store returns a lookup-equal pair of maps
(for stores whose names are serialization-safe). -/
theorem write_read_lookup (ft : PyDict Nat) (fi : PyDict IncList)
    (hnd : ft.keys.Nodup)
    (hdom : ∀ k, (ft.lookup k).isSome ↔ (fi.lookup k).isSome)
    (hval : ∀ fn ∈ ft.keys, fn ≠ [] ∧ (∀ c ∈ fn, isPySpace c = false))
    (hincval : ∀ fn ∈ ft.keys, ∀ p ∈ (fi.lookup fn).getD [],
      ∀ c ∈ p.1, isPySpace c = false ∧ ¬ c = '@') :
    ∃ ftR fiR, read_dep_file (some (write_dep_file ft fi)) = some (ftR, fiR) ∧
      (∀ k, ftR.lookup k = ft.lookup k) ∧ (∀ k, fiR.lookup k = fi.lookup k) := by
  have hmemkeys : ∀ fn, fn ∈ sortedKeys ft ↔ fn ∈ ft.keys :=
    fun fn => (sortedKeys_perm ft).mem_iff
  have hventry : ∀ fn ∈ sortedKeys ft, ValidEntry fi fn := by
    intro fn hfn
    have hk := (hmemkeys fn).mp hfn
    exact ⟨(hval fn hk).1, (hval fn hk).2,
      fun p hp c hc => (hincval fn hk p hp c hc).1⟩
  have hsplitfile := splitOn_write_dep_file ft fi
    (fun fn hfn => newline_not_mem_depLine ft fi fn (hventry fn hfn))
  have hread : read_dep_file (some (write_dep_file ft fi)) =
      some ((sortedKeys ft).foldl
              (fun d fn => PyDict.assign d fn ((ft.lookup fn).getD 0)) ([] : PyDict Nat),
            (sortedKeys ft).foldl
              (fun d fn => PyDict.assign d fn ((fi.lookup fn).getD [])) ([] : PyDict IncList)) := by
    rw [show read_dep_file (some (write_dep_file ft fi))
        = ((write_dep_file ft fi).splitOn '
').foldlM readDepLine ([], []) from rfl]
    rw [hsplitfile, List.foldlM_append,
      foldlM_readDepLine ft fi (sortedKeys ft) hventry ([], [])]
    rfl
  refine ⟨_, _, hread, ?_, ?_⟩
  · intro k
    rw [lookup_foldl_assign _ (sortedKeys ft) (sortedKeys_nodup ft hnd) [] k]
    by_cases hk : k ∈ sortedKeys ft
    · rw [if_pos hk]
      have hsome := lookup_isSome_of_mem_keys ((hmemkeys k).mp hk)
      cases hlk : ft.lookup k with
      | none => rw [hlk] at hsome; simp at hsome
      | some v => simp [hlk]
    · rw [if_neg hk]
      rw [PyDict.lookup_eq_none_of_not_mem_keys
        (fun hkk => hk ((hmemkeys k).mpr hkk))]
      rfl
  · intro k
    rw [lookup_foldl_assign _ (sortedKeys ft) (sortedKeys_nodup ft hnd) [] k]
    by_cases hk : k ∈ sortedKeys ft
    · rw [if_pos hk]
      have hsome := (hdom k).mp (lookup_isSome_of_mem_keys ((hmemkeys k).mp hk))
      cases hlk : fi.lookup k with
      | none => rw [hlk] at hsome; simp at hsome
      | some v => simp [hlk]
    · rw [if_neg hk]
      have hkk : k ∉ ft.keys := fun hkk => hk ((hmemkeys k).mpr hkk)
      have : ft.lookup k = none := PyDict.lookup_eq_none_of_not_mem_keys hkk
      cases hlk : fi.lookup k with
      | none => rfl
      | some v =>
        have h2 := (hdom k).mpr (by rw [hlk]; rfl)
        rw [this] at h2
        simp at h2

/-- Claim C6: the dependency store round-trips — for a store with distinct,
nonempty, whitespace-free filenames, equal key domains of the two maps, and
whitespace-free, `@`-free include names, loading after saving returns
lookup-equal maps; loading a missing store returns the empty state; the
saved bytes are one line per file sorted by filename. -/
theorem claim_C6_roundtrip (ft : PyDict Nat) (fi : PyDict IncList)
    (hnd : ft.keys.Nodup)
    (hdom : ∀ k, (ft.lookup k).isSome ↔ (fi.lookup k).isSome)
    (hval : ∀ fn ∈ ft.keys, fn ≠ [] ∧ (∀ c ∈ fn, isPySpace c = false))
    (hincval : ∀ fn ∈ ft.keys, ∀ p ∈ (fi.lookup fn).getD [],
      ∀ c ∈ p.1, isPySpace c = false ∧ ¬ c = '@') :
    (∃ ftR fiR, read_dep_file (some (write_dep_file ft fi)) = some (ftR, fiR) ∧
      (∀ k, ftR.lookup k = ft.lookup k) ∧ (∀ k, fiR.lookup k = fi.lookup k)) ∧
    read_dep_file none = some ([], []) ∧
    (write_dep_file ft fi).splitOn '\n' =
      (sortedKeys ft).map (depLine ft fi) ++ [[]] ∧
    List.Sorted (· ≤ ·) (sortedKeys ft) ∧
    List.Perm (sortedKeys ft) ft.keys := by
  have hmemkeys : ∀ fn, fn ∈ sortedKeys ft ↔ fn ∈ ft.keys :=
    fun fn => (sortedKeys_perm ft).mem_iff
  have hventry : ∀ fn ∈ sortedKeys ft, ValidEntry fi fn := by
    intro fn hfn
    have hk := (hmemkeys fn).mp hfn
    exact ⟨(hval fn hk).1, (hval fn hk).2,
      fun p hp c hc => (hincval fn hk p hp c hc).1⟩
  have hsplitfile := splitOn_write_dep_file ft fi
    (fun fn hfn => newline_not_mem_depLine ft fi fn (hventry fn hfn))
  exact ⟨write_read_lookup ft fi hnd hdom hval hincval, rfl, hsplitfile,
    sortedKeys_sorted ft, sortedKeys_perm ft⟩

/-- The concrete store of claim C6's witness. -/
def c6ft : PyDict Nat := [("A.c".data, 10)]

/-- The concrete include map of claim C6's witness. -/
def c6fi : PyDict IncList := [("A.c".data, [("H.h".data, 3)])]

/-- Witness for claim C6 at a concrete one-file store. -/
theorem claim_C6_roundtrip_witness :
    ∃ ftR fiR, read_dep_file (some (write_dep_file c6ft c6fi)) = some (ftR, fiR) ∧
      (∀ k, ftR.lookup k = c6ft.lookup k) ∧ (∀ k, fiR.lookup k = c6fi.lookup k) := by
  refine (claim_C6_roundtrip c6ft c6fi (by decide) ?_ (by decide) (by decide)).1
  intro k
  show (PyDict.lookup c6ft k).isSome = true ↔ (PyDict.lookup c6fi k).isSome = true
  by_cases h : "A.c".data = k <;> simp [c6ft, c6fi, PyDict.lookup, h]

/-! ## Claim C9: the diagnostic stream parser -/

/-- Does a stderr line match the diagnostic shape with the given severity? -/
def isSevLine (sev : Name) (l : Name) : Bool :=
  match matchDiag ["error".data, "warning".data] l with
  | some g => g.sevr = sev
  | none => false

theorem execLine_errors (st : ExecSt) (l : Name) :
    (execLine st l).errors =
      st.errors + (if isSevLine "error".data l then 1 else 0) := by
  unfold execLine isSevLine
  cases hm : matchDiag ["error".data, "warning".data] l with
  | none =>
    simp only [hm]
    cases hn : matchDiag ["note".data] l with
    | none => simp
    | some g =>
      by_cases hexp : hasSubstr "in expansion".data g.what = true <;> simp [hexp]
  | some g =>
    simp only [hm]
    by_cases hsev : g.sevr = "error".data
    · cases hn : matchDiag ["note".data] l with
      | none => simp [hsev]
      | some g2 =>
        by_cases hexp : hasSubstr "in expansion".data g2.what = true <;>
          simp [hexp, hsev]
    · cases hn : matchDiag ["note".data] l with
      | none => simp [hsev]
      | some g2 =>
        by_cases hexp : hasSubstr "in expansion".data g2.what = true <;>
          simp [hexp, hsev]

theorem execLine_warnings (st : ExecSt) (l : Name) :
    (execLine st l).warnings =
      st.warnings + (if isSevLine "warning".data l then 1 else 0) := by
  unfold execLine isSevLine
  cases hm : matchDiag ["error".data, "warning".data] l with
  | none =>
    simp only [hm]
    cases hn : matchDiag ["note".data] l with
    | none => simp
    | some g =>
      by_cases hexp : hasSubstr "in expansion".data g.what = true <;> simp [hexp]
  | some g =>
    simp only [hm]
    by_cases hsev : g.sevr = "warning".data
    · cases hn : matchDiag ["note".data] l with
      | none => simp [hsev]
      | some g2 =>
        by_cases hexp : hasSubstr "in expansion".data g2.what = true <;>
          simp [hexp, hsev]
    · cases hn : matchDiag ["note".data] l with
      | none => simp [hsev]
      | some g2 =>
        by_cases hexp : hasSubstr "in expansion".data g2.what = true <;>
          simp [hexp, hsev]

theorem execLine_out (st : ExecSt) (l : Name) :
    (execLine st l).out = st.out ++
      (match matchDiag ["error".data, "warning".data] l with
        | some _ => flushPrev st
        | none => []) ++ [.raw (colorize l)] := by
  unfold execLine
  cases hm : matchDiag ["error".data, "warning".data] l with
  | none =>
    simp only [hm]
    cases hn : matchDiag ["note".data] l with
    | none => simp
    | some g =>
      by_cases hexp : hasSubstr "in expansion".data g.what = true <;> simp [hexp]
  | some g =>
    simp only [hm]
    have hfl : flushPrev { st with
        out := st.out ++ flushPrev st
        curFile := some g.file
        curLine := some g.line
        curColm := some g.colm
        curSevr := some g.sevr
        curWhat := some g.what
        errors := if g.sevr = "error".data then st.errors + 1 else st.errors
        warnings := if g.sevr = "warning".data then st.warnings + 1 else st.warnings } =
      [.sum (some g.file) (some g.line) (some g.colm) (some g.sevr) (some g.what),
        .blank, .blank] := rfl
    cases hn : matchDiag ["note".data] l with
    | none => simp
    | some g2 =>
      by_cases hexp : hasSubstr "in expansion".data g2.what = true <;> simp [hexp]

theorem foldl_execLine_counts (lines : List Name) :
    ∀ st : ExecSt,
      (lines.foldl execLine st).errors =
        st.errors + (lines.filter (isSevLine "error".data)).length ∧
      (lines.foldl execLine st).warnings =
        st.warnings + (lines.filter (isSevLine "warning".data)).length := by
  induction lines with
  | nil => intro st; simp
  | cons a t ih =>
    intro st
    rw [List.foldl_cons]
    obtain ⟨ihe, ihw⟩ := ih (execLine st a)
    constructor
    · rw [ihe, execLine_errors]
      by_cases ha : isSevLine "error".data a = true <;>
        simp [ha, List.filter_cons] <;> omega
    · rw [ihw, execLine_warnings]
      by_cases ha : isSevLine "warning".data a = true <;>
        simp [ha, List.filter_cons] <;> omega

theorem foldl_execLine_out_mono (lines : List Name) :
    ∀ st : ExecSt, ∃ rest, (lines.foldl execLine st).out = st.out ++ rest := by
  induction lines with
  | nil => intro st; exact ⟨[], by simp⟩
  | cons a t ih =>
    intro st
    obtain ⟨r1, hr1⟩ := ih (execLine st a)
    refine ⟨(match matchDiag ["error".data, "warning".data] a with
        | some _ => flushPrev st
        | none => []) ++ [.raw (colorize a)] ++ r1, ?_⟩
    rw [List.foldl_cons, hr1, execLine_out]
    simp

/-- Claim C9: `exec_compiler` returns the exit code together with an error
count equal to the number of stream lines matching the
`<file>:<line>:<col>: error: <message>` shape and a warning count likewise;
at every line matching the diagnostic shape, the previously pending
diagnostic is flushed (a `SUM:` recap followed by two blank prints, when a
diagnostic is pending) immediately before that line's own (colorized) raw
print; and on exit the final pending diagnostic is flushed after all line
output. -/
theorem claim_C9_test (lines : List Name) (rc : Int)
    (pre post : List Name) (l : Name) (g : MsgGroups)
    (hsplit : lines = pre ++ l :: post)
    (hmatch : matchDiag ["error".data, "warning".data] l = some g) :
    (exec_compiler lines rc).1.1 = rc ∧
    (exec_compiler lines rc).1.2.1 =
      (lines.filter (isSevLine "error".data)).length ∧
    (exec_compiler lines rc).1.2.2 =
      (lines.filter (isSevLine "warning".data)).length ∧
    (∃ rest, (exec_compiler lines rc).2 =
      (pre.foldl execLine execInit).out ++ flushPrev (pre.foldl execLine execInit)
        ++ [.raw (colorize l)] ++ rest) ∧
    (∀ f, (pre.foldl execLine execInit).curFile = some f →
      flushPrev (pre.foldl execLine execInit) =
        [.sum (some f) (pre.foldl execLine execInit).curLine
          (pre.foldl execLine execInit).curColm
          (pre.foldl execLine execInit).curSevr
          (pre.foldl execLine execInit).curWhat, .blank, .blank]) ∧
    (exec_compiler lines rc).2 =
      (lines.foldl execLine execInit).out ++ flushPrev (lines.foldl execLine execInit) := by
  refine ⟨rfl, ?_, ?_, ?_, ?_, rfl⟩
  · have h := (foldl_execLine_counts lines execInit).1
    show (lines.foldl execLine execInit).errors = _
    rw [h]
    simp [execInit]
  · have h := (foldl_execLine_counts lines execInit).2
    show (lines.foldl execLine execInit).warnings = _
    rw [h]
    simp [execInit]
  · subst hsplit
    show ∃ rest, (((pre ++ l :: post).foldl execLine execInit).out ++
      flushPrev ((pre ++ l :: post).foldl execLine execInit)) = _
    rw [List.foldl_append, List.foldl_cons]
    obtain ⟨r1, hr1⟩ := foldl_execLine_out_mono post (execLine (pre.foldl execLine execInit) l)
    refine ⟨r1 ++ flushPrev ((post.foldl execLine) (execLine (pre.foldl execLine execInit) l)), ?_⟩
    rw [hr1, execLine_out, hmatch]
    simp
  · intro f hf
    unfold flushPrev
    rw [hf]

/-- The concrete stderr stream of claim C9's witness. -/
def c9lines : List Name :=
  ["a.c:1:2: error: boom".data, "context line".data, "b.h:3:4: warning: odd".data]

/-- Witness for claim C9 at a concrete three-line stream. -/
theorem claim_C9_test_witness :
    (exec_compiler c9lines 1).1.2.1 = 1 ∧ (exec_compiler c9lines 1).1.2.2 = 1 ∧
    (∃ rest, (exec_compiler c9lines 1).2 =
      (([ "a.c:1:2: error: boom".data, "context line".data ] :
          List Name).foldl execLine execInit).out ++
        flushPrev (([ "a.c:1:2: error: boom".data, "context line".data ] :
          List Name).foldl execLine execInit)
        ++ [.raw (colorize "b.h:3:4: warning: odd".data)] ++ rest) := by
  have h := claim_C9_test c9lines 1
    ["a.c:1:2: error: boom".data, "context line".data] []
    "b.h:3:4: warning: odd".data
    ⟨"b.h".data, "3".data, "4".data, "warning".data, "odd".data⟩
    (by decide) (by decide)
  refine ⟨?_, ?_, h.2.2.2.1⟩
  · rw [h.2.1]; decide
  · rw [h.2.2.1]; decide

/-! ## Closed-form characterization of the forward pass

Within one `discover` run, whether a frontier file counts as modified, which
include list the pass uses for it, and whether its includes all resolve are
pure functions of the file name (the mutable `known_files` set agrees with
the loaded store's key set on every not-yet-processed file).  The following
definitions express these per-file functions; the lemmas then characterize
the entire pass in terms of them. -/

/-- The physical path of a cleanly resolving logical file. -/
def resolvedPath (fs : FS) (fn : Name) : Option Name :=
  match fs.resolve fn with
  | some (.resolved p) => some p
  | _ => none

/-- Whether the forward pass classifies `fn` as modified: unknown to the
loaded store, or its mtime exceeds the stored one. -/
def ModifiedB (fs : FS) (ft : PyDict Nat) (fn : Name) : Bool :=
  match resolvedPath fs fn with
  | some p =>
    decide (fn ∉ ft.keys.toFinset) || decide (fs.mtime p > (ft.lookup fn).getD 0)
  | none => false

/-- The include list the forward pass uses for `fn`: a fresh scan when
modified, the stored list otherwise. -/
def usedIncs (fs : FS) (ft : PyDict Nat) (fi : PyDict IncList) (fn : Name) :
    IncList :=
  match resolvedPath fs fn with
  | some p =>
    if ModifiedB fs ft fn then getIncludes fs fn p else (fi.lookup fn).getD []
  | none => []

/-- The outcome of `check_includes` for `fn` on its used include list. -/
def checkResult (fs : FS) (ft : PyDict Nat) (fi : PyDict IncList) (fn : Name) :
    Option (Bool × List Diag) :=
  match resolvedPath fs fn with
  | some p => checkIncludes fs p (usedIncs fs ft fi fn)
  | none => none

/-- Whether all of `fn`'s used includes resolve. -/
def okFile (fs : FS) (ft : PyDict Nat) (fi : PyDict IncList) (fn : Name) : Bool :=
  ((checkResult fs ft fi fn).map Prod.fst).getD false

/-- The diagnostics `check_includes` prints for `fn`. -/
def fileDiags (fs : FS) (ft : PyDict Nat) (fi : PyDict IncList) (fn : Name) :
    List Diag :=
  ((checkResult fs ft fi fn).map Prod.snd).getD []

/-- One include-graph edge as the pass discovers it: from an
all-includes-resolve file to one of its include targets. -/
def edgeStep (fs : FS) (ft : PyDict Nat) (fi : PyDict IncList)
    (x y : Name) : Prop :=
  okFile fs ft fi x = true ∧ y ∈ includeNames (usedIncs fs ft fi x)

/-- Reachability along discovered include edges. -/
def ReachIncl (fs : FS) (ft : PyDict Nat) (fi : PyDict IncList) : Name → Name → Prop :=
  Relation.ReflTransGen (edgeStep fs ft fi)

/-- The invariant tying a mid-level forward-pass state to the pure per-file
functions: `P` is the set processed in earlier levels, `cur` the current
level, `doneS` the part of the current level already processed. -/
structure MidInv (fs : FS) (ft : PyDict Nat) (fi : PyDict IncList)
    (P cur doneS : Finset Name) (stm : FwdSt) (next : Finset Name) : Prop where
  checked_eq : stm.checked = P ∪ cur
  res : ∀ x ∈ P ∪ doneS, (resolvedPath fs x).isSome ∧ (checkResult fs ft fi x).isSome
  nft : ∀ x, stm.newft.lookup x =
    if x ∈ P ∪ doneS ∧ okFile fs ft fi x = true
    then some (fs.mtime ((resolvedPath fs x).getD [])) else none
  nfi : ∀ x, stm.newfi.lookup x =
    if x ∈ P ∪ doneS ∧ okFile fs ft fi x = true
    then some (usedIncs fs ft fi x) else none
  known_eq : stm.known =
    ft.keys.toFinset ∪ ((P ∪ doneS).filter (fun x => okFile fs ft fi x = true))
  mod_eq : stm.modified = (P ∪ doneS).filter (fun x => ModifiedB fs ft x = true)
  succ_iff : stm.success = true ↔ ∀ x ∈ P ∪ doneS, okFile fs ft fi x = true
  dia_iff : ∀ d, d ∈ stm.diags ↔ ∃ x ∈ P ∪ doneS, d ∈ fileDiags fs ft fi x
  next_eq : next =
    ((doneS.filter (fun x => okFile fs ft fi x = true)).biUnion
      (fun x => includeNames (usedIncs fs ft fi x))) \ (P ∪ cur)

theorem okFile_eq_of_checkResult {fs : FS} {ft : PyDict Nat} {fi : PyDict IncList}
    {fn : Name} {ok : Bool} {ds : List Diag}
    (h : checkResult fs ft fi fn = some (ok, ds)) :
    okFile fs ft fi fn = ok ∧ fileDiags fs ft fi fn = ds := by
  unfold okFile fileDiags
  rw [h]
  exact ⟨rfl, rfl⟩

theorem fwdFile_step_spec (fs : FS) (ft : PyDict Nat) (fi : PyDict IncList)
    (P cur doneS : Finset Name) (stm : FwdSt) (next : Finset Name) (fn : Name)
    (hP : fn ∉ P) (hdone : fn ∉ doneS)
    (hMid : MidInv fs ft fi P cur doneS stm next)
    (r : FwdSt × Finset Name)
    (heq : fwdFile fs ft fi (P ∪ cur) (stm, next) fn = some r) :
    MidInv fs ft fi P cur (insert fn doneS) r.1 r.2 ∧
      (resolvedPath fs fn).isSome ∧ (checkResult fs ft fi fn).isSome := by
  unfold fwdFile at heq
  cases hres : fs.resolve fn with
  | none => rw [hres] at heq; exact absurd heq (by simp)
  | some e =>
    cases e with
    | notFound => rw [hres] at heq; exact absurd heq (by simp)
    | ambiguous => rw [hres] at heq; exact absurd heq (by simp)
    | resolved p =>
      rw [hres] at heq
      simp only at heq
      have hrp : resolvedPath fs fn = some p := by unfold resolvedPath; rw [hres]
      have hkn : (decide (fn ∉ stm.known) : Bool) = decide (fn ∉ ft.keys.toFinset) := by
        apply decide_eq_decide.mpr
        rw [hMid.known_eq]
        constructor
        · intro h hft
          exact h (Finset.mem_union_left _ hft)
        · intro h hm
          rcases Finset.mem_union.mp hm with h1 | h1
          · exact h h1
          · have := Finset.mem_filter.mp h1
            rcases Finset.mem_union.mp this.1 with h2 | h2
            · exact hP h2
            · exact hdone h2
      have hmodb : (decide (fn ∉ stm.known) ||
          decide (fs.mtime p > (ft.lookup fn).getD 0)) = ModifiedB fs ft fn := by
        unfold ModifiedB
        rw [hrp, hkn]
      rw [hmodb] at heq
      have hinc : (if ModifiedB fs ft fn = true then getIncludes fs fn p
          else (fi.lookup fn).getD []) = usedIncs fs ft fi fn := by
        unfold usedIncs
        rw [hrp]
      rw [hinc] at heq
      have hcheckeq : checkIncludes fs p (usedIncs fs ft fi fn)
          = checkResult fs ft fi fn := by
        unfold checkResult
        rw [hrp]
      rw [hcheckeq] at heq
      cases hchk : checkResult fs ft fi fn with
      | none => rw [hchk] at heq; exact absurd heq (by simp)
      | some okds =>
        obtain ⟨ok, ds⟩ := okds
        simp only [hchk] at heq
        obtain ⟨hokeq, hdseq⟩ := okFile_eq_of_checkResult hchk
        refine ⟨?_, by simp [hrp], by simp [hchk]⟩
        have hmemP : fn ∈ P ∪ insert fn doneS := by simp
        by_cases hok : ok = true
        · subst hok
          rw [if_pos rfl] at heq
          have hr := Option.some.inj heq
          subst hr
          have hokfn : okFile fs ft fi fn = true := hokeq
          refine ⟨hMid.checked_eq, ?_, ?_, ?_, ?_, ?_, ?_, ?_, ?_⟩
          · intro x hx
            rcases Finset.mem_union.mp hx with h1 | h1
            · exact hMid.res x (Finset.mem_union_left _ h1)
            · rcases Finset.mem_insert.mp h1 with h2 | h2
              · subst h2
                exact ⟨by simp [hrp], by simp [hchk]⟩
              · exact hMid.res x (Finset.mem_union_right _ h2)
          · intro x
            show (stm.newft.assign fn (fs.mtime p)).lookup x = _
            rw [PyDict.lookup_assign]
            by_cases hx : fn = x
            · subst hx
              rw [if_pos rfl, if_pos ⟨hmemP, hokfn⟩, hrp]
              rfl
            · rw [if_neg hx, hMid.nft x]
              have hiff : x ∈ P ∪ doneS ↔ x ∈ P ∪ insert fn doneS := by
                simp only [Finset.mem_union, Finset.mem_insert]
                constructor
                · intro h; tauto
                · intro h
                  rcases h with h | h
                  · exact Or.inl h
                  rcases h with h | h
                  · exact absurd h.symm hx
                  · exact Or.inr h
              by_cases hcond : x ∈ P ∪ doneS ∧ okFile fs ft fi x = true
              · rw [if_pos hcond, if_pos ⟨hiff.mp hcond.1, hcond.2⟩]
              · rw [if_neg hcond, if_neg (fun hc => hcond ⟨hiff.mpr hc.1, hc.2⟩)]
          · intro x
            show (stm.newfi.assign fn (usedIncs fs ft fi fn)).lookup x = _
            rw [PyDict.lookup_assign]
            by_cases hx : fn = x
            · subst hx
              rw [if_pos rfl, if_pos ⟨hmemP, hokfn⟩]
            · rw [if_neg hx, hMid.nfi x]
              have hiff : x ∈ P ∪ doneS ↔ x ∈ P ∪ insert fn doneS := by
                simp only [Finset.mem_union, Finset.mem_insert]
                constructor
                · intro h; tauto
                · intro h
                  rcases h with h | h
                  · exact Or.inl h
                  rcases h with h | h
                  · exact absurd h.symm hx
                  · exact Or.inr h
              by_cases hcond : x ∈ P ∪ doneS ∧ okFile fs ft fi x = true
              · rw [if_pos hcond, if_pos ⟨hiff.mp hcond.1, hcond.2⟩]
              · rw [if_neg hcond, if_neg (fun hc => hcond ⟨hiff.mpr hc.1, hc.2⟩)]
          · show stm.known ∪ {fn} = _
            rw [hMid.known_eq]
            ext x
            simp only [Finset.mem_union, Finset.mem_filter, Finset.mem_insert,
              Finset.mem_singleton]
            constructor
            · intro h
              rcases h with (h | h) | h
              · exact Or.inl h
              · exact Or.inr ⟨Or.imp_right Or.inr h.1, h.2⟩
              · subst h
                exact Or.inr ⟨Or.inr (Or.inl rfl), hokfn⟩
            · intro h
              rcases h with h | ⟨h1, h2⟩
              · exact Or.inl (Or.inl h)
              · rcases h1 with h1 | h1
                · exact Or.inl (Or.inr ⟨Or.inl h1, h2⟩)
                rcases h1 with h1 | h1
                · exact Or.inr h1
                · exact Or.inl (Or.inr ⟨Or.inr h1, h2⟩)
          · show (if ModifiedB fs ft fn = true then stm.modified ∪ {fn}
                else stm.modified) = _
            rw [hMid.mod_eq]
            by_cases hmod : ModifiedB fs ft fn = true
            · rw [if_pos hmod]
              ext x
              simp only [Finset.mem_union, Finset.mem_filter, Finset.mem_insert,
                Finset.mem_singleton]
              constructor
              · intro h
                rcases h with h | h
                · exact ⟨Or.imp_right Or.inr h.1, h.2⟩
                · subst h
                  exact ⟨Or.inr (Or.inl rfl), hmod⟩
              · intro ⟨h1, h2⟩
                rcases h1 with h1 | h1
                · exact Or.inl ⟨Or.inl h1, h2⟩
                rcases h1 with h1 | h1
                · exact Or.inr h1
                · exact Or.inl ⟨Or.inr h1, h2⟩
            · rw [if_neg hmod]
              ext x
              simp only [Finset.mem_union, Finset.mem_filter, Finset.mem_insert]
              constructor
              · intro ⟨h1, h2⟩
                exact ⟨Or.imp_right Or.inr h1, h2⟩
              · intro ⟨h1, h2⟩
                rcases h1 with h1 | h1
                · exact ⟨Or.inl h1, h2⟩
                rcases h1 with h1 | h1
                · subst h1; exact absurd h2 hmod
                · exact ⟨Or.inr h1, h2⟩
          · show stm.success = true ↔ _
            rw [hMid.succ_iff]
            constructor
            · intro h x hx
              rcases Finset.mem_union.mp hx with h1 | h1
              · exact h x (Finset.mem_union_left _ h1)
              rcases Finset.mem_insert.mp h1 with h2 | h2
              · subst h2; exact hokfn
              · exact h x (Finset.mem_union_right _ h2)
            · intro h x hx
              rcases Finset.mem_union.mp hx with h1 | h1
              · exact h x (Finset.mem_union_left _ h1)
              · exact h x (Finset.mem_union_right _ (Finset.mem_insert_of_mem h1))
          · intro d
            show d ∈ stm.diags ++ ds ↔ _
            rw [List.mem_append, hMid.dia_iff d]
            constructor
            · intro h
              rcases h with ⟨x, hx, hd⟩ | h
              · refine ⟨x, ?_, hd⟩
                rcases Finset.mem_union.mp hx with h1 | h1
                · exact Finset.mem_union_left _ h1
                · exact Finset.mem_union_right _ (Finset.mem_insert_of_mem h1)
              · exact ⟨fn, hmemP, by rw [hdseq]; exact h⟩
            · intro ⟨x, hx, hd⟩
              rcases Finset.mem_union.mp hx with h1 | h1
              · exact Or.inl ⟨x, Finset.mem_union_left _ h1, hd⟩
              rcases Finset.mem_insert.mp h1 with h2 | h2
              · subst h2
                rw [hdseq] at hd
                exact Or.inr hd
              · exact Or.inl ⟨x, Finset.mem_union_right _ h2, hd⟩
          · show next ∪ includeNames (usedIncs fs ft fi fn) \ (P ∪ cur) = _
            rw [hMid.next_eq, Finset.filter_insert, if_pos hokfn,
              Finset.biUnion_insert, Finset.union_sdiff_distrib]
            rw [Finset.union_comm]
        · have hokf : ok = false := Bool.eq_false_iff.mpr hok
          subst hokf
          rw [if_neg (by simp)] at heq
          have hr := Option.some.inj heq
          subst hr
          have hokfn : okFile fs ft fi fn = false := hokeq
          have hnotok : ¬ okFile fs ft fi fn = true := by simp [hokfn]
          refine ⟨hMid.checked_eq, ?_, ?_, ?_, ?_, ?_, ?_, ?_, ?_⟩
          · intro x hx
            rcases Finset.mem_union.mp hx with h1 | h1
            · exact hMid.res x (Finset.mem_union_left _ h1)
            · rcases Finset.mem_insert.mp h1 with h2 | h2
              · subst h2
                exact ⟨by simp [hrp], by simp [hchk]⟩
              · exact hMid.res x (Finset.mem_union_right _ h2)
          · intro x
            show stm.newft.lookup x = _
            rw [hMid.nft x]
            by_cases hx : fn = x
            · subst hx
              rw [if_neg (fun hc => hP (by
                  rcases Finset.mem_union.mp hc.1 with h1 | h1
                  · exact h1
                  · exact absurd h1 hdone)),
                if_neg (fun hc => hnotok hc.2)]
            · have hiff : x ∈ P ∪ doneS ↔ x ∈ P ∪ insert fn doneS := by
                simp only [Finset.mem_union, Finset.mem_insert]
                constructor
                · intro h; tauto
                · intro h
                  rcases h with h | h
                  · exact Or.inl h
                  rcases h with h | h
                  · exact absurd h.symm hx
                  · exact Or.inr h
              by_cases hcond : x ∈ P ∪ doneS ∧ okFile fs ft fi x = true
              · rw [if_pos hcond, if_pos ⟨hiff.mp hcond.1, hcond.2⟩]
              · rw [if_neg hcond, if_neg (fun hc => hcond ⟨hiff.mpr hc.1, hc.2⟩)]
          · intro x
            show stm.newfi.lookup x = _
            rw [hMid.nfi x]
            by_cases hx : fn = x
            · subst hx
              rw [if_neg (fun hc => hP (by
                  rcases Finset.mem_union.mp hc.1 with h1 | h1
                  · exact h1
                  · exact absurd h1 hdone)),
                if_neg (fun hc => hnotok hc.2)]
            · have hiff : x ∈ P ∪ doneS ↔ x ∈ P ∪ insert fn doneS := by
                simp only [Finset.mem_union, Finset.mem_insert]
                constructor
                · intro h; tauto
                · intro h
                  rcases h with h | h
                  · exact Or.inl h
                  rcases h with h | h
                  · exact absurd h.symm hx
                  · exact Or.inr h
              by_cases hcond : x ∈ P ∪ doneS ∧ okFile fs ft fi x = true
              · rw [if_pos hcond, if_pos ⟨hiff.mp hcond.1, hcond.2⟩]
              · rw [if_neg hcond, if_neg (fun hc => hcond ⟨hiff.mpr hc.1, hc.2⟩)]
          · show stm.known = _
            rw [hMid.known_eq]
            congr 1
            ext x
            simp only [Finset.mem_filter, Finset.mem_union, Finset.mem_insert]
            constructor
            · intro ⟨h1, h2⟩
              exact ⟨Or.imp_right Or.inr h1, h2⟩
            · intro ⟨h1, h2⟩
              rcases h1 with h1 | h1
              · exact ⟨Or.inl h1, h2⟩
              rcases h1 with h1 | h1
              · subst h1; exact absurd h2 hnotok
              · exact ⟨Or.inr h1, h2⟩
          · show (if ModifiedB fs ft fn = true then stm.modified ∪ {fn}
                else stm.modified) = _
            rw [hMid.mod_eq]
            by_cases hmod : ModifiedB fs ft fn = true
            · rw [if_pos hmod]
              ext x
              simp only [Finset.mem_union, Finset.mem_filter, Finset.mem_insert,
                Finset.mem_singleton]
              constructor
              · intro h
                rcases h with h | h
                · exact ⟨Or.imp_right Or.inr h.1, h.2⟩
                · subst h
                  exact ⟨Or.inr (Or.inl rfl), hmod⟩
              · intro ⟨h1, h2⟩
                rcases h1 with h1 | h1
                · exact Or.inl ⟨Or.inl h1, h2⟩
                rcases h1 with h1 | h1
                · exact Or.inr h1
                · exact Or.inl ⟨Or.inr h1, h2⟩
            · rw [if_neg hmod]
              ext x
              simp only [Finset.mem_union, Finset.mem_filter, Finset.mem_insert]
              constructor
              · intro ⟨h1, h2⟩
                exact ⟨Or.imp_right Or.inr h1, h2⟩
              · intro ⟨h1, h2⟩
                rcases h1 with h1 | h1
                · exact ⟨Or.inl h1, h2⟩
                rcases h1 with h1 | h1
                · subst h1; exact absurd h2 hmod
                · exact ⟨Or.inr h1, h2⟩
          · show (false : Bool) = true ↔ _
            constructor
            · intro h; exact absurd h (by simp)
            · intro h
              exact absurd (h fn hmemP) hnotok
          · intro d
            show d ∈ stm.diags ++ ds ↔ _
            rw [List.mem_append, hMid.dia_iff d]
            constructor
            · intro h
              rcases h with ⟨x, hx, hd⟩ | h
              · refine ⟨x, ?_, hd⟩
                rcases Finset.mem_union.mp hx with h1 | h1
                · exact Finset.mem_union_left _ h1
                · exact Finset.mem_union_right _ (Finset.mem_insert_of_mem h1)
              · exact ⟨fn, hmemP, by rw [hdseq]; exact h⟩
            · intro ⟨x, hx, hd⟩
              rcases Finset.mem_union.mp hx with h1 | h1
              · exact Or.inl ⟨x, Finset.mem_union_left _ h1, hd⟩
              rcases Finset.mem_insert.mp h1 with h2 | h2
              · subst h2
                rw [hdseq] at hd
                exact Or.inr hd
              · exact Or.inl ⟨x, Finset.mem_union_right _ h2, hd⟩
          · show next = _
            rw [hMid.next_eq, Finset.filter_insert, if_neg hnotok]

theorem foldlM_fwdFile_spec (fs : FS) (ft : PyDict Nat) (fi : PyDict IncList)
    (P cur : Finset Name) :
    ∀ (todo : List Name) (doneS : Finset Name) (stm : FwdSt) (next : Finset Name),
      (∀ x ∈ todo, x ∉ P) → (∀ x ∈ todo, x ∉ doneS) → todo.Nodup →
      MidInv fs ft fi P cur doneS stm next →
      ∀ res, todo.foldlM (fwdFile fs ft fi (P ∪ cur)) (stm, next) = some res →
        MidInv fs ft fi P cur (doneS ∪ todo.toFinset) res.1 res.2 := by
  intro todo
  induction todo with
  | nil =>
    intro doneS stm next _ _ _ hMid res hres
    simp only [List.foldlM_nil] at hres
    have he := Option.some.inj hres
    subst he
    simpa using hMid
  | cons a t ih =>
    intro doneS stm next hP hdone hnd hMid res hres
    simp only [List.foldlM_cons] at hres
    cases hstep : fwdFile fs ft fi (P ∪ cur) (stm, next) a with
    | none => rw [hstep] at hres; simp at hres
    | some r1 =>
      rw [hstep] at hres
      have hspec := fwdFile_step_spec fs ft fi P cur doneS stm next a
        (hP a (List.mem_cons_self a t)) (hdone a (List.mem_cons_self a t)) hMid r1 hstep
      have hmid1 := hspec.1
      have ht := ih (insert a doneS) r1.1 r1.2
        (fun x hx => hP x (List.mem_cons_of_mem a hx))
        (fun x hx => by
          intro hmem
          rcases Finset.mem_insert.mp hmem with h1 | h1
          · subst h1
            exact (List.nodup_cons.mp hnd).1 hx
          · exact hdone x (List.mem_cons_of_mem a hx) h1)
        (List.nodup_cons.mp hnd).2 hmid1 res (by
          rw [show ((r1.1, r1.2) : FwdSt × Finset Name) = r1 from rfl]
          exact hres)
      have hset : insert a doneS ∪ t.toFinset = doneS ∪ (a :: t).toFinset := by
        ext x
        simp only [Finset.mem_union, Finset.mem_insert, List.toFinset_cons,
          List.mem_toFinset, List.mem_cons]
        tauto
      rw [hset] at ht
      exact ht

/-- The loop-boundary invariant of the forward pass: the state fields are
the closed-form functions of the processed set `st.checked`, and every
discovered edge out of a processed file lands in `st.checked ∪ cur`. -/
structure LoopInv (fs : FS) (ft : PyDict Nat) (fi : PyDict IncList)
    (st : FwdSt) (cur : Finset Name) : Prop where
  disj : ∀ x ∈ cur, x ∉ st.checked
  res : ∀ x ∈ st.checked, (resolvedPath fs x).isSome ∧ (checkResult fs ft fi x).isSome
  nft : ∀ x, st.newft.lookup x =
    if x ∈ st.checked ∧ okFile fs ft fi x = true
    then some (fs.mtime ((resolvedPath fs x).getD [])) else none
  nfi : ∀ x, st.newfi.lookup x =
    if x ∈ st.checked ∧ okFile fs ft fi x = true
    then some (usedIncs fs ft fi x) else none
  known_eq : st.known =
    ft.keys.toFinset ∪ (st.checked.filter (fun x => okFile fs ft fi x = true))
  mod_eq : st.modified = st.checked.filter (fun x => ModifiedB fs ft x = true)
  succ_iff : st.success = true ↔ ∀ x ∈ st.checked, okFile fs ft fi x = true
  dia_iff : ∀ d, d ∈ st.diags ↔ ∃ x ∈ st.checked, d ∈ fileDiags fs ft fi x
  closure : ∀ x ∈ st.checked, okFile fs ft fi x = true →
    includeNames (usedIncs fs ft fi x) ⊆ st.checked ∪ cur

theorem fwdLevel_spec (fs : FS) (ft : PyDict Nat) (fi : PyDict IncList)
    (st : FwdSt) (cur : Finset Name) (hInv : LoopInv fs ft fi st cur)
    (st' : FwdSt) (next : Finset Name)
    (heq : fwdLevel fs ft fi st cur = some (st', next)) :
    LoopInv fs ft fi st' next ∧ st'.checked = st.checked ∪ cur ∧
      next = ((cur.filter (fun x => okFile fs ft fi x = true)).biUnion
        (fun x => includeNames (usedIncs fs ft fi x))) \ (st.checked ∪ cur) := by
  unfold fwdLevel at heq
  have hMid0 : MidInv fs ft fi st.checked cur ∅
      ({ st with checked := st.checked ∪ cur }) ∅ := by
    refine ⟨rfl, ?_, ?_, ?_, ?_, ?_, ?_, ?_, ?_⟩
    · intro x hx
      exact hInv.res x (by simpa using hx)
    · intro x
      rw [hInv.nft x]
      simp
    · intro x
      rw [hInv.nfi x]
      simp
    · rw [hInv.known_eq]
      simp
    · rw [hInv.mod_eq]
      simp
    · rw [hInv.succ_iff]
      simp
    · intro d
      rw [hInv.dia_iff d]
      simp
    · simp
  have hfold := foldlM_fwdFile_spec fs ft fi st.checked cur
    (sortFinset cur) ∅ ({ st with checked := st.checked ∪ cur }) ∅
    (fun x hx => hInv.disj x (by rwa [mem_sortFinset] at hx))
    (fun x _ => Finset.not_mem_empty x)
    (sortFinset_nodup cur) hMid0 (st', next) heq
  rw [Finset.empty_union, sortFinset_toFinset] at hfold
  have hchk' : st'.checked = st.checked ∪ cur := hfold.checked_eq
  have Hres : ∀ x ∈ st.checked ∪ cur,
      (resolvedPath fs x).isSome ∧ (checkResult fs ft fi x).isSome := hfold.res
  have Hnft : ∀ x, st'.newft.lookup x =
      if x ∈ st.checked ∪ cur ∧ okFile fs ft fi x = true
      then some (fs.mtime ((resolvedPath fs x).getD [])) else none := hfold.nft
  have Hnfi : ∀ x, st'.newfi.lookup x =
      if x ∈ st.checked ∪ cur ∧ okFile fs ft fi x = true
      then some (usedIncs fs ft fi x) else none := hfold.nfi
  have Hknown : st'.known = ft.keys.toFinset ∪
      ((st.checked ∪ cur).filter (fun x => okFile fs ft fi x = true)) := hfold.known_eq
  have Hmod : st'.modified =
      (st.checked ∪ cur).filter (fun x => ModifiedB fs ft x = true) := hfold.mod_eq
  have Hsucc : st'.success = true ↔
      ∀ x ∈ st.checked ∪ cur, okFile fs ft fi x = true := hfold.succ_iff
  have Hdia : ∀ d, d ∈ st'.diags ↔
      ∃ x ∈ st.checked ∪ cur, d ∈ fileDiags fs ft fi x := hfold.dia_iff
  have Hnext : next =
      ((cur.filter (fun x => okFile fs ft fi x = true)).biUnion
        (fun x => includeNames (usedIncs fs ft fi x))) \ (st.checked ∪ cur) := hfold.next_eq
  refine ⟨?_, hchk', Hnext⟩
  refine ⟨?_, ?_, ?_, ?_, ?_, ?_, ?_, ?_, ?_⟩
  · intro x hx
    rw [Hnext] at hx
    rw [hchk']
    exact (Finset.mem_sdiff.mp hx).2
  · intro x hx
    rw [hchk'] at hx
    exact Hres x hx
  · intro x
    rw [Hnft x, hchk']
  · intro x
    rw [Hnfi x, hchk']
  · rw [Hknown, hchk']
  · rw [Hmod, hchk']
  · rw [Hsucc, hchk']
  · intro d
    rw [Hdia d, hchk']
  · intro x hx hok y hy
    rw [hchk'] at hx ⊢
    rcases Finset.mem_union.mp hx with h1 | h1
    · have := hInv.closure x h1 hok hy
      exact Finset.mem_union_left _ this
    · by_cases hP : x ∈ st.checked
      · have := hInv.closure x hP hok hy
        exact Finset.mem_union_left _ this
      · by_cases hyc : y ∈ st.checked ∪ cur
        · exact Finset.mem_union_left _ hyc
        · refine Finset.mem_union_right _ ?_
          rw [Hnext, Finset.mem_sdiff]
          exact ⟨Finset.mem_biUnion.mpr ⟨x, Finset.mem_filter.mpr ⟨h1, hok⟩, hy⟩, hyc⟩

theorem fwdLoop_spec (fs : FS) (ft : PyDict Nat) (fi : PyDict IncList) :
    ∀ (fuel : Nat) (st : FwdSt) (cur : Finset Name) (stF : FwdSt),
      LoopInv fs ft fi st cur →
      fwdLoop fs ft fi fuel st cur = some stF →
      LoopInv fs ft fi stF ∅ ∧ st.checked ∪ cur ⊆ stF.checked ∧
        (∀ x ∈ stF.checked, x ∈ st.checked ∨ ∃ c ∈ cur, ReachIncl fs ft fi c x) := by
  intro fuel
  induction fuel with
  | zero => intro st cur stF _ h; exact absurd h (by simp [fwdLoop])
  | succ n ih =>
    intro st cur stF hInv heq
    unfold fwdLoop at heq
    by_cases hcur : cur = ∅
    · rw [if_pos hcur] at heq
      have he := Option.some.inj heq
      subst he
      subst hcur
      refine ⟨hInv, by simp, fun x hx => Or.inl hx⟩
    · rw [if_neg hcur] at heq
      cases hlev : fwdLevel fs ft fi st cur with
      | none => rw [hlev] at heq; simp at heq
      | some pair =>
        obtain ⟨st', next⟩ := pair
        rw [hlev] at heq
        obtain ⟨hInv', hchk', hnext⟩ := fwdLevel_spec fs ft fi st cur hInv st' next hlev
        obtain ⟨hA, hB, hC⟩ := ih st' next stF hInv' heq
        refine ⟨hA, ?_, ?_⟩
        · intro x hx
          apply hB
          rw [hchk']
          exact Finset.mem_union_left _ hx
        · intro x hx
          rcases hC x hx with h1 | ⟨c, hc, hreach⟩
          · rw [hchk'] at h1
            rcases Finset.mem_union.mp h1 with h2 | h2
            · exact Or.inl h2
            · exact Or.inr ⟨x, h2, Relation.ReflTransGen.refl⟩
          · rw [hnext] at hc
            have hcb := (Finset.mem_sdiff.mp hc).1
            obtain ⟨z, hz, hcz⟩ := Finset.mem_biUnion.mp hcb
            have hzf := Finset.mem_filter.mp hz
            exact Or.inr ⟨z, hzf.1,
              Relation.ReflTransGen.head ⟨hzf.2, hcz⟩ hreach⟩

theorem reach_subset_checked (fs : FS) (ft : PyDict Nat) (fi : PyDict IncList)
    {stF : FwdSt} (hA : LoopInv fs ft fi stF ∅) {c x : Name}
    (hc : c ∈ stF.checked) (hr : ReachIncl fs ft fi c x) : x ∈ stF.checked := by
  induction hr with
  | refl => exact hc
  | tail hr' hstep ih =>
    have := hA.closure _ ih hstep.1 hstep.2
    simpa using this

theorem fwdLoop_checked_iff (fs : FS) (ft : PyDict Nat) (fi : PyDict IncList)
    {fuel : Nat} {st : FwdSt} {cur : Finset Name} {stF : FwdSt}
    (hInv : LoopInv fs ft fi st cur)
    (heq : fwdLoop fs ft fi fuel st cur = some stF) :
    ∀ x, x ∈ stF.checked ↔
      (x ∈ st.checked ∨ ∃ c ∈ cur, ReachIncl fs ft fi c x) := by
  obtain ⟨hA, hB, hC⟩ := fwdLoop_spec fs ft fi fuel st cur stF hInv heq
  intro x
  constructor
  · exact hC x
  · intro h
    rcases h with h | ⟨c, hc, hr⟩
    · exact hB (Finset.mem_union_left _ h)
    · exact reach_subset_checked fs ft fi hA (hB (Finset.mem_union_right _ hc)) hr

/-- Reverse reachability: following inverted include edges upward from a
modified file. -/
def RevReach (incFrom : Name → Finset Name) : Name → Name → Prop :=
  Relation.ReflTransGen (fun a b => b ∈ incFrom a)

theorem revReach_closed (incFrom : Name → Finset Name) {propagated : Finset Name}
    {m x : Name} (hclosed : ∀ p ∈ propagated, ∀ y ∈ incFrom p, y ∈ propagated)
    (hm : m ∈ propagated) (hr : RevReach incFrom m x) : x ∈ propagated := by
  induction hr with
  | refl => exact hm
  | tail hr' hstep ih => exact hclosed _ ih _ hstep

theorem bwdLoop_spec (incFrom : Name → Finset Name) (src O : Finset Name) :
    ∀ (fuel : Nat) (cur propagated acc rec : Finset Name),
      (∀ x ∈ cur, x ∉ propagated) →
      (∀ p ∈ propagated, ∀ y ∈ incFrom p, y ∈ propagated ∪ cur) →
      acc = propagated ∩ src →
      (∀ x ∈ propagated ∪ cur, ∃ m ∈ O, RevReach incFrom m x) →
      O ⊆ propagated ∪ cur →
      bwdLoop incFrom src fuel cur propagated acc = some rec →
      ∀ x, x ∈ rec ↔ x ∈ src ∧ ∃ m ∈ O, RevReach incFrom m x := by
  intro fuel
  induction fuel with
  | zero => intro cur p acc rec _ _ _ _ _ h; exact absurd h (by simp [bwdLoop])
  | succ n ih =>
    intro cur propagated acc rec hdisj hclosed hacc hreach hO heq
    unfold bwdLoop at heq
    by_cases hcur : cur = ∅
    · rw [if_pos hcur] at heq
      have he := Option.some.inj heq
      subst he
      subst hcur
      intro x
      rw [hacc, Finset.mem_inter]
      constructor
      · intro ⟨h1, h2⟩
        refine ⟨h2, ?_⟩
        have := hreach x (by simpa using h1)
        exact this
      · intro ⟨h1, m, hm, hr⟩
        refine ⟨?_, h1⟩
        have hmP : m ∈ propagated := by simpa using hO hm
        exact revReach_closed incFrom
          (fun p hp y hy => by simpa using hclosed p hp y hy) hmP hr
    · rw [if_neg hcur] at heq
      apply ih (cur.biUnion incFrom \ (propagated ∪ cur)) (propagated ∪ cur)
        (acc ∪ cur ∩ src) rec
      · intro x hx
        exact (Finset.mem_sdiff.mp hx).2
      · intro p hp y hy
        rcases Finset.mem_union.mp hp with h1 | h1
        · have := hclosed p h1 y hy
          rcases Finset.mem_union.mp this with h2 | h2
          · exact Finset.mem_union_left _ (Finset.mem_union_left _ h2)
          · exact Finset.mem_union_left _ (Finset.mem_union_right _ h2)
        · by_cases hyp : y ∈ propagated ∪ cur
          · exact Finset.mem_union_left _ hyp
          · refine Finset.mem_union_right _ ?_
            rw [Finset.mem_sdiff]
            exact ⟨Finset.mem_biUnion.mpr ⟨p, h1, hy⟩, hyp⟩
      · rw [hacc]
        ext x
        simp only [Finset.mem_union, Finset.mem_inter]
        tauto
      · intro x hx
        rcases Finset.mem_union.mp hx with h1 | h1
        · exact hreach x h1
        · have h2 := (Finset.mem_sdiff.mp h1).1
          obtain ⟨c, hc, hxc⟩ := Finset.mem_biUnion.mp h2
          obtain ⟨m, hm, hr⟩ := hreach c (Finset.mem_union_right _ hc)
          exact ⟨m, hm, Relation.ReflTransGen.tail hr hxc⟩
      · intro x hx
        exact Finset.mem_union_left _ (hO hx)
      · exact heq

theorem bwdLoop_total (incFrom : Name → Finset Name) (src U : Finset Name)
    (hU : ∀ x, incFrom x ⊆ U) :
    ∀ (fuel : Nat) (cur propagated acc : Finset Name),
      cur ⊆ U → (∀ x ∈ cur, x ∉ propagated) →
      (U \ propagated).card < fuel →
      (bwdLoop incFrom src fuel cur propagated acc).isSome := by
  intro fuel
  induction fuel with
  | zero => intro cur p acc _ _ h; omega
  | succ n ih =>
    intro cur propagated acc hcurU hdisj hcard
    unfold bwdLoop
    by_cases hcur : cur = ∅
    · rw [if_pos hcur]; rfl
    · rw [if_neg hcur]
      apply ih
      · intro x hx
        have h2 := (Finset.mem_sdiff.mp hx).1
        obtain ⟨c, hc, hxc⟩ := Finset.mem_biUnion.mp h2
        exact hU c hxc
      · intro x hx
        exact (Finset.mem_sdiff.mp hx).2
      · obtain ⟨c, hc⟩ := Finset.nonempty_iff_ne_empty.mpr hcur
        have hsub : U \ (propagated ∪ cur) ⊆ U \ propagated := by
          intro x hx
          rw [Finset.mem_sdiff] at hx ⊢
          exact ⟨hx.1, fun h => hx.2 (Finset.mem_union_left _ h)⟩
        have hlt : (U \ (propagated ∪ cur)).card < (U \ propagated).card := by
          apply Finset.card_lt_card
          rw [Finset.ssubset_iff_of_subset hsub]
          refine ⟨c, ?_, ?_⟩
          · rw [Finset.mem_sdiff]
            exact ⟨hcurU hc, hdisj c hc⟩
          · rw [Finset.mem_sdiff]
            intro ⟨_, h2⟩
            exact h2 (Finset.mem_union_right _ hc)
        omega

/-- The loop invariant at `discover`'s initial state. -/
theorem initLoopInv (fs : FS) (ft : PyDict Nat) (fi : PyDict IncList)
    (src : Finset Name) :
    LoopInv fs ft fi ⟨∅, [], [], ft.keys.toFinset, ∅, true, []⟩ src := by
  refine ⟨?_, ?_, ?_, ?_, ?_, ?_, ?_, ?_, ?_⟩
  · intro x _
    simp
  · intro x hx
    exact absurd hx (Finset.not_mem_empty x)
  · intro x
    simp [PyDict.lookup]
  · intro x
    simp [PyDict.lookup]
  · simp
  · simp
  · simp
  · intro d
    simp
  · intro x hx
    exact absurd hx (Finset.not_mem_empty x)

/-- The master characterization of `discover`: the forward pass reaches a
state described by `LoopInv`, the returned maps are its maps, its checked
set is the include-closure of the sources, and the recompile set is exactly
the sources reverse-reachable from a modified file. -/
theorem discover_spec (fuel : Nat) (fs : FS) (ft : PyDict Nat)
    (fi : PyDict IncList) (sources : List Name) (r : DiscoverResult)
    (heq : discover fuel fs ft fi sources = some r) :
    ∃ stF : FwdSt,
      LoopInv fs ft fi stF ∅ ∧
      (∀ x, x ∈ stF.checked ↔ ∃ c ∈ sources.toFinset, ReachIncl fs ft fi c x) ∧
      r.newft = stF.newft ∧ r.newfi = stF.newfi ∧ r.success = stF.success ∧
      r.diags = stF.diags ∧
      (∀ x, x ∈ r.recompile ↔ x ∈ sources.toFinset ∧
        ∃ m ∈ stF.modified, RevReach (includedFrom stF.newfi) m x) := by
  unfold discover at heq
  simp only [] at heq
  cases hfwd : fwdLoop fs ft fi fuel ⟨∅, [], [], ft.keys.toFinset, ∅, true, []⟩
      sources.toFinset with
  | none => rw [hfwd] at heq; exact absurd heq (by simp)
  | some stF =>
    rw [hfwd] at heq
    simp only at heq
    cases hbwd : bwdLoop (includedFrom stF.newfi) sources.toFinset
        ((stF.modified ∪ stF.newfi.keys.toFinset).card + 1) stF.modified ∅ ∅ with
    | none => rw [hbwd] at heq; exact absurd heq (by simp)
    | some rec =>
      rw [hbwd] at heq
      have hr := Option.some.inj heq
      subst hr
      have hInv0 := initLoopInv fs ft fi sources.toFinset
      have hspec := fwdLoop_spec fs ft fi fuel _ _ stF hInv0 hfwd
      have hiff := fwdLoop_checked_iff fs ft fi hInv0 hfwd
      refine ⟨stF, hspec.1, ?_, rfl, rfl, rfl, rfl, ?_⟩
      · intro x
        rw [hiff x]
        simp
      · intro x
        have hbs := bwdLoop_spec (includedFrom stF.newfi) sources.toFinset
          stF.modified _ stF.modified ∅ ∅ rec
          (fun y _ => Finset.not_mem_empty y)
          (fun p hp => absurd hp (Finset.not_mem_empty p))
          (by simp)
          (fun y hy => ⟨y, by simpa using hy, Relation.ReflTransGen.refl⟩)
          (by simp) hbwd
        exact hbs x

/-- A step of the claim-level include relation on the returned map. -/
def nfiStep (nfi : PyDict IncList) (a b : Name) : Prop :=
  b ∈ includeNames ((nfi.lookup a).getD [])

theorem revReach_to_chain (nfi : PyDict IncList) {m s : Name}
    (h : RevReach (includedFrom nfi) m s) :
    Relation.ReflTransGen (nfiStep nfi) s m := by
  induction h with
  | refl => exact Relation.ReflTransGen.refl
  | tail h' hstep ih =>
    rename_i b c
    have hmem := Finset.mem_filter.mp hstep
    exact Relation.ReflTransGen.head hmem.2 ih

theorem chain_to_revReach (fs : FS) (ft : PyDict Nat) (fi : PyDict IncList)
    {stF : FwdSt} (hA : LoopInv fs ft fi stF ∅) :
    ∀ {s m : Name}, Relation.ReflTransGen (nfiStep stF.newfi) s m →
      s ∈ stF.checked →
      RevReach (includedFrom stF.newfi) m s ∧ m ∈ stF.checked := by
  intro s m hchain
  induction hchain using Relation.ReflTransGen.head_induction_on with
  | refl => intro hs; exact ⟨Relation.ReflTransGen.refl, hs⟩
  | head hstep hrest ih =>
    rename_i a b
    intro ha
    unfold nfiStep at hstep
    cases hlk : stF.newfi.lookup a with
    | none =>
      rw [hlk] at hstep
      exact absurd hstep (by simp [includeNames])
    | some incs =>
      have hcond := hA.nfi a
      rw [hlk] at hcond
      have hcond2 : a ∈ stF.checked ∧ okFile fs ft fi a = true := by
        by_cases hc : a ∈ stF.checked ∧ okFile fs ft fi a = true
        · exact hc
        · rw [if_neg hc] at hcond; exact absurd hcond (by simp)
      have hincs : incs = usedIncs fs ft fi a := by
        rw [if_pos hcond2] at hcond
        exact Option.some.inj hcond
      rw [hlk] at hstep
      simp only [Option.getD_some] at hstep
      rw [hincs] at hstep
      have hb : b ∈ stF.checked := by
        have := hA.closure a hcond2.1 hcond2.2 hstep
        simpa using this
      obtain ⟨hrev, hm⟩ := ih hb
      refine ⟨Relation.ReflTransGen.tail hrev ?_, hm⟩
      refine Finset.mem_filter.mpr ⟨?_, ?_⟩
      · rw [List.mem_toFinset]
        exact PyDict.mem_keys_of_lookup_isSome (by rw [hlk]; rfl)
      · rw [hlk]
        simp only [Option.getD_some]
        rw [hincs]
        exact hstep

def c1fs : FS where
  files := {"src/A.c".data, "include/H1.h".data, "include/H2.h".data, "src/B.c".data}
  mtime := fun p => if p = "include/H2.h".data then 11 else 10
  rawIncs := fun p =>
    if p = "src/A.c".data then [("H1.h".data, 1)]
    else if p = "include/H1.h".data then [("H2.h".data, 1)]
    else []
  lineAt := fun _ _ => some "x".data

def c1ft : PyDict Nat :=
  [("A.c".data, 10), ("H1.h".data, 10), ("H2.h".data, 10), ("B.c".data, 10)]

def c1fi : PyDict IncList :=
  [("A.c".data, [("H1.h".data, 1)]), ("H1.h".data, [("H2.h".data, 1)]),
   ("H2.h".data, []), ("B.c".data, [])]

def c1sources : List Name := ["A.c".data, "B.c".data]

def c1r : DiscoverResult :=
  (discover 10 c1fs c1ft c1fi c1sources).getD ⟨[], [], ∅, false, []⟩

/-- Claim C1: whenever `discover` returns, a top-level source is in the
recompile set exactly when some file with an advanced (or unknown) mtime is
reachable from it along the include chains recorded in the returned include
map — so a change to a leaf header recompiles every source that
transitively includes it, and sources neither modified nor transitively
dependent on a modification are not recompiled. -/
theorem claim_C1_recompile (fuel : Nat) (fs : FS) (ft : PyDict Nat)
    (fi : PyDict IncList) (sources : List Name) (r : DiscoverResult)
    (heq : discover fuel fs ft fi sources = some r) :
    ∀ s, s ∈ r.recompile ↔ s ∈ sources.toFinset ∧
      ∃ m, Relation.ReflTransGen (nfiStep r.newfi) s m ∧
        ModifiedB fs ft m = true := by
  obtain ⟨stF, hInv, hchk, hft, hfi, hsucc, hdia, hrec⟩ :=
    discover_spec fuel fs ft fi sources r heq
  intro s
  rw [hrec s]
  constructor
  · rintro ⟨hs, m, hm, hrev⟩
    rw [hInv.mod_eq] at hm
    have hmf := Finset.mem_filter.mp hm
    refine ⟨hs, m, ?_, hmf.2⟩
    rw [hfi]
    exact revReach_to_chain stF.newfi hrev
  · rintro ⟨hs, m, hchain, hmodb⟩
    refine ⟨hs, ?_⟩
    have hsC : s ∈ stF.checked :=
      (hchk s).mpr ⟨s, hs, Relation.ReflTransGen.refl⟩
    rw [hfi] at hchain
    obtain ⟨hrev, hmC⟩ := chain_to_revReach fs ft fi hInv hchain hsC
    refine ⟨m, ?_, hrev⟩
    rw [hInv.mod_eq]
    exact Finset.mem_filter.mpr ⟨hmC, hmodb⟩

/-- Witness for claim C1 on the three-level scenario `A.c → H1.h → H2.h`
with only `H2.h` modified: `A.c` is recompiled, `B.c` is not. -/
theorem claim_C1_recompile_witness :
    "A.c".data ∈ c1r.recompile ∧ "B.c".data ∉ c1r.recompile := by
  have h := claim_C1_recompile 10 c1fs c1ft c1fi c1sources c1r (by decide)
  have s1 : nfiStep c1r.newfi "A.c".data "H1.h".data := by
    unfold nfiStep; decide
  have s2 : nfiStep c1r.newfi "H1.h".data "H2.h".data := by
    unfold nfiStep; decide
  constructor
  · exact (h "A.c".data).mpr ⟨by decide, "H2.h".data,
      Relation.ReflTransGen.head s1
        (Relation.ReflTransGen.head s2 Relation.ReflTransGen.refl),
      by decide⟩
  · decide

/-! ## Key-set lemmas for `PyDict.assign`, and nodup of discover's outputs -/

theorem keys_assign {α : Type} (d : PyDict α) (k : Name) (v : α) :
    PyDict.keys (PyDict.assign d k v) =
      if k ∈ PyDict.keys d then PyDict.keys d else PyDict.keys d ++ [k] := by
  induction d with
  | nil => simp [PyDict.assign, PyDict.keys]
  | cons p rest ih =>
    obtain ⟨pk, pv⟩ := p
    by_cases hpk : pk = k
    · have hstep : PyDict.assign ((pk, pv) :: rest) k v = (k, v) :: rest := by
        show (if pk = k then (k, v) :: rest
              else (pk, pv) :: PyDict.assign rest k v) = _
        rw [if_pos hpk]
      rw [hstep]
      have h1 : PyDict.keys ((k, v) :: rest) = k :: PyDict.keys rest := rfl
      have h2 : PyDict.keys ((pk, pv) :: rest) = pk :: PyDict.keys rest := rfl
      rw [h1, h2, if_pos (List.mem_cons.mpr (Or.inl hpk.symm))]
      rw [hpk]
    · have hstep : PyDict.assign ((pk, pv) :: rest) k v
          = (pk, pv) :: PyDict.assign rest k v := by
        show (if pk = k then (k, v) :: rest
              else (pk, pv) :: PyDict.assign rest k v) = _
        rw [if_neg hpk]
      rw [hstep]
      have hkeys : PyDict.keys ((pk, pv) :: PyDict.assign rest k v)
          = pk :: PyDict.keys (PyDict.assign rest k v) := rfl
      have hkeys2 : PyDict.keys ((pk, pv) :: rest) = pk :: PyDict.keys rest := rfl
      rw [hkeys, ih, hkeys2]
      have hmem : k ∈ pk :: PyDict.keys rest ↔ k ∈ PyDict.keys rest := by
        simp only [List.mem_cons]
        constructor
        · rintro (rfl | h)
          · exact absurd rfl hpk
          · exact h
        · exact Or.inr
      by_cases hk : k ∈ PyDict.keys rest
      · rw [if_pos hk, if_pos (hmem.mpr hk)]
      · rw [if_neg hk, if_neg (fun hc => hk (hmem.mp hc))]
        rfl

theorem keys_assign_nodup {α : Type} {d : PyDict α}
    (hd : (PyDict.keys d).Nodup) (k : Name) (v : α) :
    (PyDict.keys (PyDict.assign d k v)).Nodup := by
  rw [keys_assign]
  by_cases hk : k ∈ PyDict.keys d
  · rwa [if_pos hk]
  · rw [if_neg hk]
    simp only [List.nodup_append, List.nodup_cons, List.not_mem_nil,
      not_false_iff, List.nodup_nil, and_true, true_and]
    constructor
    · exact hd
    · intro a ha hb
      rcases List.mem_singleton.mp hb with rfl
      exact hk ha

theorem fwdFile_nodup (fs : FS) (ft : PyDict Nat) (fi : PyDict IncList)
    (checked' : Finset Name) (acc : FwdSt × Finset Name) (fn : Name)
    (r : FwdSt × Finset Name)
    (hnd : acc.1.newft.keys.Nodup ∧ acc.1.newfi.keys.Nodup)
    (heq : fwdFile fs ft fi checked' acc fn = some r) :
    r.1.newft.keys.Nodup ∧ r.1.newfi.keys.Nodup := by
  unfold fwdFile at heq
  cases hres : fs.resolve fn with
  | none => rw [hres] at heq; exact absurd heq (by simp)
  | some e =>
    cases e with
    | notFound => rw [hres] at heq; exact absurd heq (by simp)
    | ambiguous => rw [hres] at heq; exact absurd heq (by simp)
    | resolved p =>
      rw [hres] at heq
      simp only at heq
      cases hchk : checkIncludes fs p
          (if (decide (fn ∉ acc.1.known) ||
                decide (fs.mtime p > (ft.lookup fn).getD 0)) = true
           then getIncludes fs fn p else (fi.lookup fn).getD []) with
      | none => rw [hchk] at heq; exact absurd heq (by simp)
      | some pr =>
        rw [hchk] at heq
        obtain ⟨ok, ds⟩ := pr
        simp only at heq
        by_cases hok : ok = true
        · rw [if_pos hok] at heq
          have hr := Option.some.inj heq
          rw [← hr]
          exact ⟨keys_assign_nodup hnd.1 fn _, keys_assign_nodup hnd.2 fn _⟩
        · rw [if_neg hok] at heq
          have hr := Option.some.inj heq
          rw [← hr]
          exact hnd

theorem foldlM_fwdFile_nodup (fs : FS) (ft : PyDict Nat) (fi : PyDict IncList)
    (checked' : Finset Name) :
    ∀ (l : List Name) (acc : FwdSt × Finset Name),
      acc.1.newft.keys.Nodup → acc.1.newfi.keys.Nodup →
      ∀ r, l.foldlM (fwdFile fs ft fi checked') acc = some r →
        r.1.newft.keys.Nodup ∧ r.1.newfi.keys.Nodup := by
  intro l
  induction l with
  | nil =>
    intro acc h1 h2 r heq
    simp only [List.foldlM_nil] at heq
    have := Option.some.inj heq
    rw [← this]
    exact ⟨h1, h2⟩
  | cons a t ih =>
    intro acc h1 h2 r heq
    simp only [List.foldlM_cons] at heq
    cases hstep : fwdFile fs ft fi checked' acc a with
    | none => rw [hstep] at heq; simp at heq
    | some acc' =>
      rw [hstep] at heq
      have hnd' := fwdFile_nodup fs ft fi checked' acc a acc' ⟨h1, h2⟩ hstep
      exact ih acc' hnd'.1 hnd'.2 r heq

theorem fwdLoop_nodup (fs : FS) (ft : PyDict Nat) (fi : PyDict IncList) :
    ∀ (fuel : Nat) (st : FwdSt) (cur : Finset Name),
      st.newft.keys.Nodup → st.newfi.keys.Nodup →
      ∀ stF, fwdLoop fs ft fi fuel st cur = some stF →
        stF.newft.keys.Nodup ∧ stF.newfi.keys.Nodup := by
  intro fuel
  induction fuel with
  | zero => intro st cur _ _ stF heq; exact absurd heq (by simp [fwdLoop])
  | succ f ih =>
    intro st cur h1 h2 stF heq
    unfold fwdLoop at heq
    by_cases hcur : cur = ∅
    · rw [if_pos hcur] at heq
      have := Option.some.inj heq
      rw [← this]
      exact ⟨h1, h2⟩
    · rw [if_neg hcur] at heq
      cases hlvl : fwdLevel fs ft fi st cur with
      | none => rw [hlvl] at heq; simp at heq
      | some pr =>
        rw [hlvl] at heq
        have hnd' := foldlM_fwdFile_nodup fs ft fi (st.checked ∪ cur)
          (sortFinset cur) ({ st with checked := st.checked ∪ cur }, ∅)
          h1 h2 pr hlvl
        exact ih pr.1 pr.2 hnd'.1 hnd'.2 stF heq

theorem discover_nodup (fuel : Nat) (fs : FS) (ft : PyDict Nat)
    (fi : PyDict IncList) (sources : List Name) (r : DiscoverResult)
    (heq : discover fuel fs ft fi sources = some r) :
    r.newft.keys.Nodup ∧ r.newfi.keys.Nodup := by
  unfold discover at heq
  simp only [] at heq
  cases hfwd : fwdLoop fs ft fi fuel ⟨∅, [], [], ft.keys.toFinset, ∅, true, []⟩
      sources.toFinset with
  | none => rw [hfwd] at heq; exact absurd heq (by simp)
  | some stF =>
    rw [hfwd] at heq
    simp only at heq
    have hnd := fwdLoop_nodup fs ft fi fuel
      ⟨∅, [], [], ft.keys.toFinset, ∅, true, []⟩ sources.toFinset
      List.nodup_nil List.nodup_nil stF hfwd
    cases hbwd : bwdLoop (includedFrom stF.newfi) sources.toFinset
        ((stF.modified ∪ stF.newfi.keys.toFinset).card + 1) stF.modified ∅ ∅ with
    | none => rw [hbwd] at heq; exact absurd heq (by simp)
    | some rec =>
      rw [hbwd] at heq
      have := Option.some.inj heq
      rw [← this]
      exact hnd

/-! ## A clean check leaves no diagnostics -/

theorem checkIncludes_true_eq (fs : FS) (efn : Name) :
    ∀ (incs : IncList) (st r : Bool × List Diag),
      incs.foldlM (checkStep fs efn) st = some r → r.1 = true → r = st := by
  intro incs
  induction incs with
  | nil =>
    intro st r h _
    exact (Option.some.inj h).symm
  | cons a l ih =>
    intro st r h htrue
    obtain ⟨f, ln⟩ := a
    simp only [List.foldlM_cons] at h
    cases hstep : checkStep fs efn st (f, ln) with
    | none => rw [hstep] at h; simp at h
    | some st1 =>
      rw [hstep] at h
      unfold checkStep at hstep
      cases hres : fs.resolve f with
      | none => rw [hres] at hstep; exact absurd hstep (by simp)
      | some e =>
        simp only [hres] at hstep
        cases herr : get_err_msg e with
        | none =>
          simp only [herr] at hstep
          have hst : st1 = st := (Option.some.inj hstep).symm
          subst hst
          exact ih st1 r h htrue
        | some msg =>
          simp only [herr] at hstep
          cases hd : mkDiag fs efn ln msg with
          | none =>
            simp only [hd] at hstep
            exact absurd hstep (by simp)
          | some d =>
            simp only [hd] at hstep
            have hst : st1 = (false, st.2 ++ [d]) := (Option.some.inj hstep).symm
            subst hst
            have hfalse := checkIncludes_false_mono fs efn l _ r h rfl
            rw [htrue] at hfalse
            exact absurd hfalse (by simp)

theorem okFile_diags_nil (fs : FS) (ft : PyDict Nat) (fi : PyDict IncList)
    (fn : Name) (hok : okFile fs ft fi fn = true) :
    fileDiags fs ft fi fn = [] := by
  have hok' := hok
  unfold okFile at hok'
  cases hcr : checkResult fs ft fi fn with
  | none => rw [hcr] at hok'; simp at hok'
  | some pr =>
    rw [hcr] at hok'
    simp at hok'
    have hcr0 := hcr
    unfold checkResult at hcr
    cases hrp : resolvedPath fs fn with
    | none => rw [hrp] at hcr; simp at hcr
    | some p =>
      rw [hrp] at hcr
      have hpr := checkIncludes_true_eq fs p (usedIncs fs ft fi fn)
        (true, []) pr hcr hok'
      unfold fileDiags
      rw [hcr0, hpr]
      rfl

/-! ## Sorting the empty set, and the fully-successful compile loop -/

theorem sortFinset_empty : sortFinset (∅ : Finset Name) = [] := by
  cases hs : sortFinset (∅ : Finset Name) with
  | nil => rfl
  | cons a t =>
    have hmem := (mem_sortFinset a ∅).mp (by rw [hs]; exact List.mem_cons_self a t)
    exact absurd hmem (Finset.not_mem_empty a)

theorem compileLoop_true (compileOk : Name → Bool) :
    ∀ l : List Name, (compileLoop compileOk l).2.2 = true →
      (compileLoop compileOk l).2.1 = l.toFinset ∧
        (compileLoop compileOk l).1 = l := by
  intro l
  induction l with
  | nil => intro _; exact ⟨rfl, rfl⟩
  | cons a t ih =>
    intro h
    unfold compileLoop at h ⊢
    by_cases hok : compileOk a = true
    · rw [if_pos hok] at h ⊢
      simp only at h ⊢
      obtain ⟨h1, h2⟩ := ih h
      rw [h1, h2]
      exact ⟨by simp [List.toFinset_cons], rfl⟩
    · rw [if_neg hok] at h
      simp at h

/-! ## Serialization-safe names, and safety of discover's outputs -/

/-- A name the dependency-store serialization round-trips: nonempty, no
whitespace, no `@`. -/
def SafeName (x : Name) : Prop :=
  x ≠ [] ∧ ∀ c ∈ x, isPySpace c = false ∧ ¬ c = '@'

theorem mem_pyDirname {c : Char} {s : Name} (h : c ∈ pyDirname s) : c ∈ s := by
  unfold pyDirname at h
  cases hf : pyRFindAux '/' s 0 with
  | none => rw [hf] at h; exact absurd h (List.not_mem_nil c)
  | some i =>
    rw [hf] at h
    simp only at h
    have hsub : ∀ x ∈ s.take (i + 1), x ∈ s :=
      fun x hx => (List.take_sublist (i + 1) s).subset hx
    split at h
    · rw [List.mem_reverse] at h
      exact hsub c (List.mem_reverse.mp ((List.dropWhile_sublist _).subset h))
    · exact hsub c h

theorem safeName_getIncludes (fs : FS) (fn p : Name)
    (hR : ∀ q ∈ fs.rawIncs p, SafeName q.1)
    (hfn : SafeName fn) :
    ∀ q ∈ getIncludes fs fn p, SafeName q.1 := by
  intro q hq
  unfold getIncludes at hq
  obtain ⟨q0, hq0, hmap⟩ := List.mem_map.mp hq
  have hsafe0 := hR q0 hq0
  by_cases hdot : q0.1.head? = some '.'
  · rw [← hmap]
    simp only [hdot, if_pos]
    constructor
    · simp
    · intro ch hch
      rcases List.mem_append.mp hch with hch | hch
      · have hmemfn := mem_pyDirname hch
        exact hfn.2 ch hmemfn
      · rcases List.mem_cons.mp hch with rfl | hch
        · exact ⟨by decide, by decide⟩
        · exact hsafe0.2 ch hch
  · rw [← hmap]
    simp only [hdot, if_neg]
    exact hsafe0

theorem safeName_usedIncs (fs : FS) (ft : PyDict Nat) (fi : PyDict IncList)
    (hR : ∀ p q, q ∈ fs.rawIncs p → SafeName q.1)
    (hfi : ∀ fn, ∀ q ∈ (fi.lookup fn).getD [], SafeName q.1)
    (fn : Name) (hfn : SafeName fn) :
    ∀ q ∈ usedIncs fs ft fi fn, SafeName q.1 := by
  intro q hq
  unfold usedIncs at hq
  cases hrp : resolvedPath fs fn with
  | none => rw [hrp] at hq; exact absurd hq (List.not_mem_nil q)
  | some p =>
    rw [hrp] at hq
    simp only at hq
    by_cases hmod : ModifiedB fs ft fn = true
    · rw [if_pos hmod] at hq
      exact safeName_getIncludes fs fn p (fun q' hq' => hR p q' hq') hfn q hq
    · rw [if_neg hmod] at hq
      exact hfi fn q hq

theorem safeName_reach (fs : FS) (ft : PyDict Nat) (fi : PyDict IncList)
    (hR : ∀ p q, q ∈ fs.rawIncs p → SafeName q.1)
    (hfi : ∀ fn, ∀ q ∈ (fi.lookup fn).getD [], SafeName q.1)
    {c x : Name} (hc : SafeName c) (h : ReachIncl fs ft fi c x) :
    SafeName x := by
  induction h with
  | refl => exact hc
  | tail hr hstep ih =>
    obtain ⟨hok, hmem⟩ := hstep
    unfold includeNames at hmem
    rw [List.mem_toFinset] at hmem
    obtain ⟨q, hq, hq1⟩ := List.mem_map.mp hmem
    rw [← hq1]
    exact safeName_usedIncs fs ft fi hR hfi _ ih q hq

theorem discover_store_safe (fuel : Nat) (fs : FS) (ft : PyDict Nat)
    (fi : PyDict IncList) (sources : List Name) (r : DiscoverResult)
    (heq : discover fuel fs ft fi sources = some r)
    (hsrc : ∀ s ∈ sources, SafeName s)
    (hR : ∀ p q, q ∈ fs.rawIncs p → SafeName q.1)
    (hfi : ∀ fn, ∀ q ∈ (fi.lookup fn).getD [], SafeName q.1) :
    (∀ fn ∈ PyDict.keys r.newft, SafeName fn) ∧
    (∀ fn, ∀ q ∈ (r.newfi.lookup fn).getD [], SafeName q.1) ∧
    (∀ k, (r.newft.lookup k).isSome ↔ (r.newfi.lookup k).isSome) := by
  obtain ⟨stF, hA, hchk, hftE, hfiE, hsucE, hdiaE, hrecE⟩ :=
    discover_spec fuel fs ft fi sources r heq
  have hchkSafe : ∀ x ∈ stF.checked, SafeName x := by
    intro x hx
    obtain ⟨c, hc, hrch⟩ := (hchk x).mp hx
    exact safeName_reach fs ft fi hR hfi (hsrc c (List.mem_toFinset.mp hc)) hrch
  refine ⟨?_, ?_, ?_⟩
  · intro fn hfn
    have hsome := lookup_isSome_of_mem_keys hfn
    rw [hftE, hA.nft fn] at hsome
    by_cases hcnd : fn ∈ stF.checked ∧ okFile fs ft fi fn = true
    · exact hchkSafe fn hcnd.1
    · rw [if_neg hcnd] at hsome
      exact absurd hsome (by simp)
  · intro fn q hq
    cases hlk : PyDict.lookup r.newfi fn with
    | none => rw [hlk] at hq; exact absurd hq (List.not_mem_nil q)
    | some incs =>
      rw [hlk] at hq
      simp only [Option.getD_some] at hq
      have hcnd := hA.nfi fn
      rw [← hfiE, hlk] at hcnd
      by_cases hc : fn ∈ stF.checked ∧ okFile fs ft fi fn = true
      · rw [if_pos hc] at hcnd
        have hincs : incs = usedIncs fs ft fi fn := Option.some.inj hcnd
        rw [hincs] at hq
        exact safeName_usedIncs fs ft fi hR hfi fn (hchkSafe fn hc.1) q hq
      · rw [if_neg hc] at hcnd
        exact absurd hcnd (by simp)
  · intro k
    rw [hftE, hfiE, hA.nft k, hA.nfi k]
    by_cases hc : k ∈ stF.checked ∧ okFile fs ft fi k = true
    · rw [if_pos hc, if_pos hc]
      simp
    · rw [if_neg hc, if_neg hc]
      simp

/-! ## Idempotence of discovery on an unchanged filesystem -/

theorem discover_idem (fuel₁ fuel₂ : Nat) (fs : FS) (ft ft₂ : PyDict Nat)
    (fi fi₂ : PyDict IncList) (sources : List Name) (r₁ r₂ : DiscoverResult)
    (h₁ : discover fuel₁ fs ft fi sources = some r₁)
    (hs : r₁.success = true)
    (hft₂ : ∀ k, ft₂.lookup k = r₁.newft.lookup k)
    (hfi₂ : ∀ k, fi₂.lookup k = r₁.newfi.lookup k)
    (h₂ : discover fuel₂ fs ft₂ fi₂ sources = some r₂) :
    r₂.recompile = ∅ ∧ r₂.success = true ∧ r₂.diags = [] ∧
    (∀ k, r₂.newft.lookup k = ft₂.lookup k) ∧
    (∀ k, r₂.newfi.lookup k = fi₂.lookup k) := by
  obtain ⟨st1, hA1, hchk1, hftE1, hfiE1, hsuc1, hdia1, hrec1⟩ :=
    discover_spec fuel₁ fs ft fi sources r₁ h₁
  obtain ⟨st2, hA2, hchk2, hftE2, hfiE2, hsuc2, hdia2, hrec2⟩ :=
    discover_spec fuel₂ fs ft₂ fi₂ sources r₂ h₂
  have hok1 : ∀ x ∈ st1.checked, okFile fs ft fi x = true := by
    rw [hsuc1] at hs
    exact hA1.succ_iff.mp hs
  have hlk2t : ∀ x ∈ st1.checked,
      ft₂.lookup x = some (fs.mtime ((resolvedPath fs x).getD [])) := by
    intro x hx
    rw [hft₂ x, hftE1, hA1.nft x, if_pos ⟨hx, hok1 x hx⟩]
  have hlk2i : ∀ x ∈ st1.checked,
      fi₂.lookup x = some (usedIncs fs ft fi x) := by
    intro x hx
    rw [hfi₂ x, hfiE1, hA1.nfi x, if_pos ⟨hx, hok1 x hx⟩]
  have hmod2 : ∀ x ∈ st1.checked, ModifiedB fs ft₂ x = false := by
    intro x hx
    unfold ModifiedB
    cases hrp : resolvedPath fs x with
    | none => rfl
    | some p =>
      have hlk := hlk2t x hx
      rw [hrp] at hlk
      simp only [Option.getD_some] at hlk
      have hmem : x ∈ PyDict.keys ft₂ :=
        PyDict.mem_keys_of_lookup_isSome (by rw [hlk]; rfl)
      simp only [hlk]
      rw [decide_eq_false (by simpa using List.mem_toFinset.mpr hmem)]
      simp
  have huse2 : ∀ x ∈ st1.checked,
      usedIncs fs ft₂ fi₂ x = usedIncs fs ft fi x := by
    intro x hx
    conv_lhs => unfold usedIncs
    cases hrp : resolvedPath fs x with
    | none =>
      unfold usedIncs
      rw [hrp]
    | some p =>
      rw [hmod2 x hx]
      simp only [Bool.false_eq_true, if_false]
      rw [hlk2i x hx]
      rfl
  have hcr2 : ∀ x ∈ st1.checked,
      checkResult fs ft₂ fi₂ x = checkResult fs ft fi x := by
    intro x hx
    unfold checkResult
    rw [huse2 x hx]
  have hok2 : ∀ x ∈ st1.checked, okFile fs ft₂ fi₂ x = true := by
    intro x hx
    unfold okFile
    rw [hcr2 x hx]
    exact hok1 x hx
  have hsrcC : ∀ c ∈ sources.toFinset, c ∈ st1.checked :=
    fun c hc => (hchk1 c).mpr ⟨c, hc, Relation.ReflTransGen.refl⟩
  have hreach12 : ∀ c ∈ sources.toFinset, ∀ x, ReachIncl fs ft fi c x →
      ReachIncl fs ft₂ fi₂ c x ∧ x ∈ st1.checked := by
    intro c hc x h
    induction h with
    | refl => exact ⟨Relation.ReflTransGen.refl, hsrcC c hc⟩
    | tail hr hstep ih =>
      rename_i b x'
      obtain ⟨ihr, ihC⟩ := ih
      have hxC : x' ∈ st1.checked := by
        have := hA1.closure b ihC (hok1 b ihC) hstep.2
        simpa using this
      refine ⟨ihr.tail ⟨hok2 b ihC, ?_⟩, hxC⟩
      rw [huse2 b ihC]
      exact hstep.2
  have hreach21 : ∀ c ∈ sources.toFinset, ∀ x, ReachIncl fs ft₂ fi₂ c x →
      x ∈ st1.checked := by
    intro c hc x h
    induction h with
    | refl => exact hsrcC c hc
    | tail hr hstep ih =>
      rename_i b x'
      have hmem := hstep.2
      rw [huse2 b ih] at hmem
      have := hA1.closure b ih (hok1 b ih) hmem
      simpa using this
  have hchkEq : ∀ x, x ∈ st2.checked ↔ x ∈ st1.checked := by
    intro x
    constructor
    · intro hx
      obtain ⟨c, hc, hr⟩ := (hchk2 x).mp hx
      exact hreach21 c hc x hr
    · intro hx
      obtain ⟨c, hc, hr⟩ := (hchk1 x).mp hx
      exact (hchk2 x).mpr ⟨c, hc, (hreach12 c hc x hr).1⟩
  have hmodEmpty : st2.modified = ∅ := by
    rw [hA2.mod_eq]
    apply Finset.eq_empty_iff_forall_not_mem.mpr
    intro x hx
    have hf := Finset.mem_filter.mp hx
    have := hmod2 x ((hchkEq x).mp hf.1)
    rw [hf.2] at this
    exact absurd this (by simp)
  refine ⟨?_, ?_, ?_, ?_, ?_⟩
  · apply Finset.eq_empty_iff_forall_not_mem.mpr
    intro x hx
    obtain ⟨hxs, m, hm, hrev⟩ := (hrec2 x).mp hx
    rw [hmodEmpty] at hm
    exact absurd hm (Finset.not_mem_empty m)
  · rw [hsuc2]
    exact hA2.succ_iff.mpr (fun x hx => hok2 x ((hchkEq x).mp hx))
  · rw [hdia2]
    apply List.eq_nil_iff_forall_not_mem.mpr
    intro d hd
    obtain ⟨x, hx, hdx⟩ := (hA2.dia_iff d).mp hd
    have hxC := (hchkEq x).mp hx
    have hnil : fileDiags fs ft₂ fi₂ x = [] :=
      okFile_diags_nil fs ft₂ fi₂ x (hok2 x hxC)
    rw [hnil] at hdx
    exact absurd hdx (List.not_mem_nil d)
  · intro k
    rw [hftE2, hA2.nft k]
    by_cases hk : k ∈ st1.checked
    · rw [if_pos ⟨(hchkEq k).mpr hk, hok2 k hk⟩, hlk2t k hk]
    · rw [if_neg (fun hc => hk ((hchkEq k).mp hc.1))]
      rw [hft₂ k, hftE1, hA1.nft k, if_neg (fun hc => hk hc.1)]
  · intro k
    rw [hfiE2, hA2.nfi k]
    by_cases hk : k ∈ st1.checked
    · rw [if_pos ⟨(hchkEq k).mpr hk, hok2 k hk⟩, hlk2i k hk, huse2 k hk]
    · rw [if_neg (fun hc => hk ((hchkEq k).mp hc.1))]
      rw [hfi₂ k, hfiE1, hA1.nfi k, if_neg (fun hc => hk hc.1)]

/-- Claim C2: with no filesystem change between two runs, a second run after
a fully successful first run finds an empty recompile set, compiles and
links nothing, reports success, and skips write-back (the newly computed
maps equal the loaded ones), so the dependency-store file keeps the exact
bytes the first run left. -/
theorem claim_C2_idempotence (fuel₁ fuel₂ : Nat) (fs : FS) (content : Option Name)
    (ok1 ok2 : Name → Bool) (lk1 lk2 : Bool) (r₁ r₂ : RunResult)
    (hsrc : ∀ s ∈ collect_sources fs, SafeName s)
    (hraw : ∀ p q, q ∈ fs.rawIncs p → SafeName q.1)
    (hstore : ∀ ftL fiL, read_dep_file content = some (ftL, fiL) →
      ∀ fn, ∀ q ∈ (fiL.lookup fn).getD [], SafeName q.1)
    (h₁ : process_files fuel₁ fs content ok1 lk1 = some r₁)
    (hs₁ : r₁.success = true)
    (h₂ : process_files fuel₂ fs (r₁.written.or content) ok2 lk2 = some r₂) :
    r₂.recompile = ∅ ∧ r₂.written = none ∧ r₂.success = true ∧
    r₂.attempted = [] ∧ r₂.linked = false := by
  unfold process_files at h₁
  cases hread : read_dep_file content with
  | none => rw [hread] at h₁; exact absurd h₁ (by simp)
  | some pr =>
    obtain ⟨ftL, fiL⟩ := pr
    rw [hread] at h₁
    simp only [] at h₁
    cases hdisc : discover fuel₁ fs ftL fiL (collect_sources fs) with
    | none => rw [hdisc] at h₁; exact absurd h₁ (by simp)
    | some r =>
      rw [hdisc] at h₁
      simp only [] at h₁
      by_cases hrs : r.success = true
      case neg =>
        rw [if_neg hrs] at h₁
        have hr₁ := Option.some.inj h₁
        rw [← hr₁] at hs₁
        exact absurd hs₁ (by simp)
      case pos =>
        rw [if_pos hrs] at h₁
        have hr₁ := (Option.some.inj h₁).symm
        have hc22 : (compileLoop ok1 (sortFinset r.recompile)).2.2 = true := by
          by_contra hcf
          have hsfield := congrArg RunResult.success hr₁
          simp only [] at hsfield
          rw [hs₁] at hsfield
          by_cases hln : ((compileLoop ok1 (sortFinset r.recompile)).2.2 &&
              decide (r.recompile ≠ ∅)) = true
          · have := Bool.and_elim_left hln
            exact hcf this
          · rw [if_neg hln] at hsfield
            exact hcf hsfield.symm
        have hcomp := compileLoop_true ok1 (sortFinset r.recompile) hc22
        have hcompset : (compileLoop ok1 (sortFinset r.recompile)).2.1
            = r.recompile := by
          rw [hcomp.1, sortFinset_toFinset]
        have hnc : r.recompile \ (compileLoop ok1 (sortFinset r.recompile)).2.1
            = ∅ := by
          rw [hcompset, Finset.sdiff_self]
        have hwr : r₁.written = (if PyDict.eqb r.newft ftL && PyDict.eqb r.newfi fiL
            then none else some (write_dep_file r.newft r.newfi)) := by
          have := congrArg RunResult.written hr₁
          simp only [] at this
          rw [hnc, sortFinset_empty] at this
          simp only [List.foldl_nil] at this
          exact this
        have hroundtrip : ∃ ft₂ fi₂,
            read_dep_file (r₁.written.or content) = some (ft₂, fi₂) ∧
            (∀ k, ft₂.lookup k = r.newft.lookup k) ∧
            (∀ k, fi₂.lookup k = r.newfi.lookup k) := by
          by_cases heqb : (PyDict.eqb r.newft ftL && PyDict.eqb r.newfi fiL) = true
          · rw [heqb] at hwr
            simp only [if_true] at hwr
            rw [hwr]
            refine ⟨ftL, fiL, hread, ?_, ?_⟩
            · intro k
              exact (((PyDict.eqb_iff_eqv r.newft ftL).mp
                (Bool.and_elim_left heqb)) k).symm
            · intro k
              exact (((PyDict.eqb_iff_eqv r.newfi fiL).mp
                (Bool.and_elim_right heqb)) k).symm
          · rw [if_neg heqb] at hwr
            rw [hwr]
            have hnd := discover_nodup fuel₁ fs ftL fiL (collect_sources fs) r hdisc
            have hsafe := discover_store_safe fuel₁ fs ftL fiL (collect_sources fs)
              r hdisc hsrc hraw (hstore ftL fiL hread)
            have hval : ∀ fn ∈ PyDict.keys r.newft,
                fn ≠ [] ∧ (∀ c ∈ fn, isPySpace c = false) := by
              intro fn hfn
              exact ⟨(hsafe.1 fn hfn).1, fun c hc => ((hsafe.1 fn hfn).2 c hc).1⟩
            have hincval : ∀ fn ∈ PyDict.keys r.newft,
                ∀ p ∈ (r.newfi.lookup fn).getD [],
                ∀ c ∈ p.1, isPySpace c = false ∧ ¬ c = '@' := by
              intro fn _ p hp c hc
              exact (hsafe.2.1 fn p hp).2 c hc
            obtain ⟨ftR, fiR, hrd, hfteq, hfieq⟩ :=
              write_read_lookup r.newft r.newfi hnd.1 hsafe.2.2 hval hincval
            exact ⟨ftR, fiR, hrd, hfteq, hfieq⟩
        obtain ⟨ft₂, fi₂, hread₂, hft₂, hfi₂⟩ := hroundtrip
        unfold process_files at h₂
        rw [hread₂] at h₂
        simp only [] at h₂
        cases hdisc₂ : discover fuel₂ fs ft₂ fi₂ (collect_sources fs) with
        | none => rw [hdisc₂] at h₂; exact absurd h₂ (by simp)
        | some r' =>
          rw [hdisc₂] at h₂
          simp only [] at h₂
          obtain ⟨hrec', hsucc', hdiag', hftL', hfiL'⟩ :=
            discover_idem fuel₁ fuel₂ fs ftL ft₂ fiL fi₂ (collect_sources fs)
              r r' hdisc hrs hft₂ hfi₂ hdisc₂
          rw [if_pos hsucc'] at h₂
          have heqb1 : PyDict.eqb r'.newft ft₂ = true :=
            (PyDict.eqb_iff_eqv r'.newft ft₂).mpr hftL'
          have heqb2 : PyDict.eqb r'.newfi fi₂ = true :=
            (PyDict.eqb_iff_eqv r'.newfi fi₂).mpr hfiL'
          have hcl : compileLoop ok2 [] = ([], ∅, true) := rfl
          rw [hrec', sortFinset_empty, hcl] at h₂
          have hdec : (decide ((∅ : Finset Name) ≠ ∅)) = false := by simp
          rw [hdec] at h₂
          simp only [Finset.sdiff_self, sortFinset_empty, List.foldl_nil,
            Bool.and_false, Bool.true_and, Bool.false_eq_true, if_false,
            heqb1, heqb2, Bool.and_self, if_true] at h₂
          have hr₂ := (Option.some.inj h₂).symm
          refine ⟨?_, ?_, ?_, ?_, ?_⟩
          · have := congrArg RunResult.recompile hr₂
            simp only [] at this
            rw [this]
          · have := congrArg RunResult.written hr₂
            simp only [] at this
            rw [this]
          · have := congrArg RunResult.success hr₂
            simp only [] at this
            rw [this]
          · have := congrArg RunResult.attempted hr₂
            simp only [] at this
            rw [this]
          · have := congrArg RunResult.linked hr₂
            simp only [] at this
            rw [this]

/-- The one-source filesystem of claim C2's witness. -/
def c2fs : FS where
  files := {"src/M.c".data}
  mtime := fun _ => 7
  rawIncs := fun _ => []
  lineAt := fun _ _ => some "x".data

/-- Claim C2's witness: the first run, from an absent store. -/
def c2r1 : RunResult :=
  (process_files 10 c2fs none (fun _ => true) true).getD ⟨false, ∅, [], false, none⟩

/-- Claim C2's witness: the second run, on the store the first run wrote. -/
def c2r2 : RunResult :=
  (process_files 10 c2fs (c2r1.written.or none) (fun _ => true) true).getD
    ⟨false, ∅, [], false, none⟩

/-- Witness for claim C2 on a concrete project: a first run from an absent
store (which recompiles and writes the store), then an unchanged second run. -/
theorem claim_C2_idempotence_witness :
    c2r2.recompile = ∅ ∧ c2r2.written = none ∧ c2r2.success = true ∧
    c2r2.attempted = [] ∧ c2r2.linked = false := by
  refine claim_C2_idempotence 10 10 c2fs none (fun _ => true) (fun _ => true)
    true true c2r1 c2r2 ?_ ?_ ?_ (by decide) (by decide) (by decide)
  · intro s hs
    rw [show collect_sources c2fs = ["M.c".data] from by decide] at hs
    rcases List.mem_singleton.mp hs with rfl
    exact ⟨by decide, by decide⟩
  · intro p q hq
    exact absurd hq (List.not_mem_nil q)
  · intro ftL fiL hrd fn q hq
    have h0 : (([], []) : PyDict Nat × PyDict IncList) = (ftL, fiL) :=
      Option.some.inj hrd
    injection h0 with h1 h2
    rw [← h2] at hq
    exact absurd hq (List.not_mem_nil q)

/-! ## A failing check reports at least one diagnostic -/

theorem checkIncludes_snd_append (fs : FS) (efn : Name) :
    ∀ (incs : IncList) (st r : Bool × List Diag),
      incs.foldlM (checkStep fs efn) st = some r →
      ∃ suf, r.2 = st.2 ++ suf := by
  intro incs
  induction incs with
  | nil =>
    intro st r h
    have he : st = r := Option.some.inj h
    exact ⟨[], by rw [← he, List.append_nil]⟩
  | cons a l ih =>
    intro st r h
    obtain ⟨f, ln⟩ := a
    simp only [List.foldlM_cons] at h
    cases hstep : checkStep fs efn st (f, ln) with
    | none => rw [hstep] at h; simp at h
    | some st1 =>
      rw [hstep] at h
      obtain ⟨suf, hsuf⟩ := ih st1 r h
      unfold checkStep at hstep
      cases hres : fs.resolve f with
      | none => rw [hres] at hstep; exact absurd hstep (by simp)
      | some e =>
        simp only [hres] at hstep
        cases herr : get_err_msg e with
        | none =>
          simp only [herr] at hstep
          have hst : st1 = st := (Option.some.inj hstep).symm
          subst hst
          exact ⟨suf, hsuf⟩
        | some msg =>
          simp only [herr] at hstep
          cases hd : mkDiag fs efn ln msg with
          | none =>
            simp only [hd] at hstep
            exact absurd hstep (by simp)
          | some d =>
            simp only [hd] at hstep
            have hst : st1 = (false, st.2 ++ [d]) := (Option.some.inj hstep).symm
            subst hst
            exact ⟨[d] ++ suf, by rw [hsuf]; simp⟩

theorem checkIncludes_false_snd_ne (fs : FS) (efn : Name) :
    ∀ (incs : IncList) (st r : Bool × List Diag),
      incs.foldlM (checkStep fs efn) st = some r →
      st.1 = true → r.1 = false → r.2 ≠ st.2 := by
  intro incs
  induction incs with
  | nil =>
    intro st r h hst hr
    have he : st = r := Option.some.inj h
    rw [← he] at hr
    rw [hst] at hr
    exact absurd hr (by simp)
  | cons a l ih =>
    intro st r h hst hr
    obtain ⟨f, ln⟩ := a
    simp only [List.foldlM_cons] at h
    cases hstep : checkStep fs efn st (f, ln) with
    | none => rw [hstep] at h; simp at h
    | some st1 =>
      rw [hstep] at h
      unfold checkStep at hstep
      cases hres : fs.resolve f with
      | none => rw [hres] at hstep; exact absurd hstep (by simp)
      | some e =>
        simp only [hres] at hstep
        cases herr : get_err_msg e with
        | none =>
          simp only [herr] at hstep
          have hst1 : st1 = st := (Option.some.inj hstep).symm
          subst hst1
          exact ih st1 r h hst hr
        | some msg =>
          simp only [herr] at hstep
          cases hd : mkDiag fs efn ln msg with
          | none =>
            simp only [hd] at hstep
            exact absurd hstep (by simp)
          | some d =>
            simp only [hd] at hstep
            have hst1 : st1 = (false, st.2 ++ [d]) := (Option.some.inj hstep).symm
            subst hst1
            obtain ⟨suf, hsuf⟩ := checkIncludes_snd_append fs efn l _ r h
            intro hcontra
            rw [hcontra] at hsuf
            simp only [] at hsuf
            have hlen := congrArg List.length hsuf
            simp [List.length_append] at hlen
  
theorem okFile_false_diags_ne (fs : FS) (ft : PyDict Nat) (fi : PyDict IncList)
    (fn : Name) (hres : (checkResult fs ft fi fn).isSome)
    (hok : okFile fs ft fi fn = false) :
    fileDiags fs ft fi fn ≠ [] := by
  cases hcr : checkResult fs ft fi fn with
  | none => rw [hcr] at hres; simp at hres
  | some pr =>
    have hok' := hok
    unfold okFile at hok'
    rw [hcr] at hok'
    simp at hok'
    have hcr2 := hcr
    unfold checkResult at hcr2
    cases hrp : resolvedPath fs fn with
    | none => rw [hrp] at hcr2; simp at hcr2
    | some p =>
      rw [hrp] at hcr2
      have hne := checkIncludes_false_snd_ne fs p (usedIncs fs ft fi fn)
        (true, []) pr hcr2 rfl hok'
      unfold fileDiags
      rw [hcr]
      simpa using hne

/-- Claim C7: when discovery returns, its success flag is true exactly when
every file reachable from the sources has all its includes resolving; the
diagnostic list contains exactly the per-file `check_includes` diagnostics
of *all* reachable files (so every resolution error of the pass is
reported, not only the first); every reachable file whose includes all
resolve still has its include list recorded despite other files' failures,
and every reachable file with a failing include contributes at least one
diagnostic; and on a failed discovery `process_files` attempts no
compilation and no link and reports failure. -/
theorem claim_C7_resolution_errors (fuel : Nat) (fs : FS) (ft : PyDict Nat)
    (fi : PyDict IncList) (sources : List Name) (r : DiscoverResult)
    (heq : discover fuel fs ft fi sources = some r) :
    (r.success = true ↔ ∀ x, (∃ c ∈ sources.toFinset, ReachIncl fs ft fi c x) →
      okFile fs ft fi x = true) ∧
    (∀ d, d ∈ r.diags ↔ ∃ x, (∃ c ∈ sources.toFinset, ReachIncl fs ft fi c x) ∧
      d ∈ fileDiags fs ft fi x) ∧
    (∀ x, (∃ c ∈ sources.toFinset, ReachIncl fs ft fi c x) →
      okFile fs ft fi x = true →
      r.newfi.lookup x = some (usedIncs fs ft fi x)) ∧
    (∀ x, (∃ c ∈ sources.toFinset, ReachIncl fs ft fi c x) →
      okFile fs ft fi x = false → fileDiags fs ft fi x ≠ []) ∧
    (∀ content ok lk res, read_dep_file content = some (ft, fi) →
      collect_sources fs = sources →
      process_files fuel fs content ok lk = some res →
      r.success = false →
      res.success = false ∧ res.attempted = [] ∧ res.linked = false) := by
  obtain ⟨stF, hA, hchk, hftE, hfiE, hsucE, hdiaE, hrecE⟩ :=
    discover_spec fuel fs ft fi sources r heq
  refine ⟨?_, ?_, ?_, ?_, ?_⟩
  · rw [hsucE, hA.succ_iff]
    constructor
    · intro h x hx
      exact h x ((hchk x).mpr hx)
    · intro h x hx
      exact h x ((hchk x).mp hx)
  · intro d
    rw [hdiaE, hA.dia_iff d]
    constructor
    · rintro ⟨x, hx, hd⟩
      exact ⟨x, (hchk x).mp hx, hd⟩
    · rintro ⟨x, hx, hd⟩
      exact ⟨x, (hchk x).mpr hx, hd⟩
  · intro x hx hok
    rw [hfiE, hA.nfi x, if_pos ⟨(hchk x).mpr hx, hok⟩]
  · intro x hx hok
    have hxC := (hchk x).mpr hx
    exact okFile_false_diags_ne fs ft fi x (hA.res x hxC).2 hok
  · intro content ok lk res hrd hsrcs hpf hfail
    unfold process_files at hpf
    rw [hrd] at hpf
    simp only [] at hpf
    rw [hsrcs, heq] at hpf
    simp only [] at hpf
    rw [if_neg (by rw [hfail]; exact Bool.false_ne_true)] at hpf
    have hres := (Option.some.inj hpf).symm
    refine ⟨?_, ?_, ?_⟩
    · have := congrArg RunResult.success hres
      simpa using this
    · have := congrArg RunResult.attempted hres
      simpa using this
    · have := congrArg RunResult.linked hres
      simpa using this

/-- The filesystem of claim C7's witness: two sources with unresolvable
includes and one clean source. -/
def c7fs : FS where
  files := {"src/A.c".data, "src/B.c".data, "src/C.c".data}
  mtime := fun _ => 5
  rawIncs := fun p =>
    if p = "src/A.c".data then [("missing1.h".data, 1)]
    else if p = "src/B.c".data then [("missing2.h".data, 2)]
    else []
  lineAt := fun _ _ => some "#include \x22missing\x22".data

/-- Claim C7's witness discovery result. -/
def c7r : DiscoverResult :=
  (discover 10 c7fs [] [] ["A.c".data, "B.c".data, "C.c".data]).getD
    ⟨[], [], ∅, false, []⟩

/-- Claim C7's witness `process_files` result. -/
def c7res : RunResult :=
  (process_files 10 c7fs none (fun _ => true) true).getD ⟨false, ∅, [], false, none⟩

/-- Witness for claim C7: both unresolvable includes are reported (two
diagnostics), the clean file's include list is still recorded, discovery
fails, and the run compiles and links nothing. -/
theorem claim_C7_resolution_errors_witness :
    c7r.success = false ∧ c7r.diags.length = 2 ∧
    c7r.newfi.lookup "C.c".data = some [] ∧
    c7res.success = false ∧ c7res.attempted = [] ∧ c7res.linked = false := by
  have h := claim_C7_resolution_errors 10 c7fs [] []
    ["A.c".data, "B.c".data, "C.c".data] c7r (by decide)
  have hC := h.2.2.1 "C.c".data
    ⟨"C.c".data, by decide, Relation.ReflTransGen.refl⟩ (by decide)
  have hpf := h.2.2.2.2 none (fun _ => true) true c7res (by rfl) (by decide)
    (by decide) (by decide)
  refine ⟨by decide, by decide, ?_, hpf.1, hpf.2.1, hpf.2.2⟩
  rw [hC]
  decide

/-! ## Erasure of the not-compiled entries, and the stop-at-failure loop -/

theorem keys_erase_sublist {α : Type} (d : PyDict α) (k : Name) :
    (PyDict.keys (PyDict.erase d k)).Sublist (PyDict.keys d) := by
  induction d with
  | nil => exact List.Sublist.refl _
  | cons p rest ih =>
    obtain ⟨pk, pv⟩ := p
    by_cases hpk : pk = k
    · have hstep : PyDict.erase ((pk, pv) :: rest) k = rest := by
        show (if pk = k then rest else (pk, pv) :: PyDict.erase rest k) = _
        rw [if_pos hpk]
      rw [hstep]
      exact (List.Sublist.refl _).cons pk
    · have hstep : PyDict.erase ((pk, pv) :: rest) k
          = (pk, pv) :: PyDict.erase rest k := by
        show (if pk = k then rest else (pk, pv) :: PyDict.erase rest k) = _
        rw [if_neg hpk]
      rw [hstep]
      exact ih.cons₂ pk

theorem keys_erase_nodup {α : Type} {d : PyDict α}
    (hd : (PyDict.keys d).Nodup) (k : Name) :
    (PyDict.keys (PyDict.erase d k)).Nodup :=
  (keys_erase_sublist d k).nodup hd

theorem lookup_foldl_erase {α : Type} :
    ∀ (l : List Name) (d : PyDict α), (PyDict.keys d).Nodup → ∀ k,
      PyDict.lookup (l.foldl PyDict.erase d) k =
        if k ∈ l then none else PyDict.lookup d k := by
  intro l
  induction l with
  | nil =>
    intro d _ k
    simp [List.foldl_nil]
  | cons a t ih =>
    intro d hd k
    rw [List.foldl_cons]
    rw [ih (PyDict.erase d a) (keys_erase_nodup hd a) k]
    by_cases hkt : k ∈ t
    · rw [if_pos hkt, if_pos (List.mem_cons_of_mem a hkt)]
    · rw [if_neg hkt]
      rw [PyDict.lookup_erase_of_nodup d hd a k]
      by_cases hka : a = k
      · rw [if_pos hka, if_pos (List.mem_cons.mpr (Or.inl hka.symm))]
      · rw [if_neg hka,
          if_neg (fun hc => by
            rcases List.mem_cons.mp hc with h | h
            · exact hka h.symm
            · exact hkt h)]

theorem compileLoop_false (ok : Name → Bool) :
    ∀ l : List Name, (compileLoop ok l).2.2 = false →
      ∃ pre fn suf, l = pre ++ fn :: suf ∧ (∀ x ∈ pre, ok x = true) ∧
        ok fn = false ∧ (compileLoop ok l).1 = pre ++ [fn] ∧
        (compileLoop ok l).2.1 = pre.toFinset := by
  intro l
  induction l with
  | nil => intro h; exact absurd h (by simp [compileLoop])
  | cons a t ih =>
    intro h
    unfold compileLoop at h ⊢
    by_cases hok : ok a = true
    · rw [if_pos hok] at h ⊢
      simp only at h ⊢
      obtain ⟨pre, fn, suf, hsplit, hpre, hfn, hatt, hcomp⟩ := ih h
      refine ⟨a :: pre, fn, suf, by rw [hsplit]; rfl, ?_, hfn, ?_, ?_⟩
      · intro x hx
        rcases List.mem_cons.mp hx with rfl | hx
        · exact hok
        · exact hpre x hx
      · rw [hatt]
        rfl
      · rw [hcomp]
        simp [List.toFinset_cons]
    · rw [if_neg hok] at h ⊢
      exact ⟨[], a, t, rfl, by simp, Bool.eq_false_iff.mpr hok, rfl, rfl⟩

theorem keys_foldl_erase_nodup {α : Type} :
    ∀ (l : List Name) (d : PyDict α), (PyDict.keys d).Nodup →
      (PyDict.keys (l.foldl PyDict.erase d)).Nodup := by
  intro l
  induction l with
  | nil => intro d hd; simpa using hd
  | cons a t ih =>
    intro d hd
    rw [List.foldl_cons]
    exact ih (PyDict.erase d a) (keys_erase_nodup hd a)

/-- Claim C3 (amended): when discovery succeeds but one scheduled
compilation fails, the schedule splits as `pre ++ fn :: suf` at the first
failing file: only `pre` compiled, `fn` failed, `suf` was never attempted;
the run fails and linking is not attempted; and in the persisted store the
entries of *all* scheduled-but-not-successfully-compiled files — the failed
one and the skipped ones, not the failed file only — are removed, while
every other file's entry is kept. -/
theorem claim_C3_partial_failure (fuel : Nat) (fs : FS) (content : Option Name)
    (ok : Name → Bool) (lk : Bool) (ftL : PyDict Nat) (fiL : PyDict IncList)
    (r : DiscoverResult) (res : RunResult)
    (hsrc : ∀ s ∈ collect_sources fs, SafeName s)
    (hraw : ∀ p q, q ∈ fs.rawIncs p → SafeName q.1)
    (hstoreSafe : ∀ fn, ∀ q ∈ (fiL.lookup fn).getD [], SafeName q.1)
    (hrd : read_dep_file content = some (ftL, fiL))
    (hdisc : discover fuel fs ftL fiL (collect_sources fs) = some r)
    (hrs : r.success = true)
    (hfail : (compileLoop ok (sortFinset r.recompile)).2.2 = false)
    (hpf : process_files fuel fs content ok lk = some res) :
    res.success = false ∧ res.linked = false ∧
    ∃ pre fn suf, sortFinset r.recompile = pre ++ fn :: suf ∧
      (∀ x ∈ pre, ok x = true) ∧ ok fn = false ∧
      res.attempted = pre ++ [fn] ∧
      ∀ w, res.written = some w →
        ∃ ftW fiW, read_dep_file (some w) = some (ftW, fiW) ∧
          (∀ k, ftW.lookup k =
            if k ∈ r.recompile \ pre.toFinset then none
            else r.newft.lookup k) ∧
          (∀ k, fiW.lookup k =
            if k ∈ r.recompile \ pre.toFinset then none
            else r.newfi.lookup k) := by
  unfold process_files at hpf
  rw [hrd] at hpf
  simp only [] at hpf
  rw [hdisc] at hpf
  simp only [] at hpf
  rw [if_pos hrs] at hpf
  obtain ⟨pre, fn, suf, hsplit, hpre, hfn, hatt, hcomp⟩ :=
    compileLoop_false ok (sortFinset r.recompile) hfail
  have hlinkNow : ((compileLoop ok (sortFinset r.recompile)).2.2 &&
      decide (r.recompile ≠ ∅)) = false := by
    rw [hfail]
    rfl
  rw [hlinkNow] at hpf
  simp only [Bool.false_eq_true, if_false] at hpf
  have hres := (Option.some.inj hpf).symm
  have hnd := discover_nodup fuel fs ftL fiL (collect_sources fs) r hdisc
  have hsafe := discover_store_safe fuel fs ftL fiL (collect_sources fs)
    r hdisc hsrc hraw hstoreSafe
  have hnftlk : ∀ k,
      PyDict.lookup ((sortFinset (r.recompile \
          (compileLoop ok (sortFinset r.recompile)).2.1)).foldl
        PyDict.erase r.newft) k =
      if k ∈ r.recompile \ pre.toFinset then none
      else r.newft.lookup k := by
    intro k
    rw [lookup_foldl_erase _ r.newft hnd.1 k, hcomp]
    by_cases hk : k ∈ r.recompile \ pre.toFinset
    · rw [if_pos ((mem_sortFinset k _).mpr hk), if_pos hk]
    · rw [if_neg (fun hc => hk ((mem_sortFinset k _).mp hc)), if_neg hk]
  have hnfilk : ∀ k,
      PyDict.lookup ((sortFinset (r.recompile \
          (compileLoop ok (sortFinset r.recompile)).2.1)).foldl
        PyDict.erase r.newfi) k =
      if k ∈ r.recompile \ pre.toFinset then none
      else r.newfi.lookup k := by
    intro k
    rw [lookup_foldl_erase _ r.newfi hnd.2 k, hcomp]
    by_cases hk : k ∈ r.recompile \ pre.toFinset
    · rw [if_pos ((mem_sortFinset k _).mpr hk), if_pos hk]
    · rw [if_neg (fun hc => hk ((mem_sortFinset k _).mp hc)), if_neg hk]
  refine ⟨?_, ?_, pre, fn, suf, hsplit, hpre, hfn, ?_, ?_⟩
  · have := congrArg RunResult.success hres
    simp only [] at this
    rw [this, hfail]
  · have := congrArg RunResult.linked hres
    simpa using this
  · have := congrArg RunResult.attempted hres
    simp only [] at this
    rw [this, hatt]
  · intro w hw
    have hwr := congrArg RunResult.written hres
    simp only [] at hwr
    rw [hw] at hwr
    by_cases heqb : (PyDict.eqb ((sortFinset (r.recompile \
          (compileLoop ok (sortFinset r.recompile)).2.1)).foldl
            PyDict.erase r.newft)
        ftL && PyDict.eqb ((sortFinset (r.recompile \
          (compileLoop ok (sortFinset r.recompile)).2.1)).foldl
            PyDict.erase r.newfi) fiL) = true
    · rw [if_pos heqb] at hwr
      exact absurd hwr (by simp)
    · rw [if_neg heqb] at hwr
      have hwval := Option.some.inj hwr
      have hndW : (PyDict.keys ((sortFinset (r.recompile \
          (compileLoop ok (sortFinset r.recompile)).2.1)).foldl
            PyDict.erase r.newft)).Nodup :=
        keys_foldl_erase_nodup _ r.newft hnd.1
      have hdomW : ∀ k, (PyDict.lookup ((sortFinset (r.recompile \
            (compileLoop ok (sortFinset r.recompile)).2.1)).foldl
              PyDict.erase r.newft) k).isSome ↔
          (PyDict.lookup ((sortFinset (r.recompile \
            (compileLoop ok (sortFinset r.recompile)).2.1)).foldl
              PyDict.erase r.newfi) k).isSome := by
        intro k
        rw [hnftlk k, hnfilk k]
        by_cases hk : k ∈ r.recompile \ pre.toFinset
        · rw [if_pos hk, if_pos hk]
          exact Iff.rfl
        · rw [if_neg hk, if_neg hk]
          exact hsafe.2.2 k
      have hvalW : ∀ fn' ∈ PyDict.keys ((sortFinset (r.recompile \
            (compileLoop ok (sortFinset r.recompile)).2.1)).foldl
              PyDict.erase r.newft),
          fn' ≠ [] ∧ (∀ c ∈ fn', isPySpace c = false) := by
        intro fn' hfn'
        have hsome := lookup_isSome_of_mem_keys hfn'
        rw [hnftlk fn'] at hsome
        by_cases hk : fn' ∈ r.recompile \ pre.toFinset
        · rw [if_pos hk] at hsome
          exact absurd hsome (by simp)
        · rw [if_neg hk] at hsome
          have hmem := PyDict.mem_keys_of_lookup_isSome hsome
          exact ⟨(hsafe.1 fn' hmem).1, fun c hc => ((hsafe.1 fn' hmem).2 c hc).1⟩
      have hincW : ∀ fn' ∈ PyDict.keys ((sortFinset (r.recompile \
            (compileLoop ok (sortFinset r.recompile)).2.1)).foldl
              PyDict.erase r.newft),
          ∀ p ∈ (PyDict.lookup ((sortFinset (r.recompile \
            (compileLoop ok (sortFinset r.recompile)).2.1)).foldl
              PyDict.erase r.newfi) fn').getD [],
          ∀ c ∈ p.1, isPySpace c = false ∧ ¬ c = '@' := by
        intro fn' _ p hp c hc
        rw [hnfilk fn'] at hp
        by_cases hk : fn' ∈ r.recompile \ pre.toFinset
        · rw [if_pos hk] at hp
          exact absurd hp (List.not_mem_nil p)
        · rw [if_neg hk] at hp
          exact (hsafe.2.1 fn' p hp).2 c hc
      obtain ⟨ftR, fiR, hrdW, hftR, hfiR⟩ := write_read_lookup _ _ hndW hdomW
        hvalW hincW
      rw [← hwval] at hrdW
      refine ⟨ftR, fiR, hrdW, ?_, ?_⟩
      · intro k
        rw [hftR k, hnftlk k]
      · intro k
        rw [hfiR k, hnfilk k]

/-- The filesystem of claim C3's scenario: three sources, no includes, all
newer than their stored mtimes. -/
def c3fs : FS where
  files := {"src/A.c".data, "src/B.c".data, "src/C.c".data}
  mtime := fun _ => 5
  rawIncs := fun _ => []
  lineAt := fun _ _ => some "x".data

/-- The loaded file-times of claim C3's scenario (all stale). -/
def c3ft0 : PyDict Nat :=
  [("A.c".data, 4), ("B.c".data, 4), ("C.c".data, 4)]

/-- The loaded include maps of claim C3's scenario. -/
def c3fi0 : PyDict IncList :=
  [("A.c".data, []), ("B.c".data, []), ("C.c".data, [])]

/-- The store bytes claim C3's run starts from. -/
def c3content : Name := write_dep_file c3ft0 c3fi0

/-- The compiler oracle of claim C3's scenario: only `A.c` fails. -/
def c3ok : Name → Bool := fun fn => decide (fn ≠ "A.c".data)

/-- Claim C3's run result. -/
def c3res : RunResult :=
  (process_files 10 c3fs (some c3content) c3ok true).getD ⟨false, ∅, [], false, none⟩

/-- Claim C3's discovery result. -/
def c3r : DiscoverResult :=
  (discover 10 c3fs c3ft0 c3fi0 (collect_sources c3fs)).getD ⟨[], [], ∅, false, []⟩

/-- The bytes claim C3's run wrote back. -/
def c3w : Name := c3res.written.getD ['x']

/-- Counterexample to claim C3 as stated: `B.c` is scheduled, its compiler
invocation would succeed and is never attempted (the loop stopped at
`A.c`), yet the post-run store — here the empty store — omits `B.c`'s
entry too, not the failed file's only. -/
theorem claim_C3_counterexample :
    c3res.success = false ∧ c3res.linked = false ∧
    c3res.attempted = ["A.c".data] ∧
    "B.c".data ∈ c3res.recompile ∧ c3ok "B.c".data = true ∧
    c3res.written = some c3w ∧
    read_dep_file (some c3w) = some ([], []) := by
  decide

/-- Witness for claim C3's amended statement on the concrete scenario. -/
theorem claim_C3_partial_failure_witness :
    c3res.success = false ∧ c3res.linked = false ∧
    c3res.attempted = ["A.c".data] := by
  have h := claim_C3_partial_failure 10 c3fs (some c3content) c3ok true
    c3ft0 c3fi0 c3r c3res ?_ ?_ ?_ (by rfl) (by decide)
    (by decide) (by decide) (by decide)
  · exact ⟨h.1, h.2.1, by decide⟩
  · intro s hs
    rw [show collect_sources c3fs = ["A.c".data, "B.c".data, "C.c".data]
      from by decide] at hs
    rcases List.mem_cons.mp hs with rfl | hs
    · exact ⟨by decide, by decide⟩
    rcases List.mem_cons.mp hs with rfl | hs
    · exact ⟨by decide, by decide⟩
    rcases List.mem_cons.mp hs with rfl | hs
    · exact ⟨by decide, by decide⟩
    exact absurd hs (List.not_mem_nil s)
  · intro p q hq
    exact absurd hq (List.not_mem_nil q)
  · intro fn q hq
    simp only [c3fi0, PyDict.lookup] at hq
    split_ifs at hq <;> simp_all

/-- Claim C8 (amended): once discovery has succeeded, every invocation —
including one whose compilations or link failed — attempts the write-back,
writing the store exactly when the (invalidated) new state differs from the
loaded one; but an invocation whose *discovery* failed returns before the
write-back step and never persists anything. -/
theorem claim_C8_persistence (fuel : Nat) (fs : FS) (content : Option Name)
    (ok : Name → Bool) (lk : Bool) (ftL : PyDict Nat) (fiL : PyDict IncList)
    (r : DiscoverResult) (res : RunResult)
    (hrd : read_dep_file content = some (ftL, fiL))
    (hdisc : discover fuel fs ftL fiL (collect_sources fs) = some r)
    (hpf : process_files fuel fs content ok lk = some res) :
    (r.success = false → res.written = none ∧ res.success = false) ∧
    (r.success = true →
      res.written =
        if PyDict.eqb ((sortFinset (r.recompile \
              (compileLoop ok (sortFinset r.recompile)).2.1)).foldl
                PyDict.erase r.newft) ftL &&
           PyDict.eqb ((sortFinset (r.recompile \
              (compileLoop ok (sortFinset r.recompile)).2.1)).foldl
                PyDict.erase r.newfi) fiL
        then none
        else some (write_dep_file
          ((sortFinset (r.recompile \
              (compileLoop ok (sortFinset r.recompile)).2.1)).foldl
                PyDict.erase r.newft)
          ((sortFinset (r.recompile \
              (compileLoop ok (sortFinset r.recompile)).2.1)).foldl
                PyDict.erase r.newfi))) := by
  unfold process_files at hpf
  rw [hrd] at hpf
  simp only [] at hpf
  rw [hdisc] at hpf
  simp only [] at hpf
  constructor
  · intro hfail
    rw [if_neg (by rw [hfail]; exact Bool.false_ne_true)] at hpf
    have hres := (Option.some.inj hpf).symm
    constructor
    · have := congrArg RunResult.written hres
      simpa using this
    · have := congrArg RunResult.success hres
      simpa using this
  · intro hrs
    rw [if_pos hrs] at hpf
    have hres := (Option.some.inj hpf).symm
    have := congrArg RunResult.written hres
    simpa using this

/-- The filesystem of claim C8's discovery-failure scenario: `A.c` has an
unresolvable include, `C.c` is clean. -/
def c8fs : FS where
  files := {"src/A.c".data, "src/C.c".data}
  mtime := fun _ => 5
  rawIncs := fun p =>
    if p = "src/A.c".data then [("missing.h".data, 1)] else []
  lineAt := fun _ _ => some "#include \x22missing\x22".data

/-- Claim C8's discovery-failure discovery result. -/
def c8r : DiscoverResult :=
  (discover 10 c8fs [] [] (collect_sources c8fs)).getD ⟨[], [], ∅, false, []⟩

/-- Claim C8's discovery-failure run result. -/
def c8res : RunResult :=
  (process_files 10 c8fs none (fun _ => true) true).getD ⟨false, ∅, [], false, none⟩

/-- The filesystem of claim C8's compile-failure scenario. -/
def c8fs2 : FS where
  files := {"src/M.c".data}
  mtime := fun _ => 5
  rawIncs := fun _ => []
  lineAt := fun _ _ => some "x".data

/-- The loaded (stale) store of claim C8's compile-failure scenario. -/
def c8ft0 : PyDict Nat := [("M.c".data, 4)]

/-- The loaded include maps of claim C8's compile-failure scenario. -/
def c8fi0 : PyDict IncList := [("M.c".data, [])]

/-- The store bytes claim C8's compile-failure run starts from. -/
def c8content : Name := write_dep_file c8ft0 c8fi0

/-- Claim C8's compile-failure discovery result. -/
def c8r2 : DiscoverResult :=
  (discover 10 c8fs2 c8ft0 c8fi0 (collect_sources c8fs2)).getD ⟨[], [], ∅, false, []⟩

/-- Claim C8's compile-failure run result (every compilation fails). -/
def c8res2 : RunResult :=
  (process_files 10 c8fs2 (some c8content) (fun _ => false) true).getD
    ⟨false, ∅, [], false, none⟩

/-- Counterexample to claim C8 as stated: the discovery-failure invocation
fails while holding a valid new state that differs from the loaded one
(`C.c`'s fresh entry), yet persists nothing. -/
theorem claim_C8_counterexample :
    c8res.success = false ∧
    c8r.success = false ∧
    c8r.newft.lookup "C.c".data = some 5 ∧
    PyDict.eqb c8r.newft [] = false ∧
    c8res.written = none := by
  decide

/-- Witness for claim C8's amended statement: the discovery-failure run
writes nothing, while the compile-failure run (state differs: the stale
`M.c` entry was invalidated) does write the store. -/
theorem claim_C8_persistence_witness :
    (c8res.written = none ∧ c8res.success = false) ∧
    c8res2.written = some (write_dep_file [] []) := by
  have h1 := claim_C8_persistence 10 c8fs none (fun _ => true) true
    [] [] c8r c8res (by rfl) (by decide) (by decide)
  have h2 := claim_C8_persistence 10 c8fs2 (some c8content) (fun _ => false) true
    c8ft0 c8fi0 c8r2 c8res2 (by rfl) (by decide) (by decide)
  refine ⟨h1.1 (by decide), ?_⟩
  rw [h2.2 (by decide)]
  decide
